import Mathlib

/-!
# libcelt frame pipeline (`celt.c`)

A shallow embedding of `src/libcelt/celt.c`.

* A C array reached through a pointer is a `Sig α`: the cell at every `int` index.
  A store `a[i] = v` is `wr a i v`; pointer arithmetic `p + k` is `offs p k`.
* C `int`s are `Int`; `/` on ints is `Int.tdiv` (truncation towards zero).
* Samples (`float`, `celt_sig_t`, `celt_norm_t`) are an ordered field `α` with a floor,
  so the definitions run on `ℚ` and the theorems hold on `ℝ`.
* `for` loops are `cfor`; the two `while` loops take fuel.
* Functions of the library that `celt.c` calls but does not define (range coder, MDCT,
  band processing, quantisers, `check_mode`, allocation) are the fields of `Ext`.
-/

namespace Celt

/-! ## Memory and loops -/

/-- A C array: the content of the cell at each index. -/
abbrev Sig (α : Type) := Int → α

/-- The store `a[i] = v`. -/
def wr {α : Type} (a : Sig α) (i : Int) (v : α) : Sig α :=
  fun k => if k = i then v else a k

/-- The pointer `p + k`. -/
def offs {α : Type} (p : Sig α) (k : Int) : Sig α :=
  fun i => p (k + i)

/-- Body `body 0`, ..., `body (n-1)` run in this order on the state. -/
def forLoop {σ : Type} : Nat → (Int → σ → σ) → σ → σ
  | 0, _, s => s
  | n + 1, body, s => body (n : Int) (forLoop n body s)

/-- The loop `for (i = lo; i < hi; i++) body`. -/
def cfor {σ : Type} (lo hi : Int) (body : Int → σ → σ) (s : σ) : σ :=
  forLoop (hi - lo).toNat (fun k => body (lo + k)) s

/-- Call `CELT_MOVE(dst, src, n)` with `src = dst + off`: `memmove` of `n` cells. -/
def CELT_MOVE {α : Type} (dst : Sig α) (off n : Int) : Sig α :=
  fun k => if 0 ≤ k ∧ k < n then dst (off + k) else dst k

/-- The constant of `#define MAX_PERIOD 1024`. -/
def MAX_PERIOD : Int := 1024

/-! ## Modes, errors, external functions -/

/-- The fields of `CELTMode` that `celt.c` reads. -/
structure CELTMode where
  Fs : Int
  overlap : Int
  mdctSize : Int
  nbMdctBlocks : Int
  nbChannels : Int
  nbEBands : Int
  nbPBands : Int
deriving DecidableEq

/-- The negative return codes of `celt.h` used in `celt.c`. -/
inductive CeltError where
  | CELT_INVALID_MODE
  | CELT_INTERNAL_ERROR
  | CELT_CORRUPTED_DATA
deriving DecidableEq

/-- What `celt_warning` / `celt_warning_int` report. -/
inductive Warning where
  | manyUnusedBits (n : Int)
  | gotTooManyBytes (n : Int)
  | decodeError
deriving DecidableEq

/-- The library functions called by `celt.c` and defined elsewhere. A function that stores
through a pointer argument takes the old content and returns the new one. The range coder
state is the pair of the coder and the byte buffer it points to. -/
structure Ext (α : Type) where
  /-- The type `mdct_lookup`. -/
  Lookup : Type
  /-- The type `kiss_fftr_cfg`. -/
  Fft : Type
  /-- The type `struct PsyDecay`. -/
  Psy : Type
  /-- The type `ec_byte_buffer`. -/
  Buf : Type
  /-- The type `ec_enc`. -/
  Enc : Type
  /-- The type `ec_dec`. -/
  Dec : Type
  /-- Whether `check_mode(mode) == CELT_OK`. -/
  check_mode : CELTMode → Bool
  /-- Content of the block returned by `celt_alloc(size)`. -/
  celt_alloc : Int → Sig α
  sin : α → α
  M_PI : α
  mdct_init : Int → Lookup
  /-- Call `mdct_forward(lookup, in, out)`: the new `out` -/
  mdct_forward : Lookup → Sig α → Sig α → Sig α
  /-- Call `mdct_backward(lookup, in, out)`: the new `out` -/
  mdct_backward : Lookup → Sig α → Sig α → Sig α
  kiss_fftr_alloc : Int → Fft
  psydecay_init : Int → Int → Psy
  /-- Call `find_spectral_pitch(fft, psy, x, y, lag, len, C, &pitch)`: the pitch found -/
  find_spectral_pitch : Fft → Psy → Sig α → Sig α → Int → Int → Int → Int
  /-- Call `compute_band_energies(m, X, bank)`: the new `bank` -/
  compute_band_energies : CELTMode → Sig α → Sig α → Sig α
  /-- Call `normalise_bands(m, freq, X, bank)`: the new `X` -/
  normalise_bands : CELTMode → Sig α → Sig α → Sig α → Sig α
  /-- Call `renormalise_bands(m, X)`: the new `X` -/
  renormalise_bands : CELTMode → Sig α → Sig α
  /-- Call `denormalise_bands(m, X, freq, bank)`: the new `freq` -/
  denormalise_bands : CELTMode → Sig α → Sig α → Sig α → Sig α
  /-- Call `stereo_mix(m, X, bank, dir)`: the new `X` -/
  stereo_mix : CELTMode → Sig α → Sig α → Int → Sig α
  /-- Call `compute_pitch_gain(m, X, P, gains, bank)`: the new `gains` -/
  compute_pitch_gain : CELTMode → Sig α → Sig α → Sig α → Sig α → Sig α
  /-- Call `pitch_quant_bands(m, X, P, gains)`: the new `P` -/
  pitch_quant_bands : CELTMode → Sig α → Sig α → Sig α → Sig α
  ec_byte_writeinit : Buf
  ec_byte_reset : Buf → Buf
  ec_enc_init : Buf → Enc
  /-- Call `ec_enc_uint(enc, fl, ft)` -/
  ec_enc_uint : Enc × Buf → Int → Int → Enc × Buf
  /-- Call `ec_enc_tell(enc, b)` -/
  ec_enc_tell : Enc × Buf → Int → Int
  ec_enc_done : Enc × Buf → Enc × Buf
  ec_byte_bytes : Buf → Int
  ec_byte_get_buffer : Buf → Sig Nat
  /-- Call `quant_energy(m, eBands, oldEBands, budget, enc)`: new `eBands`, `oldEBands`, coder -/
  quant_energy : CELTMode → Sig α → Sig α → Int → Enc × Buf → Sig α × Sig α × (Enc × Buf)
  /-- Call `quant_pitch(gains, len, enc)`: returned flag, new `gains`, coder -/
  quant_pitch : Sig α → Int → Enc × Buf → Int × Sig α × (Enc × Buf)
  /-- Call `quant_bands(m, X, P, W, total_bits, enc)`: new `X`, `P`, coder -/
  quant_bands : CELTMode → Sig α → Sig α → Sig α → Int → Enc × Buf → Sig α × Sig α × (Enc × Buf)
  /-- Call `ec_byte_readinit(buf, data, len)` -/
  ec_byte_readinit : Sig Nat → Int → Buf
  ec_dec_init : Buf → Dec
  /-- Call `ec_dec_uint(dec, ft)`: the value and the coder -/
  ec_dec_uint : Dec × Buf → Int → Int × (Dec × Buf)
  /-- Call `ec_dec_tell(dec, b)` -/
  ec_dec_tell : Dec × Buf → Int → Int
  /-- Call `unquant_energy(m, eBands, oldEBands, budget, dec)`: new `eBands`, `oldEBands`, coder -/
  unquant_energy : CELTMode → Sig α → Sig α → Int → Dec × Buf → Sig α × Sig α × (Dec × Buf)
  /-- Call `unquant_pitch(gains, len, dec)`: returned flag, new `gains`, coder -/
  unquant_pitch : Sig α → Int → Dec × Buf → Int × Sig α × (Dec × Buf)
  /-- Call `unquant_bands(m, X, P, total_bits, dec)`: new `X`, `P`, coder -/
  unquant_bands : CELTMode → Sig α → Sig α → Int → Dec × Buf → Sig α × Sig α × (Dec × Buf)

variable {α : Type}

/-! ## State creation: the window -/

/-- The three window loops of `celt_encoder_create` (lines 119-125), on the freshly allocated
block `w0`. -/
def encoder_window [Field α] (sinf : α → α) (M_PI : α) (N overlap : Int) (w0 : Sig α) : Sig α :=
  let N4 := (N - overlap).tdiv 2
  let w1 := cfor 0 (2 * N) (fun i w => wr w i 0) w0
  let w2 := cfor 0 overlap (fun i w =>
    let v := sinf (1 / 2 * M_PI * sinf (1 / 2 * M_PI * ((i : α) + 1 / 2) / (overlap : α))
                    * sinf (1 / 2 * M_PI * ((i : α) + 1 / 2) / (overlap : α)))
    wr (wr w (2 * N - N4 - i - 1) v) (N4 + i) v) w1
  cfor 0 (2 * N4) (fun i w => wr w (N - N4 + i) 1) w2

/-- The three window loops of `celt_decoder_create` (lines 491-497). -/
def decoder_window [Field α] (sinf : α → α) (M_PI : α) (N overlap : Int) (w0 : Sig α) : Sig α :=
  let N4 := (N - overlap).tdiv 2
  let w1 := cfor 0 (2 * N) (fun i w => wr w i 0) w0
  let w2 := cfor 0 overlap (fun i w =>
    let v := sinf (1 / 2 * M_PI * sinf (1 / 2 * M_PI * ((i : α) + 1 / 2) / (overlap : α))
                    * sinf (1 / 2 * M_PI * ((i : α) + 1 / 2) / (overlap : α)))
    wr (wr w (2 * N - N4 - i - 1) v) (N4 + i) v) w1
  cfor 0 (2 * N4) (fun i w => wr w (N - N4 + i) 1) w2

/-! ## Encoder and decoder states -/

/-- The `struct CELTEncoder` (the field `channels`, which no function reads or writes, is
left out). -/
structure CELTEncoder (α : Type) (E : Ext α) where
  mode : CELTMode
  frame_size : Int
  block_size : Int
  nb_blocks : Int
  overlap : Int
  buf : E.Buf
  enc : E.Enc
  preemph : α
  preemph_memE : Sig α
  preemph_memD : Sig α
  mdct_lookup : E.Lookup
  fft : E.Fft
  psy : E.Psy
  window : Sig α
  in_mem : Sig α
  mdct_overlap : Sig α
  out_mem : Sig α
  oldBandE : Sig α

/-- The `struct CELTDecoder` (the fields `buf` and `enc`, which no function reads or writes,
are left out). -/
structure CELTDecoder (α : Type) (E : Ext α) where
  mode : CELTMode
  frame_size : Int
  block_size : Int
  nb_blocks : Int
  overlap : Int
  preemph : α
  preemph_memD : Sig α
  mdct_lookup : E.Lookup
  window : Sig α
  mdct_overlap : Sig α
  out_mem : Sig α
  oldBandE : Sig α
  last_pitch_index : Int

/-- The function `celt_encoder_create`; `none` is the `NULL` return. -/
def celt_encoder_create [Field α] (E : Ext α) (mode : CELTMode) : Option (CELTEncoder α E) :=
  if E.check_mode mode then
    let N := mode.mdctSize
    let B := mode.nbMdctBlocks
    let C := mode.nbChannels
    let buf := E.ec_byte_writeinit
    some {
      mode := mode
      frame_size := B * N
      block_size := N
      nb_blocks := B
      overlap := mode.overlap
      buf := buf
      enc := E.ec_enc_init buf
      mdct_lookup := E.mdct_init (2 * N)
      fft := E.kiss_fftr_alloc (MAX_PERIOD * C)
      psy := E.psydecay_init ((MAX_PERIOD * C).tdiv 2) mode.Fs
      window := encoder_window E.sin E.M_PI N mode.overlap (E.celt_alloc (2 * N))
      in_mem := E.celt_alloc (N * C)
      mdct_overlap := E.celt_alloc (N * C)
      out_mem := E.celt_alloc (MAX_PERIOD * C)
      oldBandE := E.celt_alloc (C * mode.nbEBands)
      preemph := 8 / 10
      preemph_memE := E.celt_alloc C
      preemph_memD := E.celt_alloc C }
  else none

/-- The function `celt_decoder_create`; `none` is the `NULL` return. -/
def celt_decoder_create [Field α] (E : Ext α) (mode : CELTMode) : Option (CELTDecoder α E) :=
  if E.check_mode mode then
    let N := mode.mdctSize
    let B := mode.nbMdctBlocks
    let C := mode.nbChannels
    some {
      mode := mode
      frame_size := B * N
      block_size := N
      nb_blocks := B
      overlap := mode.overlap
      mdct_lookup := E.mdct_init (2 * N)
      window := decoder_window E.sin E.M_PI N mode.overlap (E.celt_alloc (2 * N))
      mdct_overlap := E.celt_alloc (N * C)
      out_mem := E.celt_alloc (MAX_PERIOD * C)
      oldBandE := E.celt_alloc (C * mode.nbEBands)
      preemph := 8 / 10
      preemph_memD := E.celt_alloc C
      last_pitch_index := 0 }
  else none

/-! ## Forward and inverse MDCTs of a frame -/

/-- The locals of `compute_mdcts` that its loops update. -/
structure MdctSt (α : Type) where
  E_ : α
  out : Sig α
  x : Sig α
  tmp : Sig α

/-- The loop "Interleaving the sub-frames" of `compute_mdcts` (lines 185-186). -/
def interleave (tmp : Sig α) (N B C c i : Int) (out : Sig α) : Sig α :=
  cfor 0 N (fun j out => wr out (C * B * j + C * i + c) (tmp j)) out

/-- The loop "De-interleaving the sub-frames" of `compute_inv_mdcts` (lines 207-208). -/
def deinterleave (X : Sig α) (N B C c i : Int) (tmp : Sig α) : Sig α :=
  cfor 0 N (fun j tmp => wr tmp j (X (C * B * j + C * i + c))) tmp

/-- The windowing loop of `compute_mdcts` (lines 178-182), which also accumulates `E`. -/
def mdct_window [Field α] (window inp : Sig α) (N C c i : Int) (s : MdctSt α) : MdctSt α :=
  cfor 0 (2 * N) (fun j (s : MdctSt α) =>
    let x := wr s.x j (window j * inp (C * i * N + C * j + c))
    { s with x := x, E_ := s.E_ + x j * x j }) s

/-- The body of the sub-block loop of `compute_mdcts` (lines 177-186). -/
def mdct_block [Field α] (E : Ext α) (lookup : E.Lookup) (window inp : Sig α)
    (N B C c i : Int) (s : MdctSt α) : MdctSt α :=
  let s1 := mdct_window window inp N C c i s
  let tmp := E.mdct_forward lookup s1.x s1.tmp
  { s1 with tmp := tmp, out := interleave tmp N B C c i s1.out }

/-- The function `compute_mdcts`; `x0` and `tmp0` are the contents of the two scratch arrays
when they are allocated. Returns `E` and the new `out`. -/
def compute_mdcts [Field α] (E : Ext α) (lookup : E.Lookup) (window inp out : Sig α)
    (N B C : Int) (x0 tmp0 : Sig α) : α × Sig α :=
  let s := cfor 0 C (fun c s => cfor 0 B (fun i s =>
      mdct_block E lookup window inp N B C c i s) s)
    { E_ := 1 / 1000000000000000, out := out, x := x0, tmp := tmp0 : MdctSt α }
  (s.E_, s.out)

/-- The cells of sub-block `i` of channel `c` in the interleaved array `o` hold the first `N`
values that `mdct_forward` returned for the windowed samples of that sub-block. -/
def BlockDone [Field α] (E : Ext α) (lookup : E.Lookup) (window inp : Sig α)
    (N B C c i : Int) (o : Sig α) : Prop :=
  ∃ x t : Sig α, (∀ j, 0 ≤ j → j < 2 * N → x j = window j * inp (C * (i * N + j) + c)) ∧
    ∀ j, 0 ≤ j → j < N → o (C * B * j + C * i + c) = E.mdct_forward lookup x t j

/-- The locals and arrays that the loops of `compute_inv_mdcts` update. -/
structure InvSt (α : Type) where
  out_mem : Sig α
  mdct_overlap : Sig α
  x : Sig α
  tmp : Sig α

/-- The body of the sub-block loop of `compute_inv_mdcts` (lines 205-217). -/
def inv_mdct_block [Field α] (E : Ext α) (lookup : E.Lookup) (window X : Sig α)
    (N overlap B C : Int) (c i : Int) (s : InvSt α) : InvSt α :=
  let N4 := (N - overlap).tdiv 2
  let tmp := deinterleave X N B C c i s.tmp
  let x := E.mdct_backward lookup tmp s.x
  let x := cfor 0 (2 * N) (fun j x => wr x j (window j * x j)) x
  let out_mem := cfor 0 overlap (fun j o =>
    wr o (C * (MAX_PERIOD + (i - B) * N) + C * j + c) (x (N4 + j) + s.mdct_overlap (C * j + c)))
    s.out_mem
  let out_mem := cfor 0 (2 * N4) (fun j o =>
    wr o (C * (MAX_PERIOD + (i - B) * N) + C * (j + overlap) + c) (x (j + N4 + overlap)))
    out_mem
  let mdct_overlap := cfor 0 overlap (fun j m => wr m (C * j + c) (x (N + N4 + j)))
    s.mdct_overlap
  { out_mem := out_mem, mdct_overlap := mdct_overlap, x := x, tmp := tmp }

/-- The function `compute_inv_mdcts`; returns the new `out_mem` and `mdct_overlap`. -/
def compute_inv_mdcts [Field α] (E : Ext α) (lookup : E.Lookup) (window X out_mem
    mdct_overlap : Sig α) (N overlap B C : Int) (x0 tmp0 : Sig α) : Sig α × Sig α :=
  let s := cfor 0 C (fun c s => cfor 0 B (fun i s =>
      inv_mdct_block E lookup window X N overlap B C c i s) s)
    { out_mem := out_mem, mdct_overlap := mdct_overlap, x := x0, tmp := tmp0 : InvSt α }
  (s.out_mem, s.mdct_overlap)

/-- The state of `compute_inv_mdcts` when it enters sub-block `i` of channel `c`: the loops
run up to there. -/
def inv_mdct_state [Field α] (E : Ext α) (lookup : E.Lookup) (window X out_mem
    mdct_overlap : Sig α) (N overlap B C : Int) (x0 tmp0 : Sig α) (c i : Int) : InvSt α :=
  cfor 0 i (fun i s => inv_mdct_block E lookup window X N overlap B C c i s)
    (cfor 0 c (fun c s => cfor 0 B (fun i s =>
      inv_mdct_block E lookup window X N overlap B C c i s) s)
    { out_mem := out_mem, mdct_overlap := mdct_overlap, x := x0, tmp := tmp0 : InvSt α })

/-! ## De-emphasis, clamping and rounding -/

/-- The conversion `(short)z` of an integral value (wrapping outside the 16-bit range). -/
def toShort (z : Int) : Int := (z + 32768) % 65536 - 32768

/-- The two clamps and `(short)floor(.5+tmp)` of the de-emphasis loops. -/
def clamp_round [LinearOrderedField α] [FloorRing α] (tmp : α) : Int :=
  let tmp := if tmp > 32767 then 32767 else tmp
  let tmp := if tmp < -32767 then -32767 else tmp
  toShort ⌊1 / 2 + tmp⌋

/-- The de-emphasis loop nest, which `celt_encode` (lines 378-392), `celt_decode_lost`
(lines 552-566) and `celt_decode` (lines 654-668) each contain with the same text.
Returns the new `preemph_memD` and `pcm`. -/
def deemphasis [LinearOrderedField α] [FloorRing α] (out_mem : Sig α) (preemph : α)
    (preemph_memD : Sig α) (pcm : Sig Int) (N B C : Int) : Sig α × Sig Int :=
  cfor 0 C (fun c s => cfor 0 B (fun i s => cfor 0 N (fun j (s : Sig α × Sig Int) =>
    let tmp := out_mem (C * (MAX_PERIOD + (i - B) * N) + C * j + c) + preemph * s.1 c
    (wr s.1 c tmp, wr s.2 (C * i * N + C * j + c) (clamp_round tmp))) s) s)
    (preemph_memD, pcm)

/-! ## Decoder -/

/-- The function `celt_decode_lost`. The content of the `k`-th array taken from the stack
when it is allocated is `stack k`. Returns the new state and `pcm`. -/
def celt_decode_lost [LinearOrderedField α] [FloorRing α] (E : Ext α) (st : CELTDecoder α E)
    (pcm : Sig Int) (stack : Nat → Sig α) : CELTDecoder α E × Sig Int :=
  let N := st.block_size
  let B := st.nb_blocks
  let C := st.mode.nbChannels
  let freq := stack 0
  let pitch_index := st.last_pitch_index
  let freq := (compute_mdcts E st.mdct_lookup st.window (offs st.out_mem (pitch_index * C))
    freq N B C (stack 1) (stack 2)).2
  let out_mem := CELT_MOVE st.out_mem (C * B * N) (C * (MAX_PERIOD - B * N))
  let r := compute_inv_mdcts E st.mdct_lookup st.window freq out_mem st.mdct_overlap
    N st.overlap B C (stack 3) (stack 4)
  let d := deemphasis r.1 st.preemph st.preemph_memD pcm N B C
  ({ st with out_mem := r.1, mdct_overlap := r.2, preemph_memD := d.1 }, d.2)

/-- The trailer loop of `celt_decode` (lines 670-681): `some true` when the loop ends without
a mismatch, `some false` at the `return CELT_CORRUPTED_DATA`, `none` when the fuel runs out. -/
def dec_trailer (E : Ext α) (len : Int) : Nat → E.Dec × E.Buf → Int → Option Bool
  | 0, dec, _ => if E.ec_dec_tell dec 0 < len * 8 then none else some true
  | fuel + 1, dec, val =>
    if E.ec_dec_tell dec 0 < len * 8 then
      let r := E.ec_dec_uint dec 2
      if r.1 ≠ val then some false
      else dec_trailer E len fuel r.2 (1 - val)
    else some true

/-- What `celt_decode` has done when it reaches the trailer loop (lines 603-668), for a
non-null `data`: the state, `pcm` and the range decoder. -/
def celt_decode_frame [LinearOrderedField α] [FloorRing α] (E : Ext α) (st : CELTDecoder α E)
    (data : Sig Nat) (len : Int) (pcm : Sig Int) (stack : Nat → Sig α) :
    CELTDecoder α E × Sig Int × (E.Dec × E.Buf) :=
  let N := st.block_size
  let B := st.nb_blocks
  let C := st.mode.nbChannels
  let freq := stack 0
  let X := stack 1
  let P := stack 2
  let bandE := stack 3
  let gains := stack 4
  let buf := E.ec_byte_readinit data len
  let dec := (E.ec_dec_init buf, buf)
  let e := E.unquant_energy st.mode bandE st.oldBandE ((len * 8).tdiv 3) dec
  let bandE := e.1
  let oldBandE := e.2.1
  let g := E.unquant_pitch gains st.mode.nbPBands e.2.2
  let has_pitch := g.1
  let gains := g.2.1
  let pi := if has_pitch ≠ 0 then
      let u := E.ec_dec_uint g.2.2 (MAX_PERIOD - (B + 1) * N)
      (u.1, u.1, u.2)
    else (0, st.last_pitch_index, g.2.2)
  let pitch_index := pi.1
  let last_pitch_index := pi.2.1
  let dec := pi.2.2
  let freq := (compute_mdcts E st.mdct_lookup st.window (offs st.out_mem (pitch_index * C))
    freq N B C (stack 5) (stack 6)).2
  let bandEp := E.compute_band_energies st.mode freq (stack 7)
  let P := E.normalise_bands st.mode freq P bandEp
  let P := if C = 2 then E.stereo_mix st.mode P bandE 1 else P
  let P := E.pitch_quant_bands st.mode X P gains
  let q := E.unquant_bands st.mode X P (len * 8) dec
  let X := q.1
  let dec := q.2.2
  let X := if C = 2 then E.renormalise_bands st.mode (E.stereo_mix st.mode X bandE (-1)) else X
  let freq := E.denormalise_bands st.mode X freq bandE
  let out_mem := CELT_MOVE st.out_mem (C * B * N) (C * (MAX_PERIOD - B * N))
  let r := compute_inv_mdcts E st.mdct_lookup st.window freq out_mem st.mdct_overlap
    N st.overlap B C (stack 8) (stack 9)
  let d := deemphasis r.1 st.preemph st.preemph_memD pcm N B C
  ({ st with oldBandE := oldBandE, last_pitch_index := last_pitch_index, out_mem := r.1,
             mdct_overlap := r.2, preemph_memD := d.1 }, d.2, dec)

/-- What a call of `celt_decode` leaves: the returned value, the state and `pcm`. -/
structure DecodeResult (α : Type) (E : Ext α) where
  ret : Except CeltError Int
  st : CELTDecoder α E
  pcm : Sig Int
  warnings : List Warning

/-- The function `celt_decode`; `data = none` is the `NULL` pointer, and the result is `none`
when the fuel of the trailer loop runs out. -/
def celt_decode [LinearOrderedField α] [FloorRing α] (E : Ext α) (fuel : Nat)
    (st : CELTDecoder α E) (data : Option (Sig Nat)) (len : Int) (pcm : Sig Int)
    (stack : Nat → Sig α) : Option (DecodeResult α E) :=
  if ¬ E.check_mode st.mode then
    some { ret := .error .CELT_INVALID_MODE, st := st, pcm := pcm, warnings := [] }
  else if ¬ E.check_mode st.mode then
    some { ret := .error .CELT_INVALID_MODE, st := st, pcm := pcm, warnings := [] }
  else
    match data with
    | none =>
      let r := celt_decode_lost E st pcm stack
      some { ret := .ok 0, st := r.1, pcm := r.2, warnings := [] }
    | some data =>
      let f := celt_decode_frame E st data len pcm stack
      match dec_trailer E len fuel f.2.2 0 with
      | none => none
      | some true => some { ret := .ok 0, st := f.1, pcm := f.2.1, warnings := [] }
      | some false =>
        some { ret := .error .CELT_CORRUPTED_DATA, st := f.1, pcm := f.2.1,
               warnings := [.decodeError] }

/-! ## Encoder -/

/-- The arrays that the input loops of `celt_encode` update. -/
structure InSt (α : Type) where
  inp : Sig α
  in_mem : Sig α
  preemph_memE : Sig α

/-- The body of the channel loop of the input framing of `celt_encode` (lines 254-267). -/
def input_channel [Field α] (E : Ext α) (st : CELTEncoder α E) (pcm : Sig Int) (c : Int)
    (s : InSt α) : InSt α :=
  let N := st.block_size
  let B := st.nb_blocks
  let C := st.mode.nbChannels
  let N4 := (N - st.overlap).tdiv 2
  let inp := cfor 0 N4 (fun i a => wr a (C * i + c) 0) s.inp
  let inp := cfor 0 st.overlap (fun i a => wr a (C * (i + N4) + c) (s.in_mem (C * i + c))) inp
  let s1 := cfor 0 (B * N) (fun i (s : InSt α) =>
    let tmp : α := (pcm (C * i + c) : α)
    { s with inp := wr s.inp (C * (i + st.overlap + N4) + c)
                      (tmp - st.preemph * s.preemph_memE c),
             preemph_memE := wr s.preemph_memE c tmp })
    { s with inp := inp }
  let inp := cfor (N * (B + 1) - N4) (N * (B + 1)) (fun i a => wr a (C * i + c) 0) s1.inp
  let in_mem := cfor 0 st.overlap (fun i m =>
    wr m (C * i + c) (inp (C * (N * (B + 1) - N4 - st.overlap + i) + c))) s1.in_mem
  { inp := inp, in_mem := in_mem, preemph_memE := s1.preemph_memE }

/-- The input framing loops of `celt_encode` (lines 250-268); `in0` is the content of `in`
when it is allocated. -/
def celt_encode_input [Field α] (E : Ext α) (st : CELTEncoder α E) (pcm : Sig Int)
    (in0 : Sig α) : InSt α :=
  cfor 0 st.mode.nbChannels (fun c s => input_channel E st pcm c s)
    { inp := in0, in_mem := st.in_mem, preemph_memE := st.preemph_memE }

/-- The values `celt_encode` holds when it reaches the pitch gating test of line 322. -/
structure Analysis (α : Type) (E : Ext α) where
  io : InSt α
  curr_power : α
  mask : Sig α
  pitch_index : Int
  bandE : Sig α
  X : Sig α
  pitch_power : α
  freq : Sig α
  oldBandE : Sig α
  coder : E.Enc × E.Buf

/-- Lines 239-320 of `celt_encode`: input framing, MDCTs of the input and of the pitch
reference, pitch search, band energies and their quantisation. -/
def celt_encode_analysis [Field α] (E : Ext α) (st : CELTEncoder α E) (pcm : Sig Int)
    (nbCompressedBytes : Int) (stack : Nat → Sig α) : Analysis α E :=
  let N := st.block_size
  let B := st.nb_blocks
  let C := st.mode.nbChannels
  let io := celt_encode_input E st pcm (stack 0)
  let m := compute_mdcts E st.mdct_lookup st.window io.inp (stack 1) N B C (stack 7) (stack 8)
  let mask := cfor 0 (B * C * N) (fun i a => wr a i 1) (stack 4)
  let inp := cfor 0 C (fun c a => cfor 0 N (fun i a =>
      let a := wr a (C * i + c) (a (C * i + c) * st.window i)
      wr a (C * (B * N + i) + c) (a (C * (B * N + i) + c) * st.window (N + i))) a) io.inp
  let pitch_index := E.find_spectral_pitch st.fft st.psy inp st.out_mem MAX_PERIOD
    ((B + 1) * N) C
  let bandE := E.compute_band_energies st.mode m.2 (stack 5)
  let X := E.normalise_bands st.mode m.2 (stack 2) bandE
  let p := compute_mdcts E st.mdct_lookup st.window (offs st.out_mem (pitch_index * C)) m.2
    N B C (stack 9) (stack 10)
  let q := E.quant_energy st.mode bandE st.oldBandE ((nbCompressedBytes * 8).tdiv 3)
    (st.enc, st.buf)
  let X := if C = 2 then E.stereo_mix st.mode X q.1 1 else X
  { io := { io with inp := inp }, curr_power := m.1, mask := mask, pitch_index := pitch_index,
    bandE := q.1, X := X, pitch_power := p.1, freq := p.2, oldBandE := q.2.1, coder := q.2.2 }

/-- The pitch block of `celt_encode` (lines 322-348): the new `gains`, `P` and coder. -/
def celt_encode_pitch [LinearOrderedField α] (E : Ext α) (mode : CELTMode) (N B C : Int)
    (curr_power pitch_power : α) (pitch_index : Int) (X P freq bandE gains bandEp : Sig α)
    (coder : E.Enc × E.Buf) : Sig α × Sig α × (E.Enc × E.Buf) :=
  if curr_power + 100000 < 10 * pitch_power then
    let bandEp := E.compute_band_energies mode freq bandEp
    let P := E.normalise_bands mode freq P bandEp
    let P := if C = 2 then E.stereo_mix mode P bandE 1 else P
    let gains := E.compute_pitch_gain mode X P gains bandE
    let h := E.quant_pitch gains mode.nbPBands coder
    let coder := if h.1 ≠ 0 then E.ec_enc_uint h.2.2 pitch_index (MAX_PERIOD - (B + 1) * N)
      else h.2.2
    (h.2.1, P, coder)
  else
    let gains := cfor 0 mode.nbPBands (fun i g => wr g i 0) gains
    let coder := E.ec_enc_uint coder 0 128
    let P := cfor 0 (B * C * N) (fun i p => wr p i 0) P
    (gains, P, coder)

/-- The trailer loop of `celt_encode` (lines 398-405); `none` when the fuel runs out. -/
def enc_trailer (E : Ext α) (nbCompressedBytes : Int) :
    Nat → E.Enc × E.Buf → Int → Option (E.Enc × E.Buf)
  | 0, coder, _ => if E.ec_enc_tell coder 0 < nbCompressedBytes * 8 then none else some coder
  | fuel + 1, coder, val =>
    if E.ec_enc_tell coder 0 < nbCompressedBytes * 8 then
      enc_trailer E nbCompressedBytes fuel (E.ec_enc_uint coder val 2) (1 - val)
    else some coder

/-- What a call of `celt_encode` leaves: the returned value, the state, `pcm`, `compressed`
and the warnings raised, in order. -/
structure EncodeResult (α : Type) (E : Ext α) where
  ret : Except CeltError Int
  st : CELTEncoder α E
  pcm : Sig Int
  compressed : Sig Nat
  warnings : List Warning

/-- Lines 351-392 of `celt_encode`: residual, its quantisation, synthesis and de-emphasis.
Returns the state, `pcm` and the coder. -/
def celt_encode_synthesis [LinearOrderedField α] [FloorRing α] (E : Ext α)
    (st : CELTEncoder α E) (pcm : Sig Int) (nbCompressedBytes : Int) (stack : Nat → Sig α)
    (a : Analysis α E) (gp : Sig α × Sig α × (E.Enc × E.Buf)) :
    CELTEncoder α E × Sig Int × (E.Enc × E.Buf) :=
  let N := st.block_size
  let B := st.nb_blocks
  let C := st.mode.nbChannels
  let P := E.pitch_quant_bands st.mode a.X gp.2.1 gp.1
  let X := cfor 0 (B * C * N) (fun i x => wr x i (x i - P i)) a.X
  let q := E.quant_bands st.mode X P a.mask (nbCompressedBytes * 8) gp.2.2
  let X := if C = 2 then E.renormalise_bands st.mode (E.stereo_mix st.mode q.1 a.bandE (-1))
    else q.1
  let freq := E.denormalise_bands st.mode X a.freq a.bandE
  let out_mem := CELT_MOVE st.out_mem (C * B * N) (C * (MAX_PERIOD - B * N))
  let r := compute_inv_mdcts E st.mdct_lookup st.window freq out_mem st.mdct_overlap
    N st.overlap B C (stack 12) (stack 13)
  let d := deemphasis r.1 st.preemph st.preemph_memD pcm N B C
  ({ st with in_mem := a.io.in_mem, preemph_memE := a.io.preemph_memE, oldBandE := a.oldBandE,
             out_mem := r.1, mdct_overlap := r.2, preemph_memD := d.1 }, d.2, q.2.2)

/-- The range coder of `celt_encode` just after `ec_enc_done` (line 406), given the coder
left by the residual quantisation; `none` when the fuel of the trailer loop runs out. -/
def celt_encode_done (E : Ext α) (nbCompressedBytes : Int) (fuel : Nat)
    (coder : E.Enc × E.Buf) : Option (E.Enc × E.Buf) :=
  (enc_trailer E nbCompressedBytes fuel coder 0).map E.ec_enc_done

/-- Lines 394-426 of `celt_encode`: warning, trailer, `ec_enc_done`, copy to `compressed`
and coder reset. -/
def celt_encode_finish (E : Ext α) (nbCompressedBytes : Int) (fuel : Nat)
    (st : CELTEncoder α E) (pcm : Sig Int) (compressed : Sig Nat) (coder : E.Enc × E.Buf) :
    Option (EncodeResult α E) :=
  let w := if E.ec_enc_tell coder 0 < nbCompressedBytes * 8 - 7 then
      [Warning.manyUnusedBits (nbCompressedBytes * 8 - E.ec_enc_tell coder 0)] else []
  match celt_encode_done E nbCompressedBytes fuel coder with
  | none => none
  | some coder =>
    let nbBytes := E.ec_byte_bytes coder.2
    if nbBytes > nbCompressedBytes then
      some { ret := .error .CELT_INTERNAL_ERROR,
             st := { st with enc := coder.1, buf := coder.2 }, pcm := pcm,
             compressed := compressed, warnings := w ++ [.gotTooManyBytes nbBytes] }
    else
      let data := E.ec_byte_get_buffer coder.2
      let compressed := cfor 0 nbBytes (fun i a => wr a i (data i)) compressed
      let compressed := cfor (if 0 < nbBytes then nbBytes else 0) nbCompressedBytes
        (fun i a => wr a i 0) compressed
      let buf := E.ec_byte_reset coder.2
      some { ret := .ok nbCompressedBytes,
             st := { st with enc := E.ec_enc_init buf, buf := buf }, pcm := pcm,
             compressed := compressed, warnings := w }

/-- The range coder of a `celt_encode` call when it leaves the residual quantisation. -/
def celt_encode_coder [LinearOrderedField α] [FloorRing α] (E : Ext α)
    (st : CELTEncoder α E) (pcm : Sig Int) (nbCompressedBytes : Int) (stack : Nat → Sig α) :
    E.Enc × E.Buf :=
  let a := celt_encode_analysis E st pcm nbCompressedBytes stack
  let gp := celt_encode_pitch E st.mode st.block_size st.nb_blocks st.mode.nbChannels
    a.curr_power a.pitch_power a.pitch_index a.X (stack 3) a.freq a.bandE (stack 6) (stack 11)
    a.coder
  (celt_encode_synthesis E st pcm nbCompressedBytes stack a gp).2.2

/-- The function `celt_encode`; the result is `none` when the fuel of the trailer loop runs
out. -/
def celt_encode [LinearOrderedField α] [FloorRing α] (E : Ext α) (fuel : Nat)
    (st : CELTEncoder α E) (pcm : Sig Int) (compressed : Sig Nat) (nbCompressedBytes : Int)
    (stack : Nat → Sig α) : Option (EncodeResult α E) :=
  if ¬ E.check_mode st.mode then
    some { ret := .error .CELT_INVALID_MODE, st := st, pcm := pcm, compressed := compressed,
           warnings := [] }
  else
    let a := celt_encode_analysis E st pcm nbCompressedBytes stack
    let gp := celt_encode_pitch E st.mode st.block_size st.nb_blocks st.mode.nbChannels
      a.curr_power a.pitch_power a.pitch_index a.X (stack 3) a.freq a.bandE (stack 6) (stack 11)
      a.coder
    let s := celt_encode_synthesis E st pcm nbCompressedBytes stack a gp
    celt_encode_finish E nbCompressedBytes fuel s.1 s.2.1 compressed s.2.2

/-- The range decoder after `k` more two-valued symbols have been read from it. -/
def dec_after (E : Ext α) : (E.Dec × E.Buf) → Nat → E.Dec × E.Buf
  | dec, 0 => dec
  | dec, k + 1 => dec_after E (E.ec_dec_uint dec 2).2 k

/-- The `k`-th two-valued symbol (from `0`) that the range decoder yields. -/
def trailer_symbol (E : Ext α) (dec : E.Dec × E.Buf) (k : Nat) : Int :=
  (E.ec_dec_uint (dec_after E dec k) 2).1

/-- The range encoder after the two-valued symbols `p mod 2, (p+1) mod 2, ...` (`n` of them)
have been written to it. -/
def enc_after (E : Ext α) : (E.Enc × E.Buf) → Nat → Nat → E.Enc × E.Buf
  | coder, _, 0 => coder
  | coder, p, n + 1 => enc_after E (E.ec_enc_uint coder ((p % 2 : Nat) : Int) 2) (p + 1) n

/-! ## A small instance of the external functions

`testExt` instantiates `Ext` over `ℚ`, to run the definitions on concrete inputs: the MDCT of
size `N = 1` (`X[0] = x[0]·cos(π/2) + x[1]·cos(π) = -x[1]`, inverse `y[0] = 0`,
`y[1] = -X[0]`), a coder that stores each symbol in `ilog2(ft-1)+1` raw bits and counts them,
band processing that copies its input, an energy quantiser that codes nothing, a pitch
quantiser that codes the 7-bit marker `0`, and a residual quantiser that codes `X[0]` as an
8-bit integer. -/

/-- The number of raw bits `testExt` spends on a symbol of range `ft`. -/
def testBits (ft : Int) : Nat := Nat.log2 (ft.toNat - 1) + 1

/-- The raw bits of `v`, least significant first. -/
def testToBits (v : Int) (n : Nat) : List Nat :=
  (List.range n).map (fun k => (v.toNat / 2 ^ k) % 2)

/-- The value of `n` raw bits of `b` from position `pos`. -/
def testFromBits (b : List Nat) (pos n : Nat) : Int :=
  ((List.range n).map (fun k => b.getD (pos + k) 0 * 2 ^ k)).sum

/-- The instance described above. -/
def testExt : Ext ℚ where
  Lookup := Int
  Fft := Unit
  Psy := Unit
  Buf := List Nat
  Enc := Unit
  Dec := Nat
  check_mode := fun m => decide (1 ≤ m.nbChannels ∧ m.nbChannels ≤ 2 ∧ 1 ≤ m.nbMdctBlocks ∧
    0 ≤ m.overlap ∧ m.overlap ≤ m.mdctSize ∧ (m.mdctSize - m.overlap) % 2 = 0)
  celt_alloc := fun _ _ => 0
  sin := fun x => x
  M_PI := 3
  mdct_init := fun n => n
  mdct_forward := fun _ x out => wr out 0 (-(x 1))
  mdct_backward := fun _ X out => wr (wr out 0 0) 1 (-(X 0))
  kiss_fftr_alloc := fun _ => ()
  psydecay_init := fun _ _ => ()
  find_spectral_pitch := fun _ _ _ _ _ _ _ => 0
  compute_band_energies := fun _ _ bank => bank
  normalise_bands := fun _ freq _ _ => freq
  renormalise_bands := fun _ X => X
  denormalise_bands := fun _ X _ _ => X
  stereo_mix := fun _ X _ _ => X
  compute_pitch_gain := fun _ _ _ gains _ => gains
  pitch_quant_bands := fun _ _ P _ => P
  ec_byte_writeinit := []
  ec_byte_reset := fun _ => []
  ec_enc_init := fun _ => ()
  ec_enc_uint := fun cd fl ft => ((), cd.2 ++ testToBits fl (testBits ft))
  ec_enc_tell := fun cd _ => (cd.2.length : Int)
  ec_enc_done := fun cd => cd
  ec_byte_bytes := fun b => ((b.length + 7) / 8 : Nat)
  ec_byte_get_buffer := fun b k => (testFromBits b (8 * k.toNat) 8).toNat
  quant_energy := fun _ eBands oldEBands _ cd => (eBands, oldEBands, cd)
  quant_pitch := fun gains _ cd => (0, gains, ((), cd.2 ++ testToBits 0 7))
  quant_bands := fun _ X P _ _ cd => (X, P, ((), cd.2 ++ testToBits ⌊X 0⌋ 8))
  ec_byte_readinit := fun data len =>
    (List.range (8 * len.toNat)).map (fun t => (data (t / 8 : Nat) / 2 ^ (t % 8)) % 2)
  ec_dec_init := fun _ => 0
  ec_dec_uint := fun d ft => (testFromBits d.2 d.1 (testBits ft), (d.1 + testBits ft, d.2))
  ec_dec_tell := fun d _ => (d.1 : Int)
  unquant_energy := fun _ eBands oldEBands _ d => (eBands, oldEBands, d)
  unquant_pitch := fun gains _ d => (testFromBits d.2 d.1 7, gains, (d.1 + 7, d.2))
  unquant_bands := fun _ X P _ d => (wr X 0 (testFromBits d.2 d.1 8 : ℚ), P, (d.1 + 8, d.2))

/-- The mode with one channel, one sub-block, `N = 1` and overlap `1`. -/
def testMode : CELTMode :=
  { Fs := 48000, overlap := 1, mdctSize := 1, nbMdctBlocks := 1, nbChannels := 1,
    nbEBands := 1, nbPBands := 1 }

/-- A decoder for `testMode` whose last synthesised sample and de-emphasis memory are `100`
and whose older history, overlap and band energies are zero. -/
def testDecoder : CELTDecoder ℚ testExt :=
  { mode := testMode, frame_size := 1, block_size := 1, nb_blocks := 1, overlap := 1,
    preemph := 8 / 10, preemph_memD := fun _ => 100, mdct_lookup := (2 : Int),
    window := decoder_window testExt.sin testExt.M_PI 1 1 (fun _ => 0),
    mdct_overlap := fun _ => 0, out_mem := fun k => if k = 1023 then 100 else 0,
    oldBandE := fun _ => 0, last_pitch_index := 0 }

/-- A two-byte frame for `testExt`: pitch marker `0`, `X[0] = 64`, trailer symbol `0`. -/
def testFrame : Sig Nat := fun k => if k = 1 then 32 else 0

/-- A decoder for `testMode` whose history, overlap and de-emphasis memory are all zero. -/
def testSilentDecoder : CELTDecoder ℚ testExt :=
  { testDecoder with preemph_memD := fun _ => 0, out_mem := fun _ => 0 }

/-- A freshly created encoder for `testMode`. -/
def testEncoder : CELTEncoder ℚ testExt :=
  { mode := testMode, frame_size := 1, block_size := 1, nb_blocks := 1, overlap := 1,
    buf := ([] : List Nat), enc := (), preemph := 8 / 10, preemph_memE := fun _ => 0,
    preemph_memD := fun _ => 0, mdct_lookup := (2 : Int), fft := (), psy := (),
    window := encoder_window testExt.sin testExt.M_PI 1 1 (fun _ => 0),
    in_mem := fun _ => 0, mdct_overlap := fun _ => 0, out_mem := fun _ => 0,
    oldBandE := fun _ => 0 }

/-- What the input framing of `celt_encode` leaves for channel `c`: with
`N4 = (N - overlap)/2`, `N4` zeros at the head of `in`, the carried samples
of `in_mem`, the `B·N` pre-emphasised samples `pcm[n] - preemph·pcm[n-1]` (the sample before
the first one being `preemph_memE[c]`), `N4` zeros at the tail; the new carry is the last
`overlap` cells before the tail zeros, and the new pre-emphasis memory is the last sample. -/
def ChannelFramed [Field α] (E : Ext α) (st : CELTEncoder α E) (pcm : Sig Int) (c : Int)
    (s : InSt α) : Prop :=
  (∀ n, 0 ≤ n → n < (st.block_size - st.overlap) / 2 →
    s.inp (st.mode.nbChannels * n + c) = 0) ∧
  (∀ n, (st.block_size - st.overlap) / 2 ≤ n →
    n < (st.block_size - st.overlap) / 2 + st.overlap →
    s.inp (st.mode.nbChannels * n + c)
      = st.in_mem (st.mode.nbChannels * (n - (st.block_size - st.overlap) / 2) + c)) ∧
  (∀ i, 0 ≤ i → i < st.nb_blocks * st.block_size →
    s.inp (st.mode.nbChannels * ((st.block_size - st.overlap) / 2 + st.overlap + i) + c)
      = (pcm (st.mode.nbChannels * i + c) : α)
        - st.preemph * (if i = 0 then st.preemph_memE c
            else (pcm (st.mode.nbChannels * (i - 1) + c) : α))) ∧
  (∀ n, (st.nb_blocks + 1) * st.block_size - (st.block_size - st.overlap) / 2 ≤ n →
    n < (st.nb_blocks + 1) * st.block_size →
    s.inp (st.mode.nbChannels * n + c) = 0) ∧
  (∀ i, 0 ≤ i → i < st.overlap →
    s.in_mem (st.mode.nbChannels * i + c)
      = s.inp (st.mode.nbChannels
          * ((st.block_size - st.overlap) / 2 + st.nb_blocks * st.block_size + i) + c)) ∧
  (s.preemph_memE c
    = if st.nb_blocks * st.block_size = 0 then st.preemph_memE c
      else (pcm (st.mode.nbChannels * (st.nb_blocks * st.block_size - 1) + c) : α))

/-- The instance `testExt` with an energy quantiser that codes two raw zero bits, so that a
frame takes `2 + 7 + 8 = 17` bits. -/
def testSevenExt : Ext ℚ :=
  { testExt with
    quant_energy := fun _ eBands oldEBands _ (cd : Unit × List Nat) =>
      (eBands, oldEBands, ((), cd.2 ++ [0, 0])) }

/-- A freshly created encoder of `testSevenExt` for `testMode`. -/
def testSevenEncoder : CELTEncoder ℚ testSevenExt :=
  { mode := testMode, frame_size := 1, block_size := 1, nb_blocks := 1, overlap := 1,
    buf := ([] : List Nat), enc := (), preemph := 8 / 10, preemph_memE := fun _ => 0,
    preemph_memD := fun _ => 0, mdct_lookup := (2 : Int), fft := (), psy := (),
    window := encoder_window testExt.sin testExt.M_PI 1 1 (fun _ => 0),
    in_mem := fun _ => 0, mdct_overlap := fun _ => 0, out_mem := fun _ => 0,
    oldBandE := fun _ => 0 }

/-- The instance `testExt` with a decoder of integers that reduces the raw bits it reads
modulo the range `ft`, so that `ec_dec_uint` returns a value of `[0, ft)`. -/
def testRangeExt : Ext ℚ :=
  { testExt with
    ec_dec_uint := fun (d : Nat × List Nat) ft =>
      (testFromBits d.2 d.1 (testBits ft) % ft, (d.1 + testBits ft, d.2)) }

/-- A decoder of `testRangeExt` for `testMode`, as `celt_decoder_create` leaves it. -/
def testRangeDecoder : CELTDecoder ℚ testRangeExt :=
  { mode := testMode, frame_size := 1, block_size := 1, nb_blocks := 1, overlap := 1,
    preemph := 8 / 10, preemph_memD := fun _ => 0, mdct_lookup := (2 : Int),
    window := decoder_window testExt.sin testExt.M_PI 1 1 (fun _ => 0),
    mdct_overlap := fun _ => 0, out_mem := fun _ => 0,
    oldBandE := fun _ => 0, last_pitch_index := 0 }

/-- A three-byte frame for `testRangeExt`: pitch marker `1`, then ten bits set (the pitch
index `1023`, stored modulo `1022`), then zeros. -/
def testPitchFrame : Sig Nat := fun k => if k = 0 then 129 else if k = 1 then 255 else
  if k = 2 then 1 else 0

/-! ## Linear prediction helpers (`plc.c`) -/

/-- The loop `for (i = hi; i >= lo; i--) body`. -/
def cforDown {σ : Type} (hi lo : Int) (body : Int → σ → σ) (s : σ) : σ :=
  cfor 0 (hi + 1 - lo) (fun k => body (hi - k)) s

/-- Modelled from the spec: the macro `MULT16_16` of `arch.h`, which is not under src/, as the
floating-point build defines it: the product. -/
def MULT16_16 [Mul α] (a b : α) : α := a * b

/-- Modelled from the spec: the macro `MULT32_32_Q31` of `arch.h`, which is not under src/, as
the floating-point build defines it: the product. -/
def MULT32_32_Q31 [Mul α] (a b : α) : α := a * b

/-- Modelled from the spec: the macro `SHL32` of `arch.h`, which is not under src/, as the
floating-point build defines it: its first argument. -/
def SHL32 (a : α) (_shift : Int) : α := a

/-- Modelled from the spec: the macro `SHR32` of `arch.h`, which is not under src/, as the
floating-point build defines it: its first argument. -/
def SHR32 (a : α) (_shift : Int) : α := a

/-- Modelled from the spec: the macro `EXTEND32` of `arch.h`, which is not under src/, as the
floating-point build defines it: its argument. -/
def EXTEND32 (a : α) : α := a

/-- Modelled from the spec: the macro `ROUND16` of `arch.h`, which is not under src/, as the
floating-point build defines it: its first argument. -/
def ROUND16 (a : α) (_shift : Int) : α := a

/-- The body of the sample loop of `fir` (lines 73-85) on the pair of `y` and `mem`. -/
def fir_step [Field α] (x num : Sig α) (ord SIG_SHIFT : Int) (i : Int)
    (s : Sig α × Sig α) : Sig α × Sig α :=
  let sum := SHL32 (EXTEND32 (x i)) SIG_SHIFT
  let sum := cfor 0 ord (fun j sum => sum + MULT16_16 (num j) (s.2 j)) sum
  let mem := cforDown (ord - 1) 1 (fun j mem => wr mem j (mem (j - 1))) s.2
  let mem := wr mem 0 (x i)
  (wr s.1 i (ROUND16 sum SIG_SHIFT), mem)

/-- The function `fir` in the floating-point build; `SIG_SHIFT` is the constant of `arch.h`.
Returns the new `y` and `mem`. -/
def fir [Field α] (x num y : Sig α) (N ord : Int) (mem : Sig α) (SIG_SHIFT : Int) :
    Sig α × Sig α :=
  cfor 0 N (fun i s => fir_step x num ord SIG_SHIFT i s) (y, mem)

/-- The function `_celt_autocorr` in the floating-point build; `Q15ONE` is the constant of
`arch.h` and `xx0` the content of `xx` when it is allocated. Returns the new `ac` and the
local array `xx`. -/
def _celt_autocorr [Field α] (x ac window : Sig α) (overlap lag n : Int) (Q15ONE : α)
    (xx0 : Sig α) : Sig α × Sig α :=
  let scale : α := 1
  let xx := cfor 0 n (fun i xx => wr xx i (x i)) xx0
  let xx := cfor 0 overlap (fun i xx =>
    let xx := wr xx i (xx i * ((1 / Q15ONE) * window i))
    wr xx (n - i - 1) (xx (n - i - 1) * ((1 / Q15ONE) * window i))) xx
  let ac := cforDown lag 0 (fun lag ac =>
    let d := cfor lag n (fun i d => d + x i * x (i - lag)) 0
    wr ac lag (d * scale)) ac
  let ac := wr ac 0 (ac 0 + 10)
  (ac, xx)

/-- The signal `1, 2, 3, 4` at the cells `0..3`, zero elsewhere. -/
def testSignal : Sig ℚ := fun k => if 0 ≤ k ∧ k < 4 then k + 1 else 0

/-- The macro `frac_div(a,b)` of the floating-point build (line 9), `(float)(a)/(b)`, in
exact arithmetic: `none` when the divisor is zero, where the quotient is an infinity or a
NaN of the floating-point type and no number. -/
def frac_div [LinearOrderedField α] (a b : α) : Option α :=
  if b = 0 then none else some (a / b)

/-- The array and the locals that the main loop of `_celt_lpc` updates: `lpc`, `error`, the
loop variable `i`, and whether the loop has been left through `break`. -/
structure LpcSt (α : Type) where
  lpc : Sig α
  error : α
  i : Int
  brk : Bool

/-- The body of the main loop of `_celt_lpc` (lines 33-53) at index `i`, in the
floating-point build; a state that has left the loop is kept, and the result is `none` when
`frac_div` divides by zero. The loop variable is `i + 1` after an iteration that continues
and stays `i` at a `break`; `(i+1)>>1` is `(i + 1) / 2` for the `i ≥ 0` of the loop, and the
constant `.00001` is `1 / 100000`. -/
def lpc_step [LinearOrderedField α] (ac : Sig α) (i : Int) (s : LpcSt α) : Option (LpcSt α) :=
  if s.brk then some s
  else
    let rr : α := 0
    let rr := cfor 0 i (fun j rr => rr + MULT32_32_Q31 (s.lpc j) (ac (i - j))) rr
    let rr := rr + SHR32 (ac (i + 1)) 3
    match frac_div (SHL32 rr 3) s.error with
    | none => none
    | some q =>
      let r := -q
      let lpc := wr s.lpc i (SHR32 r 3)
      let lpc := cfor 0 ((i + 1) / 2) (fun j lpc =>
        let tmp1 := lpc j
        let tmp2 := lpc (i - 1 - j)
        let lpc := wr lpc j (tmp1 + MULT32_32_Q31 r tmp2)
        wr lpc (i - 1 - j) (tmp2 + MULT32_32_Q31 r tmp1)) lpc
      let error := s.error - MULT32_32_Q31 (MULT32_32_Q31 r r) s.error
      if error < (1 / 100000) * ac 0 then some { lpc := lpc, error := error, i := i, brk := true }
      else some { lpc := lpc, error := error, i := i + 1, brk := false }

/-- The state of `_celt_lpc` when it reaches line 30: `error = ac[0]` and `lpc` zeroed. -/
def lpc_init (_lpc ac : Sig α) [Zero α] (p : Int) : LpcSt α :=
  { lpc := cfor 0 p (fun i lpc => wr lpc i 0) _lpc, error := ac 0, i := 0, brk := false }

/-- The main loop of `_celt_lpc` (line 32) cut after the iterations `0, ..., k-1`. -/
def lpc_run [LinearOrderedField α] (_lpc ac : Sig α) (p k : Int) : Option (LpcSt α) :=
  cfor 0 k (fun i s => s.bind (lpc_step ac i)) (some (lpc_init _lpc ac p))

/-- The function `_celt_lpc` in the floating-point build; returns `error` and the new
`_lpc`, and `none` when it divides by zero. -/
def _celt_lpc [LinearOrderedField α] (_lpc ac : Sig α) (p : Int) : Option (α × Sig α) :=
  let s := if ac 0 ≠ 0 then lpc_run _lpc ac p p else some (lpc_init _lpc ac p)
  s.map (fun s => (s.error, s.lpc))

/-- The autocorrelation `2, 1, 0` of the signal `1, 1`. -/
def testAc : Sig ℚ := fun k => if k = 0 then 2 else if k = 1 then 1 else 0

/-- The values `-1, 1, 0`, with a negative `ac[0]`, which no signal has as its
autocorrelation. -/
def testNegAc : Sig ℚ := fun k => if k = 0 then -1 else if k = 1 then 1 else 0

/-- The body of the sample loop of `iir` (lines 97-109) on the pair of `y` and `mem`. -/
def iir_step [Field α] (x den : Sig α) (ord SIG_SHIFT : Int) (i : Int)
    (s : Sig α × Sig α) : Sig α × Sig α :=
  let sum := x i
  let sum := cfor 0 ord (fun j sum => sum - MULT16_16 (den j) (s.2 j)) sum
  let mem := cforDown (ord - 1) 1 (fun j mem => wr mem j (mem (j - 1))) s.2
  let mem := wr mem 0 (ROUND16 sum SIG_SHIFT)
  (wr s.1 i sum, mem)

/-- The function `iir` in the floating-point build; `SIG_SHIFT` is the constant of `arch.h`.
Returns the new `y` and `mem`. -/
def iir [Field α] (x den y : Sig α) (N ord : Int) (mem : Sig α) (SIG_SHIFT : Int) :
    Sig α × Sig α :=
  cfor 0 N (fun i s => iir_step x den ord SIG_SHIFT i s) (y, mem)

/-- The values that `celt_decode` still uses when it has decoded the residual (line 639):
the band energies, the pitch index kept in the state, the pitch MDCT in `freq`, and `X`. -/
structure Decoded (α : Type) where
  bandE : Sig α
  oldBandE : Sig α
  last_pitch_index : Int
  freq : Sig α
  X : Sig α

/-- Lines 603-639 of `celt_decode`, for a non-null `data`: energies, pitch gains, pitch index,
pitch MDCT and residual. Returns the decoded values and the range decoder. -/
def celt_decode_symbols [LinearOrderedField α] [FloorRing α] (E : Ext α) (st : CELTDecoder α E)
    (data : Sig Nat) (len : Int) (stack : Nat → Sig α) : Decoded α × (E.Dec × E.Buf) :=
  let N := st.block_size
  let B := st.nb_blocks
  let C := st.mode.nbChannels
  let freq := stack 0
  let X := stack 1
  let P := stack 2
  let bandE := stack 3
  let gains := stack 4
  let buf := E.ec_byte_readinit data len
  let dec := (E.ec_dec_init buf, buf)
  let e := E.unquant_energy st.mode bandE st.oldBandE ((len * 8).tdiv 3) dec
  let bandE := e.1
  let oldBandE := e.2.1
  let g := E.unquant_pitch gains st.mode.nbPBands e.2.2
  let has_pitch := g.1
  let gains := g.2.1
  let pi := if has_pitch ≠ 0 then
      let u := E.ec_dec_uint g.2.2 (MAX_PERIOD - (B + 1) * N)
      (u.1, u.1, u.2)
    else (0, st.last_pitch_index, g.2.2)
  let pitch_index := pi.1
  let last_pitch_index := pi.2.1
  let dec := pi.2.2
  let freq := (compute_mdcts E st.mdct_lookup st.window (offs st.out_mem (pitch_index * C))
    freq N B C (stack 5) (stack 6)).2
  let bandEp := E.compute_band_energies st.mode freq (stack 7)
  let P := E.normalise_bands st.mode freq P bandEp
  let P := if C = 2 then E.stereo_mix st.mode P bandE 1 else P
  let P := E.pitch_quant_bands st.mode X P gains
  let q := E.unquant_bands st.mode X P (len * 8) dec
  ({ bandE := bandE, oldBandE := oldBandE, last_pitch_index := last_pitch_index, freq := freq,
     X := q.1 }, q.2.2)

/-- Lines 641-668 of `celt_decode`: stereo un-mixing, synthesis and de-emphasis from the
decoded values. Returns the new state and `pcm`. -/
def celt_decode_output [LinearOrderedField α] [FloorRing α] (E : Ext α) (st : CELTDecoder α E)
    (pcm : Sig Int) (stack : Nat → Sig α) (d : Decoded α) : CELTDecoder α E × Sig Int :=
  let N := st.block_size
  let B := st.nb_blocks
  let C := st.mode.nbChannels
  let X := if C = 2 then E.renormalise_bands st.mode (E.stereo_mix st.mode d.X d.bandE (-1))
    else d.X
  let freq := E.denormalise_bands st.mode X d.freq d.bandE
  let out_mem := CELT_MOVE st.out_mem (C * B * N) (C * (MAX_PERIOD - B * N))
  let r := compute_inv_mdcts E st.mdct_lookup st.window freq out_mem st.mdct_overlap
    N st.overlap B C (stack 8) (stack 9)
  let dd := deemphasis r.1 st.preemph st.preemph_memD pcm N B C
  ({ st with oldBandE := d.oldBandE, last_pitch_index := d.last_pitch_index, out_mem := r.1,
             mdct_overlap := r.2, preemph_memD := dd.1 }, dd.2)

/-- The frame `testFrame` with its trailer bit set: pitch marker `0`, `X[0] = 64`, trailer
symbol `1`. -/
def testCorruptFrame : Sig Nat := fun k => if k = 1 then 160 else 0

/-- A two-byte frame for `testExt` with pitch marker `0`, `X[0] = 0` and trailer symbol `1`. -/
def testCorruptSilence : Sig Nat := fun k => if k = 1 then 128 else 0

/-- The de-emphasised sample `y[n]` of channel `c`, in the words of the specification
("`y[n] = out_mem[n] + α · prev_y`"): `out_mem[n]` is the `n`-th of the last `B·N` samples of
the channel in the history, cell `C·(MAX_PERIOD - B·N + n) + c`, the coefficient is `preemph`,
and the sample before the first is the de-emphasis memory `preemph_memD[c]`. -/
def deemphasised [Field α] (out_mem : Sig α) (preemph : α) (preemph_memD : Sig α)
    (N B C c : Int) : Nat → α
  | 0 => out_mem (C * (MAX_PERIOD - B * N + 0) + c) + preemph * preemph_memD c
  | n + 1 => out_mem (C * (MAX_PERIOD - B * N + ((n + 1 : Nat) : Int)) + c)
      + preemph * deemphasised out_mem preemph preemph_memD N B C c n

/-! ## Loop and store lemmas -/

section Lemmas

variable {σ : Type}

theorem wr_same (a : Sig α) (i : Int) (v : α) : wr a i v i = v := by
  simp [wr]

theorem wr_other (a : Sig α) (i k : Int) (v : α) (h : k ≠ i) : wr a i v k = a k := by
  simp [wr, h]

theorem forLoop_succ (n : Nat) (body : Int → σ → σ) (s : σ) :
    forLoop (n + 1) body s = body (n : Int) (forLoop n body s) := rfl

/-- A relation kept by every iteration of two loops holds between their results. -/
theorem forLoop_rel {τ : Type} (R : σ → τ → Prop) (n : Nat) (body : Int → σ → σ)
    (body2 : Int → τ → τ) (s : σ) (t : τ) (h0 : R s t)
    (hstep : ∀ (j : Nat) (u : σ) (v : τ), j < n → R u v → R (body j u) (body2 j v)) :
    R (forLoop n body s) (forLoop n body2 t) := by
  induction n with
  | zero => exact h0
  | succ n ih =>
    rw [forLoop_succ, forLoop_succ]
    exact hstep n _ _ (Nat.lt_succ_self n)
      (ih (fun j u v hj h => hstep j u v (Nat.lt_succ_of_lt hj) h))

theorem cfor_rel {τ : Type} (R : σ → τ → Prop) (lo hi : Int) (body : Int → σ → σ)
    (body2 : Int → τ → τ) (s : σ) (t : τ) (h0 : R s t)
    (hstep : ∀ (j : Int) (u : σ) (v : τ), lo ≤ j → j < hi → R u v → R (body j u) (body2 j v)) :
    R (cfor lo hi body s) (cfor lo hi body2 t) := by
  unfold cfor
  apply forLoop_rel R _ _ _ _ _ h0
  intro j u v hj h
  apply hstep _ _ _ _ _ h <;> omega

theorem cfor_empty (lo hi : Int) (body : Int → σ → σ) (s : σ) (h : hi ≤ lo) :
    cfor lo hi body s = s := by
  unfold cfor
  have : (hi - lo).toNat = 0 := by omega
  rw [this]; rfl

/-- The last iteration of a non-empty loop. -/
theorem cfor_last (lo hi : Int) (body : Int → σ → σ) (s : σ) (h : lo < hi) :
    cfor lo hi body s = body (hi - 1) (cfor lo (hi - 1) body s) := by
  unfold cfor
  have h1 : (hi - lo).toNat = (hi - 1 - lo).toNat + 1 := by omega
  rw [h1, forLoop_succ]
  have h2 : lo + ((hi - 1 - lo).toNat : Int) = hi - 1 := by omega
  rw [h2]

/-- Induction on the upper bound of a loop. -/
theorem cfor_induction (Q : Int → σ → Prop) (lo hi : Int) (body : Int → σ → σ) (s : σ)
    (hle : lo ≤ hi) (h0 : Q lo s)
    (hstep : ∀ (j : Int) (t : σ), lo ≤ j → j < hi → Q j t → Q (j + 1) (body j t)) :
    Q hi (cfor lo hi body s) := by
  have key : ∀ n : Nat, lo + n ≤ hi → Q (lo + n) (cfor lo (lo + n) body s) := by
    intro n
    induction n with
    | zero =>
      intro _
      rw [cfor_empty _ _ _ _ (by simp)]
      simpa using h0
    | succ n ih =>
      intro hn
      rw [cfor_last _ _ _ _ (by push_cast; omega)]
      have e : lo + ((n + 1 : Nat) : Int) - 1 = lo + n := by push_cast; omega
      rw [e]
      have := hstep (lo + n) _ (by omega) (by push_cast at hn; omega) (ih (by push_cast at hn; omega))
      have e2 : lo + (n : Int) + 1 = lo + ((n + 1 : Nat) : Int) := by push_cast; omega
      rw [e2] at this
      exact this
  have := key (hi - lo).toNat (by omega)
  have e : lo + ((hi - lo).toNat : Int) = hi := by omega
  rw [e] at this
  exact this

/-- A loop storing `v j` at `a[base + j]`: the cells stored and the others. -/
theorem cfor_fill (lo hi base : Int) (v : Int → α) (a : Sig α) (k : Int) :
    cfor lo hi (fun j w => wr w (base + j) (v j)) a k
      = if base + lo ≤ k ∧ k < base + hi then v (k - base) else a k := by
  by_cases hle : lo ≤ hi
  · refine cfor_induction
      (fun m w => w k = if base + lo ≤ k ∧ k < base + m then v (k - base) else a k)
      lo hi _ a hle ?_ ?_
    · have : ¬ (base + lo ≤ k ∧ k < base + lo) := by omega
      simp [this]
    · intro j t hj hj2 ht
      by_cases hk : k = base + j
      · subst hk
        have : base + lo ≤ base + j ∧ base + j < base + (j + 1) := by omega
        simp [wr_same, this]
      · rw [wr_other _ _ _ _ hk, ht]
        by_cases hc : base + lo ≤ k ∧ k < base + j
        · have : base + lo ≤ k ∧ k < base + (j + 1) := by omega
          simp [hc, this]
        · have : ¬ (base + lo ≤ k ∧ k < base + (j + 1)) := by omega
          simp [hc, this]
  · rw [cfor_empty _ _ _ _ (by omega)]
    have : ¬ (base + lo ≤ k ∧ k < base + hi) := by omega
    simp [this]

end Lemmas

/-- The form of `cfor_fill` for an index expression equal to `base + j`. -/
theorem cfor_fill_of (lo hi base : Int) (f : Int → Int) (hf : ∀ j, f j = base + j)
    (v : Int → α) (a : Sig α) (k : Int) :
    cfor lo hi (fun j w => wr w (f j) (v j)) a k
      = if base + lo ≤ k ∧ k < base + hi then v (k - base) else a k := by
  have e : (fun (j : Int) (w : Sig α) => wr w (f j) (v j))
      = fun j w => wr w (base + j) (v j) := by
    funext j w; rw [hf]
  rw [e, cfor_fill]

/-! ## The window -/

section Window

variable [Field α]

end Window

/-! ## Power complementarity of the window over the reals -/

section Clamp

variable [LinearOrderedField α] [FloorRing α]

/-- The value that `clamp_round` computes and its range. -/
theorem clamp_round_spec (t : α) :
    clamp_round t = ⌊max (-32767) (min t 32767) + 1 / 2⌋ ∧
      -32767 ≤ clamp_round t ∧ clamp_round t ≤ 32767 := by
  have hc : (if (if t > 32767 then (32767 : α) else t) < -32767 then (-32767 : α)
      else (if t > 32767 then (32767 : α) else t)) = max (-32767) (min t 32767) := by
    by_cases h1 : t > 32767
    · have h2 : ¬ ((32767 : α) < -32767) := by norm_num
      rw [if_pos h1, if_neg h2, min_eq_right (le_of_lt h1), max_eq_right (by norm_num)]
    · rw [if_neg h1, min_eq_left (not_lt.mp h1)]
      by_cases h3 : t < -32767
      · rw [if_pos h3, max_eq_left (le_of_lt h3)]
      · rw [if_neg h3, max_eq_right (not_lt.mp h3)]
  have hlo : (-32767 : α) ≤ max (-32767) (min t 32767) := le_max_left _ _
  have hhi : max (-32767) (min t 32767) ≤ (32767 : α) :=
    max_le (by norm_num) (min_le_right _ _)
  have f1 : (-32767 : Int) ≤ ⌊max (-32767) (min t 32767) + 1 / 2⌋ := by
    rw [Int.le_floor]
    push_cast
    linarith
  have f2 : ⌊max (-32767) (min t 32767) + 1 / 2⌋ < (32768 : Int) := by
    rw [Int.floor_lt]
    push_cast
    linarith
  have e : clamp_round t = ⌊max (-32767) (min t 32767) + 1 / 2⌋ := by
    unfold clamp_round
    simp only
    rw [hc, add_comm]
    unfold toShort
    omega
  rw [e]
  exact ⟨rfl, f1, by omega⟩

end Clamp

/-! ## The interleaved layout -/

section Layout

/-- A loop storing `v j` at `a[f j]`, for an index map `f` that is injective on the range:
the cells stored and the others. -/
theorem cfor_scatter (lo hi : Int) (f : Int → Int) (v : Int → α) (a : Sig α)
    (hinj : ∀ j j', lo ≤ j → j < hi → lo ≤ j' → j' < hi → f j = f j' → j = j') :
    (∀ j, lo ≤ j → j < hi → cfor lo hi (fun j w => wr w (f j) (v j)) a (f j) = v j) ∧
    (∀ k, (∀ j, lo ≤ j → j < hi → k ≠ f j) →
      cfor lo hi (fun j w => wr w (f j) (v j)) a k = a k) := by
  by_cases hle : lo ≤ hi
  · have key := cfor_induction (fun m (w : Sig α) => m ≤ hi →
        (∀ j, lo ≤ j → j < m → w (f j) = v j) ∧
        (∀ k, (∀ j, lo ≤ j → j < m → k ≠ f j) → w k = a k))
      lo hi (fun j w => wr w (f j) (v j)) a hle ?_ ?_
    · exact key (le_refl _)
    · intro _
      exact ⟨fun j h1 h2 => absurd h2 (by omega), fun k _ => rfl⟩
    · intro m t hm0 hm1 ht _
      obtain ⟨h1, h2⟩ := ht (by omega)
      beta_reduce
      constructor
      · intro j hj0 hj1
        by_cases hjm : j = m
        · rw [hjm, wr_same]
        · have hne : f j ≠ f m := fun h => hjm (hinj j m hj0 (by omega) hm0 hm1 h)
          rw [wr_other _ _ _ _ hne]
          exact h1 j hj0 (by omega)
      · intro k hk
        rw [wr_other _ _ _ _ (hk m hm0 (by omega))]
        exact h2 k (fun j hj0 hj1 => hk j hj0 (by omega))
  · rw [cfor_empty _ _ _ _ (by omega)]
    exact ⟨fun j h1 h2 => absurd h2 (by omega), fun k _ => rfl⟩

/-- Quotient and remainder are determined: `C*q + r` with `0 ≤ r < C`. -/
theorem euclid_unique (C q q' r r' : Int) (hr : 0 ≤ r) (hrC : r < C) (hr' : 0 ≤ r')
    (hrC' : r' < C) (h : C * q + r = C * q' + r') : q = q' ∧ r = r' := by
  have e1 : (C * q + r) % C = r := by
    rw [add_comm, Int.add_mul_emod_self_left, Int.emod_eq_of_lt hr hrC]
  have e2 : (C * q' + r') % C = r' := by
    rw [add_comm, Int.add_mul_emod_self_left, Int.emod_eq_of_lt hr' hrC']
  have hrr : r = r' := by rw [← e1, ← e2, h]
  subst hrr
  have hC : C ≠ 0 := by omega
  have : C * q = C * q' := by omega
  exact ⟨mul_left_cancel₀ hC this, rfl⟩

/-- The layout map `(c, i, j) ↦ C·B·j + C·i + c` is injective on `[0,C) × [0,B) × ℤ`. -/
theorem layout_inj (B C c i j c' i' j' : Int) (hc : 0 ≤ c) (hcC : c < C) (hc' : 0 ≤ c')
    (hcC' : c' < C) (hi : 0 ≤ i) (hiB : i < B) (hi' : 0 ≤ i') (hiB' : i' < B)
    (h : C * B * j + C * i + c = C * B * j' + C * i' + c') : c = c' ∧ i = i' ∧ j = j' := by
  have h1 : C * (B * j + i) + c = C * (B * j' + i') + c' := by
    have e1 : C * (B * j + i) = C * B * j + C * i := by ring
    have e2 : C * (B * j' + i') = C * B * j' + C * i' := by ring
    rw [e1, e2]; exact h
  obtain ⟨h2, h3⟩ := euclid_unique C _ _ c c' hc hcC hc' hcC' h1
  obtain ⟨h4, h5⟩ := euclid_unique B _ _ i i' hi hiB hi' hiB' h2
  exact ⟨h3, h5, h4⟩

/-- The layout map sends `[0,C) × [0,B) × [0,N)` into `[0, C·B·N)`. -/
theorem layout_range (N B C c i j : Int) (hc : 0 ≤ c) (hcC : c < C) (hi : 0 ≤ i)
    (hiB : i < B) (hj : 0 ≤ j) (hjN : j < N) :
    0 ≤ C * B * j + C * i + c ∧ C * B * j + C * i + c < C * B * N := by
  have hC : 0 < C := by omega
  have hB : 0 < B := by omega
  constructor
  · have := mul_nonneg (mul_nonneg hC.le hB.le) hj
    have := mul_nonneg hC.le hi
    omega
  · have e1 : C * B * j + C * i + c < C * (B * j + i + 1) := by
      have : C * (B * j + i + 1) = C * B * j + C * i + C := by ring
      omega
    have e2 : B * j + i + 1 ≤ B * N := by
      have : B * (j + 1) ≤ B * N := mul_le_mul_of_nonneg_left (by omega) hB.le
      have : B * (j + 1) = B * j + B := by ring
      omega
    have e3 : C * (B * j + i + 1) ≤ C * (B * N) := mul_le_mul_of_nonneg_left e2 hC.le
    have e4 : C * (B * N) = C * B * N := by ring
    omega

/-- Every cell of `[0, C·B·N)` is the image of a triple under the layout map. -/
theorem layout_surj (N B C m : Int) (hC : 1 ≤ C) (hB : 1 ≤ B) (hm : 0 ≤ m)
    (hmN : m < C * B * N) :
    ∃ c i j : Int, (0 ≤ c ∧ c < C) ∧ (0 ≤ i ∧ i < B) ∧ (0 ≤ j ∧ j < N) ∧
      C * B * j + C * i + c = m := by
  have hC0 : (0 : Int) < C := by omega
  have hB0 : (0 : Int) < B := by omega
  refine ⟨m % C, (m / C) % B, m / C / B, ⟨Int.emod_nonneg _ (by omega), Int.emod_lt_of_pos _ hC0⟩,
    ⟨Int.emod_nonneg _ (by omega), Int.emod_lt_of_pos _ hB0⟩, ⟨?_, ?_⟩, ?_⟩
  · exact Int.ediv_nonneg (Int.ediv_nonneg hm hC0.le) hB0.le
  · have h1 : m / C < B * N := by
      apply Int.ediv_lt_of_lt_mul hC0
      have : B * N * C = C * B * N := by ring
      omega
    apply Int.ediv_lt_of_lt_mul hB0
    have : N * B = B * N := by ring
    omega
  · have e1 := Int.emod_add_ediv m C
    have e2 := Int.emod_add_ediv (m / C) B
    calc C * B * (m / C / B) + C * (m / C % B) + m % C
        = C * (m / C % B + B * (m / C / B)) + m % C := by ring
      _ = C * (m / C) + m % C := by rw [e2]
      _ = m := by omega

end Layout

/-! ## `compute_mdcts` -/

section ComputeMdcts

variable {σ : Type}

/-- A loop whose every iteration adds `g j` to a component of the state. -/
theorem cfor_sum [AddCommMonoid α] (n : Int) (body : Int → σ → σ) (acc : σ → α)
    (g : Int → α) (h : ∀ j s, 0 ≤ j → j < n → acc (body j s) = acc s + g j) (s : σ) :
    acc (cfor 0 n body s) = acc s + ∑ j in Finset.range n.toNat, g (j : Int) := by
  unfold cfor
  have key : ∀ m : Nat, m ≤ n.toNat →
      acc (forLoop m (fun k => body (0 + k)) s) = acc s + ∑ j in Finset.range m, g (j : Int) := by
    intro m
    induction m with
    | zero => intro _; simp [forLoop]
    | succ m ih =>
      intro hm
      rw [forLoop_succ, Finset.sum_range_succ, zero_add, h _ _ (by omega) (by omega),
        ih (by omega), add_assoc]
  have e : (n - 0).toNat = n.toNat := by simp
  rw [e]
  exact key _ (le_refl _)

variable [Field α]

/-- The windowing loop: the arrays it leaves and the energy it adds. -/
theorem mdct_window_spec (window inp : Sig α) (N C c i : Int) (s : MdctSt α) :
    (mdct_window window inp N C c i s).out = s.out ∧
    (mdct_window window inp N C c i s).tmp = s.tmp ∧
    (∀ j, 0 ≤ j → j < 2 * N →
      (mdct_window window inp N C c i s).x j = window j * inp (C * (i * N + j) + c)) := by
  unfold mdct_window
  by_cases hN : 0 ≤ 2 * N
  · have key := cfor_induction (fun m (t : MdctSt α) => t.out = s.out ∧ t.tmp = s.tmp ∧
        ∀ j, 0 ≤ j → j < m → t.x j = window j * inp (C * (i * N + j) + c))
      0 (2 * N) (fun j (s : MdctSt α) =>
        let x := wr s.x j (window j * inp (C * i * N + C * j + c))
        { s with x := x, E_ := s.E_ + x j * x j }) s hN ?_ ?_
    · exact key
    · exact ⟨rfl, rfl, fun j h1 h2 => absurd h2 (by omega)⟩
    · intro m t hm0 hm1 ht
      obtain ⟨h1, h2, h3⟩ := ht
      refine ⟨h1, h2, ?_⟩
      intro j hj0 hj1
      show wr t.x m _ j = _
      by_cases hjm : j = m
      · rw [hjm, wr_same]
        congr 2
        ring
      · rw [wr_other _ _ _ _ hjm]
        exact h3 j hj0 (by omega)
  · rw [cfor_empty _ _ _ _ (by omega)]
    exact ⟨rfl, rfl, fun j h1 h2 => absurd h2 (by omega)⟩

theorem mdct_window_energy (window inp : Sig α) (N C c i : Int) (s : MdctSt α) :
    (mdct_window window inp N C c i s).E_
      = s.E_ + ∑ j in Finset.range (2 * N).toNat,
          (window j * inp (C * (i * N + j) + c)) ^ 2 := by
  unfold mdct_window
  refine cfor_sum (2 * N) _ (fun t : MdctSt α => t.E_)
    (fun j => (window j * inp (C * (i * N + j) + c)) ^ 2) ?_ s
  intro j t _ _
  show t.E_ + wr t.x j _ j * wr t.x j _ j = _
  rw [wr_same]
  show _ = t.E_ + (window j * inp (C * (i * N + j) + c)) ^ 2
  have e : C * i * N + C * j + c = C * (i * N + j) + c := by ring
  rw [e, pow_two]

/-- The value of `E` that `compute_mdcts` returns. -/
theorem compute_mdcts_energy (E : Ext α) (lookup : E.Lookup) (window inp out : Sig α)
    (N B C : Int) (x0 tmp0 : Sig α) :
    (compute_mdcts E lookup window inp out N B C x0 tmp0).1
      = 1 / 1000000000000000 + ∑ c in Finset.range C.toNat, ∑ i in Finset.range B.toNat,
          ∑ j in Finset.range (2 * N).toNat,
            (window j * inp (C * ((i : Int) * N + j) + c)) ^ 2 := by
  unfold compute_mdcts
  simp only
  rw [cfor_sum C _ (fun t : MdctSt α => t.E_) (fun c => ∑ i in Finset.range B.toNat,
    ∑ j in Finset.range (2 * N).toNat, (window j * inp (C * ((i : Int) * N + j) + c)) ^ 2)]
  intro c s _ _
  rw [cfor_sum B _ (fun t : MdctSt α => t.E_) (fun i =>
    ∑ j in Finset.range (2 * N).toNat, (window j * inp (C * (i * N + j) + c)) ^ 2)]
  intro i t _ _
  exact mdct_window_energy window inp N C c i t

omit [Field α] in
/-- The scatter loop: the cells of sub-block `(c, i)` receive `tmp`, the others are kept. -/
theorem interleave_spec (tmp out : Sig α) (N B C c i : Int) (hC : 1 ≤ C) (hB : 1 ≤ B) :
    (∀ j, 0 ≤ j → j < N → interleave tmp N B C c i out (C * B * j + C * i + c) = tmp j) ∧
    (∀ k, (∀ j, 0 ≤ j → j < N → k ≠ C * B * j + C * i + c) →
      interleave tmp N B C c i out k = out k) := by
  unfold interleave
  apply cfor_scatter 0 N (fun j => C * B * j + C * i + c) tmp out
  intro j j' _ _ _ _ h
  have hCB : C * B ≠ 0 := mul_ne_zero (by omega) (by omega)
  have : C * B * j = C * B * j' := by omega
  exact mul_left_cancel₀ hCB this

omit [Field α] in
/-- The gather loop reads the cells of sub-block `(c, i)`. -/
theorem deinterleave_spec (X tmp : Sig α) (N B C c i : Int) :
    ∀ j, 0 ≤ j → j < N → deinterleave X N B C c i tmp j = X (C * B * j + C * i + c) := by
  unfold deinterleave
  exact (cfor_scatter 0 N (fun j => j) (fun j => X (C * B * j + C * i + c)) tmp
    (fun j j' _ _ _ _ h => h)).1

/-- One sub-block of `compute_mdcts`: its cells are done, the others are kept. -/
theorem mdct_block_spec (E : Ext α) (lookup : E.Lookup) (window inp : Sig α)
    (N B C c i : Int) (s : MdctSt α) (hC : 1 ≤ C) (hB : 1 ≤ B) :
    BlockDone E lookup window inp N B C c i (mdct_block E lookup window inp N B C c i s).out ∧
    (∀ k, (∀ j, 0 ≤ j → j < N → k ≠ C * B * j + C * i + c) →
      (mdct_block E lookup window inp N B C c i s).out k = s.out k) := by
  obtain ⟨h1, h2, h3⟩ := mdct_window_spec window inp N C c i s
  unfold mdct_block
  simp only
  obtain ⟨g1, g2⟩ := interleave_spec
    (E.mdct_forward lookup (mdct_window window inp N C c i s).x
      (mdct_window window inp N C c i s).tmp)
    (mdct_window window inp N C c i s).out N B C c i hC hB
  constructor
  · exact ⟨_, _, h3, g1⟩
  · intro k hk
    rw [g2 k hk, h1]

/-- The cells that `compute_mdcts` leaves: every sub-block of every channel is done, and
no cell outside the image of the layout map is changed. -/
theorem compute_mdcts_out (E : Ext α) (lookup : E.Lookup) (window inp out : Sig α)
    (N B C : Int) (x0 tmp0 : Sig α) (hC : 1 ≤ C) (hB : 1 ≤ B) :
    (∀ c i, 0 ≤ c → c < C → 0 ≤ i → i < B →
      BlockDone E lookup window inp N B C c i
        (compute_mdcts E lookup window inp out N B C x0 tmp0).2) ∧
    (∀ k, (∀ c i j, 0 ≤ c → c < C → 0 ≤ i → i < B → 0 ≤ j → j < N →
        k ≠ C * B * j + C * i + c) →
      (compute_mdcts E lookup window inp out N B C x0 tmp0).2 k = out k) := by
  unfold compute_mdcts
  simp only
  -- the invariant: the sub-blocks before `(c, m)` are done, the cells off the layout kept
  let Q : Int → Int → MdctSt α → Prop := fun c m t =>
    (∀ c' i', 0 ≤ c' → c' < C → 0 ≤ i' → i' < B → (c' < c ∨ (c' = c ∧ i' < m)) →
      BlockDone E lookup window inp N B C c' i' t.out) ∧
    (∀ k, (∀ c' i' j, 0 ≤ c' → c' < C → 0 ≤ i' → i' < B → 0 ≤ j → j < N →
        k ≠ C * B * j + C * i' + c') → t.out k = out k)
  have inner : ∀ c t, 0 ≤ c → c < C → Q c 0 t →
      Q c B (cfor 0 B (fun i s => mdct_block E lookup window inp N B C c i s) t) := by
    intro c t hc0 hc1 ht
    refine cfor_induction (fun m t => Q c m t) 0 B _ t (by omega) ht ?_
    intro i u hi0 hi1 hu
    obtain ⟨u1, u2⟩ := hu
    obtain ⟨b1, b2⟩ := mdct_block_spec E lookup window inp N B C c i u hC hB
    constructor
    · intro c' i' hc'0 hc'1 hi'0 hi'1 hlt
      by_cases hsame : c' = c ∧ i' = i
      · rw [hsame.1, hsame.2]; exact b1
      · obtain ⟨x, t', hx, ho⟩ := u1 c' i' hc'0 hc'1 hi'0 hi'1 (by omega)
        refine ⟨x, t', hx, ?_⟩
        intro j hj0 hj1
        rw [b2 _ ?_]
        · exact ho j hj0 hj1
        · intro j' _ _ heq
          have := layout_inj B C c' i' j c i j' hc'0 hc'1 hc0 hc1 hi'0 hi'1 hi0 hi1 heq
          exact hsame ⟨this.1, this.2.1⟩
    · intro k hk
      rw [b2 k (fun j hj0 hj1 => hk c i j hc0 hc1 hi0 hi1 hj0 hj1)]
      exact u2 k hk
  have outer := cfor_induction (fun c t => Q c 0 t) 0 C
    (fun c s => cfor 0 B (fun i s => mdct_block E lookup window inp N B C c i s) s)
    { E_ := 1 / 1000000000000000, out := out, x := x0, tmp := tmp0 : MdctSt α } (by omega)
    ⟨fun c' i' h0 _ _ _ h => absurd h (by omega), fun k _ => rfl⟩ ?_
  · obtain ⟨o1, o2⟩ := outer
    exact ⟨fun c i hc0 hc1 hi0 hi1 => o1 c i hc0 hc1 hi0 hi1 (Or.inl hc1), o2⟩
  · intro c t hc0 hc1 ht
    obtain ⟨q1, q2⟩ := inner c t hc0 hc1 ht
    exact ⟨fun c' i' a b d e h => q1 c' i' a b d e (by omega), q2⟩

/-- C9. For `C, B ≥ 1` and every `N` the map `(c, i, j) ↦ C·B·j + C·i + c` sends
`[0,C) × [0,B) × [0,N)` into `[0, C·B·N)`, is injective, and reaches every cell of
`[0, C·B·N)`; `compute_mdcts` leaves at the cell of `(c, i, j)` the `j`-th value returned by
`mdct_forward` for the windowed samples of sub-block `i` of channel `c` and changes no other
cell; and the gather loop of `compute_inv_mdcts`, run on that output, reads back these `N`
values of each sub-block. -/
theorem interleaved_layout (E : Ext α) (lookup : E.Lookup) (window inp out : Sig α)
    (N B C : Int) (x0 tmp0 : Sig α) (hC : 1 ≤ C) (hB : 1 ≤ B) :
    (∀ c i j, 0 ≤ c → c < C → 0 ≤ i → i < B → 0 ≤ j → j < N →
      0 ≤ C * B * j + C * i + c ∧ C * B * j + C * i + c < C * B * N) ∧
    (∀ c i j c' i' j', 0 ≤ c → c < C → 0 ≤ i → i < B → 0 ≤ c' → c' < C → 0 ≤ i' → i' < B →
      C * B * j + C * i + c = C * B * j' + C * i' + c' → c = c' ∧ i = i' ∧ j = j') ∧
    (∀ m, 0 ≤ m → m < C * B * N → ∃ c i j : Int, (0 ≤ c ∧ c < C) ∧ (0 ≤ i ∧ i < B) ∧
      (0 ≤ j ∧ j < N) ∧ C * B * j + C * i + c = m) ∧
    (∀ c i, 0 ≤ c → c < C → 0 ≤ i → i < B → ∃ x t : Sig α,
      (∀ j, 0 ≤ j → j < 2 * N → x j = window j * inp (C * (i * N + j) + c)) ∧
      ∀ j, 0 ≤ j → j < N →
        (compute_mdcts E lookup window inp out N B C x0 tmp0).2 (C * B * j + C * i + c)
          = E.mdct_forward lookup x t j ∧
        ∀ tmp : Sig α,
          deinterleave (compute_mdcts E lookup window inp out N B C x0 tmp0).2 N B C c i tmp j
            = E.mdct_forward lookup x t j) ∧
    (∀ k, ¬ (0 ≤ k ∧ k < C * B * N) →
      (compute_mdcts E lookup window inp out N B C x0 tmp0).2 k = out k) := by
  obtain ⟨d1, d2⟩ := compute_mdcts_out E lookup window inp out N B C x0 tmp0 hC hB
  refine ⟨?_, ?_, ?_, ?_, ?_⟩
  · intro c i j hc0 hc1 hi0 hi1 hj0 hj1
    exact layout_range N B C c i j hc0 hc1 hi0 hi1 hj0 hj1
  · intro c i j c' i' j' hc0 hc1 hi0 hi1 hc'0 hc'1 hi'0 hi'1 h
    exact layout_inj B C c i j c' i' j' hc0 hc1 hc'0 hc'1 hi0 hi1 hi'0 hi'1 h
  · intro m hm0 hm1
    exact layout_surj N B C m hC hB hm0 hm1
  · intro c i hc0 hc1 hi0 hi1
    obtain ⟨x, t, hx, ho⟩ := d1 c i hc0 hc1 hi0 hi1
    refine ⟨x, t, hx, fun j hj0 hj1 => ⟨ho j hj0 hj1, fun tmp => ?_⟩⟩
    rw [deinterleave_spec _ _ _ _ _ _ _ j hj0 hj1]
    exact ho j hj0 hj1
  · intro k hk
    apply d2
    intro c i j hc0 hc1 hi0 hi1 hj0 hj1 heq
    have := layout_range N B C c i j hc0 hc1 hi0 hi1 hj0 hj1
    omega

/-- C9 on `testExt` with one channel and one sub-block: the cell of `(0, 0, 0)` is cell `0`. -/
theorem interleaved_layout_witness :
    0 ≤ (1 : Int) * 1 * 0 + 1 * 0 + 0 ∧ (1 : Int) * 1 * 0 + 1 * 0 + 0 < 1 * 1 * 1 :=
  (interleaved_layout testExt (2 : Int) (fun _ => 1) (fun _ => 3) (fun _ => 0) 1 1 1
    (fun _ => 0) (fun _ => 0) (by decide) (by decide)).1 0 0 0
    (by decide) (by decide) (by decide) (by decide) (by decide) (by decide)

end ComputeMdcts

/-! ## `compute_inv_mdcts` and the synthesis history -/

section InvMdcts

variable [Field α]

/-- One sub-block of `compute_inv_mdcts`, for `0 ≤ overlap ≤ N` and `C ≥ 1`: the windowed
inverse transform, the `overlap + 2·N4` cells of `out_mem` it stores, and the cells it keeps. -/
theorem inv_mdct_block_spec (E : Ext α) (lookup : E.Lookup) (window X : Sig α)
    (N overlap B C c i : Int) (s : InvSt α) (hC : 1 ≤ C) (h0 : 0 ≤ overlap)
    (h1 : overlap ≤ N) :
    (∀ j, 0 ≤ j → j < 2 * N →
      (inv_mdct_block E lookup window X N overlap B C c i s).x j
        = window j * E.mdct_backward lookup (deinterleave X N B C c i s.tmp) s.x j) ∧
    (∀ j, 0 ≤ j → j < overlap →
      (inv_mdct_block E lookup window X N overlap B C c i s).out_mem
          (C * (MAX_PERIOD + (i - B) * N) + C * j + c)
        = (inv_mdct_block E lookup window X N overlap B C c i s).x ((N - overlap) / 2 + j)
          + s.mdct_overlap (C * j + c)) ∧
    (∀ j, overlap ≤ j → j < overlap + 2 * ((N - overlap) / 2) →
      (inv_mdct_block E lookup window X N overlap B C c i s).out_mem
          (C * (MAX_PERIOD + (i - B) * N) + C * j + c)
        = (inv_mdct_block E lookup window X N overlap B C c i s).x (j + (N - overlap) / 2)) ∧
    (∀ k, (∀ j, 0 ≤ j → j < overlap + 2 * ((N - overlap) / 2) →
        k ≠ C * (MAX_PERIOD + (i - B) * N) + C * j + c) →
      (inv_mdct_block E lookup window X N overlap B C c i s).out_mem k = s.out_mem k) := by
  have hinj : ∀ (base : Int) (a b : Int), base + C * a + c = base + C * b + c → a = b := by
    intro base a b h
    have hC0 : C ≠ 0 := by omega
    have : C * a = C * b := by omega
    exact mul_left_cancel₀ hC0 this
  unfold inv_mdct_block
  simp only
  rw [Int.tdiv_eq_ediv (by omega) (by omega)]
  generalize hN4 : (N - overlap) / 2 = N4
  generalize hx0 : E.mdct_backward lookup (deinterleave X N B C c i s.tmp) s.x = y
  generalize hbase : C * (MAX_PERIOD + (i - B) * N) = base
  -- the windowed inverse transform
  have hx : ∀ j, 0 ≤ j → j < 2 * N →
      cfor 0 (2 * N) (fun j x => wr x j (window j * x j)) y j = window j * y j := by
    intro j hj0 hj1
    have key := cfor_induction (fun m (x : Sig α) =>
        (∀ j, 0 ≤ j → j < m → x j = window j * y j) ∧ (∀ j, m ≤ j → x j = y j))
      0 (2 * N) (fun j x => wr x j (window j * x j)) y (by omega)
      ⟨fun j a b => absurd b (by omega), fun j _ => rfl⟩ ?_
    · exact key.1 j hj0 hj1
    · intro m t hm0 hm1 ht
      beta_reduce
      constructor
      · intro j hj0 hj1
        by_cases hjm : j = m
        · rw [hjm, wr_same, ht.2 m (le_refl _)]
        · rw [wr_other _ _ _ _ hjm]; exact ht.1 j hj0 (by omega)
      · intro j hj
        rw [wr_other _ _ _ _ (by omega)]; exact ht.2 j (by omega)
  generalize cfor 0 (2 * N) (fun j x => wr x j (window j * x j)) y = xw at hx ⊢
  -- the two store loops into `out_mem`
  obtain ⟨a1, a2⟩ := cfor_scatter 0 overlap (fun j => base + C * j + c)
    (fun j => xw (N4 + j) + s.mdct_overlap (C * j + c)) s.out_mem
    (fun j j' _ _ _ _ h => hinj base j j' h)
  generalize cfor 0 overlap (fun j o => wr o (base + C * j + c)
    (xw (N4 + j) + s.mdct_overlap (C * j + c))) s.out_mem = o1 at a1 a2 ⊢
  obtain ⟨b1, b2⟩ := cfor_scatter 0 (2 * N4) (fun j => base + C * (j + overlap) + c)
    (fun j => xw (j + N4 + overlap)) o1
    (fun j j' _ _ _ _ h => by have := hinj base _ _ h; omega)
  refine ⟨hx, ?_, ?_, ?_⟩
  · intro j hj0 hj1
    rw [b2 _ (fun j' hj'0 hj'1 h => by have := hinj base _ _ h; omega)]
    exact a1 j hj0 hj1
  · intro j hj0 hj1
    have := b1 (j - overlap) (by omega) (by omega)
    simp only [Int.sub_add_cancel] at this
    rw [this]
    congr 1
    omega
  · intro k hk
    rw [b2 k (fun j hj0 hj1 => hk (j + overlap) (by omega) (by omega))]
    exact a2 k (fun j hj0 hj1 => hk j hj0 (by omega))

omit [Field α] in
/-- The cells of the last `B·N` positions: the map `(c, i, j) ↦ C·(MAX_PERIOD+(i-B)·N)+C·j+c`
is injective for `0 ≤ c < C` and `0 ≤ j < N`. -/
theorem tail_inj (N B C c i j c' i' j' : Int) (hc : 0 ≤ c) (hcC : c < C) (hc' : 0 ≤ c')
    (hcC' : c' < C) (hj : 0 ≤ j) (hjN : j < N) (hj' : 0 ≤ j') (hjN' : j' < N)
    (h : C * (MAX_PERIOD + (i - B) * N) + C * j + c
      = C * (MAX_PERIOD + (i' - B) * N) + C * j' + c') : c = c' ∧ i = i' ∧ j = j' := by
  have e1 : C * (MAX_PERIOD + (i - B) * N) + C * j + c
      = C * (MAX_PERIOD - N * B + (N * i + j)) + c := by ring
  have e2 : C * (MAX_PERIOD + (i' - B) * N) + C * j' + c'
      = C * (MAX_PERIOD - N * B + (N * i' + j')) + c' := by ring
  rw [e1, e2] at h
  obtain ⟨h2, h3⟩ := euclid_unique C _ _ c c' hc hcC hc' hcC' h
  have h4 : N * i + j = N * i' + j' := by omega
  obtain ⟨h5, h6⟩ := euclid_unique N _ _ j j' hj hjN hj' hjN' h4
  exact ⟨h3, h5, h6⟩

omit [Field α] in
/-- The position `MAX_PERIOD + (i-B)·N + j` lies in the last `B·N` positions. -/
theorem tail_range (N B i j : Int) (hi : 0 ≤ i) (hiB : i < B) (hj : 0 ≤ j) (hjN : j < N) :
    MAX_PERIOD - B * N ≤ MAX_PERIOD + (i - B) * N + j ∧
      MAX_PERIOD + (i - B) * N + j < MAX_PERIOD := by
  have e : (i - B) * N = i * N - B * N := by ring
  have h1 : 0 ≤ i * N := mul_nonneg hi (by omega)
  have h2 : (i + 1) * N ≤ B * N := mul_le_mul_of_nonneg_right (by omega) (by omega)
  have e2 : (i + 1) * N = i * N + N := by ring
  rw [e]
  constructor <;> omega

/-- The cells that `compute_inv_mdcts` leaves, for `0 ≤ overlap ≤ N` with `N - overlap` even:
each cell `(c, i, j)` of the last `B·N` positions holds what sub-block `i` of channel `c`
stored there, and no other cell is changed. -/
theorem compute_inv_mdcts_out (E : Ext α) (lookup : E.Lookup) (window X out_mem
    mdct_overlap : Sig α) (N overlap B C : Int) (x0 tmp0 : Sig α) (hC : 1 ≤ C) (hB : 0 ≤ B)
    (h0 : 0 ≤ overlap) (h1 : overlap ≤ N) (heven : (N - overlap) % 2 = 0) :
    (∀ c i j, 0 ≤ c → c < C → 0 ≤ i → i < B → 0 ≤ j → j < N →
      (compute_inv_mdcts E lookup window X out_mem mdct_overlap N overlap B C x0 tmp0).1
          (C * (MAX_PERIOD + (i - B) * N) + C * j + c)
        = (inv_mdct_block E lookup window X N overlap B C c i
            (inv_mdct_state E lookup window X out_mem mdct_overlap N overlap B C x0 tmp0 c i)
          ).out_mem (C * (MAX_PERIOD + (i - B) * N) + C * j + c)) ∧
    (∀ k, (∀ c i j, 0 ≤ c → c < C → 0 ≤ i → i < B → 0 ≤ j → j < N →
        k ≠ C * (MAX_PERIOD + (i - B) * N) + C * j + c) →
      (compute_inv_mdcts E lookup window X out_mem mdct_overlap N overlap B C x0 tmp0).1 k
        = out_mem k) := by
  have hN : overlap + 2 * ((N - overlap) / 2) = N := by omega
  unfold compute_inv_mdcts
  simp only
  generalize hs0 : ({ out_mem := out_mem, mdct_overlap := mdct_overlap, x := x0, tmp := tmp0 }
    : InvSt α) = s0
  have hst : ∀ c i, inv_mdct_state E lookup window X out_mem mdct_overlap N overlap B C x0 tmp0
      c i = cfor 0 i (fun i s => inv_mdct_block E lookup window X N overlap B C c i s)
        (cfor 0 c (fun c s => cfor 0 B (fun i s =>
          inv_mdct_block E lookup window X N overlap B C c i s) s) s0) := by
    intro c i; unfold inv_mdct_state; rw [hs0]
  generalize hst' : inv_mdct_state E lookup window X out_mem mdct_overlap N overlap B C x0 tmp0
    = st at hst
  let body : Int → Int → InvSt α → InvSt α :=
    fun c i s => inv_mdct_block E lookup window X N overlap B C c i s
  let Q : Int → Int → InvSt α → Prop := fun c m t =>
    t = st c m ∧
    (∀ c' i' j, 0 ≤ c' → c' < C → 0 ≤ i' → i' < B → 0 ≤ j → j < N →
      (c' < c ∨ (c' = c ∧ i' < m)) →
      t.out_mem (C * (MAX_PERIOD + (i' - B) * N) + C * j + c')
        = (body c' i' (st c' i')).out_mem (C * (MAX_PERIOD + (i' - B) * N) + C * j + c')) ∧
    (∀ k, (∀ c' i' j, 0 ≤ c' → c' < C → 0 ≤ i' → i' < B → 0 ≤ j → j < N →
        k ≠ C * (MAX_PERIOD + (i' - B) * N) + C * j + c') → t.out_mem k = out_mem k)
  have inner : ∀ c t, 0 ≤ c → c < C → Q c 0 t → Q c B (cfor 0 B (body c) t) := by
    intro c t hc0 hc1 ht
    refine cfor_induction (fun m t => Q c m t) 0 B _ t hB ht ?_
    intro i u hi0 hi1 hu
    obtain ⟨u0, u1, u2⟩ := hu
    obtain ⟨_, _, _, b4⟩ := inv_mdct_block_spec E lookup window X N overlap B C c i u hC h0 h1
    rw [hN] at b4
    refine ⟨?_, ?_, ?_⟩
    · rw [u0, hst c (i + 1), hst c i, cfor_last _ _ _ _ (by omega : (0 : Int) < i + 1)]
      simp only [Int.add_sub_cancel]
    · intro c' i' j hc'0 hc'1 hi'0 hi'1 hj0 hj1 hlt
      by_cases hsame : c' = c ∧ i' = i
      · rw [hsame.1, hsame.2, u0]
      · show (body c i u).out_mem _ = _
        rw [show body c i u = inv_mdct_block E lookup window X N overlap B C c i u from rfl,
          b4 _ ?_]
        · exact u1 c' i' j hc'0 hc'1 hi'0 hi'1 hj0 hj1 (by omega)
        · intro j' hj'0 hj'1 heq
          have := tail_inj N B C c' i' j c i j' hc'0 hc'1 hc0 hc1 hj0 hj1 hj'0 hj'1 heq
          exact hsame ⟨this.1, this.2.1⟩
    · intro k hk
      show (body c i u).out_mem _ = _
      rw [show body c i u = inv_mdct_block E lookup window X N overlap B C c i u from rfl,
        b4 k (fun j hj0 hj1 => hk c i j hc0 hc1 hi0 hi1 hj0 hj1)]
      exact u2 k hk
  have outer := cfor_induction (fun c t => Q c 0 t) 0 C (fun c s => cfor 0 B (body c) s) s0
    (by omega) ⟨?_, fun c' i' j h0 _ _ _ _ _ h => absurd h (by omega), ?_⟩ ?_
  · obtain ⟨_, o1, o2⟩ := outer
    exact ⟨fun c i j hc0 hc1 hi0 hi1 hj0 hj1 => o1 c i j hc0 hc1 hi0 hi1 hj0 hj1 (Or.inl hc1),
      o2⟩
  · rw [hst 0 0, cfor_empty _ _ _ _ (le_refl _), cfor_empty _ _ _ _ (le_refl _)]
  · intro k _; rw [← hs0]
  · intro c t hc0 hc1 ht
    obtain ⟨q0, q1, q2⟩ := inner c t hc0 hc1 ht
    refine ⟨?_, fun c' i' j a b d e f g h => q1 c' i' j a b d e f g (by omega), q2⟩
    show cfor 0 B (body c) t = st (c + 1) 0
    rw [q0, hst c B, hst (c + 1) 0, cfor_empty _ _ _ _ (le_refl _),
      cfor_last _ _ _ _ (by omega : (0 : Int) < c + 1)]
    simp only [Int.add_sub_cancel]

/-- C4. For `C ≥ 1`, `B ≥ 0` and `0 ≤ overlap ≤ N` with `N - overlap` even (whether or not
`B·N ≤ MAX_PERIOD`), after `CELT_MOVE` and `compute_inv_mdcts`: `out_mem[C·k+c]` is the old
`out_mem[C·(k+B·N)+c]` for `0 ≤ k < MAX_PERIOD - B·N`; every position `k` of the last `B·N`
is `MAX_PERIOD + (i-B)·N + j` for exactly one sub-block `i` and one `0 ≤ j < N`; and the cell
of `(c, i, j)` holds what that sub-block stored: the windowed inverse transform at `N4 + j`
plus `mdct_overlap[C·j+c]` for `j < overlap`, the windowed inverse transform at `j + N4` for
the `2·N4` following `j`. -/
theorem synthesis_history_slide (E : Ext α) (lookup : E.Lookup) (window X out_mem
    mdct_overlap : Sig α) (N overlap B C : Int) (x0 tmp0 : Sig α) (hC : 1 ≤ C) (hB : 0 ≤ B)
    (h0 : 0 ≤ overlap) (h1 : overlap ≤ N) (heven : (N - overlap) % 2 = 0) :
    (∀ c k, 0 ≤ c → c < C → 0 ≤ k → k < MAX_PERIOD - B * N →
      (compute_inv_mdcts E lookup window X
          (CELT_MOVE out_mem (C * B * N) (C * (MAX_PERIOD - B * N)))
          mdct_overlap N overlap B C x0 tmp0).1 (C * k + c)
        = out_mem (C * (k + B * N) + c)) ∧
    (∀ k, MAX_PERIOD - B * N ≤ k → k < MAX_PERIOD →
      ∃ i j : Int, (0 ≤ i ∧ i < B) ∧ (0 ≤ j ∧ j < N) ∧ k = MAX_PERIOD + (i - B) * N + j ∧
        ∀ i' j', 0 ≤ i' → i' < B → 0 ≤ j' → j' < N → k = MAX_PERIOD + (i' - B) * N + j' →
          i' = i ∧ j' = j) ∧
    (∀ c i j, 0 ≤ c → c < C → 0 ≤ i → i < B → 0 ≤ j → j < N →
      (compute_inv_mdcts E lookup window X
          (CELT_MOVE out_mem (C * B * N) (C * (MAX_PERIOD - B * N)))
          mdct_overlap N overlap B C x0 tmp0).1 (C * (MAX_PERIOD + (i - B) * N + j) + c)
        = (if j < overlap then
            (inv_mdct_block E lookup window X N overlap B C c i
              (inv_mdct_state E lookup window X
                (CELT_MOVE out_mem (C * B * N) (C * (MAX_PERIOD - B * N)))
                mdct_overlap N overlap B C x0 tmp0 c i)).x ((N - overlap) / 2 + j)
            + (inv_mdct_state E lookup window X
                (CELT_MOVE out_mem (C * B * N) (C * (MAX_PERIOD - B * N)))
                mdct_overlap N overlap B C x0 tmp0 c i).mdct_overlap (C * j + c)
          else
            (inv_mdct_block E lookup window X N overlap B C c i
              (inv_mdct_state E lookup window X
                (CELT_MOVE out_mem (C * B * N) (C * (MAX_PERIOD - B * N)))
                mdct_overlap N overlap B C x0 tmp0 c i)).x (j + (N - overlap) / 2)) ∧
      ∀ n, 0 ≤ n → n < 2 * N →
        (inv_mdct_block E lookup window X N overlap B C c i
          (inv_mdct_state E lookup window X
            (CELT_MOVE out_mem (C * B * N) (C * (MAX_PERIOD - B * N)))
            mdct_overlap N overlap B C x0 tmp0 c i)).x n
        = window n * E.mdct_backward lookup
            (deinterleave X N B C c i
              (inv_mdct_state E lookup window X
                (CELT_MOVE out_mem (C * B * N) (C * (MAX_PERIOD - B * N)))
                mdct_overlap N overlap B C x0 tmp0 c i).tmp)
            (inv_mdct_state E lookup window X
              (CELT_MOVE out_mem (C * B * N) (C * (MAX_PERIOD - B * N)))
              mdct_overlap N overlap B C x0 tmp0 c i).x n) := by
  have hN : overlap + 2 * ((N - overlap) / 2) = N := by omega
  obtain ⟨d1, d2⟩ := compute_inv_mdcts_out E lookup window X
    (CELT_MOVE out_mem (C * B * N) (C * (MAX_PERIOD - B * N))) mdct_overlap N overlap B C
    x0 tmp0 hC hB h0 h1 heven
  refine ⟨?_, ?_, ?_⟩
  · intro c k hc0 hc1 hk0 hk1
    rw [d2]
    · unfold CELT_MOVE
      have hlt : C * k + c < C * (MAX_PERIOD - B * N) := by
        have : C * (k + 1) ≤ C * (MAX_PERIOD - B * N) :=
          mul_le_mul_of_nonneg_left (by omega) (by omega)
        have e : C * (k + 1) = C * k + C := by ring
        omega
      have hge : 0 ≤ C * k + c := by
        have := mul_nonneg (by omega : (0 : Int) ≤ C) hk0
        omega
      rw [if_pos ⟨hge, hlt⟩]
      congr 1
      ring
    · intro c' i' j' hc'0 hc'1 hi'0 hi'1 hj'0 hj'1 heq
      have e : C * (MAX_PERIOD + (i' - B) * N) + C * j' + c'
          = C * (MAX_PERIOD + (i' - B) * N + j') + c' := by ring
      rw [e] at heq
      obtain ⟨q, _⟩ := euclid_unique C _ _ c c' hc0 hc1 hc'0 hc'1 heq
      have := tail_range N B i' j' hi'0 hi'1 hj'0 hj'1
      omega
  · intro k hk0 hk1
    have hNpos : 0 < N := by
      by_contra hcon
      have hN0 : N = 0 := by omega
      rw [hN0] at hk0
      simp at hk0
      omega
    have hd0 : 0 ≤ k - (MAX_PERIOD - B * N) := by omega
    have hd1 : k - (MAX_PERIOD - B * N) < B * N := by omega
    refine ⟨(k - (MAX_PERIOD - B * N)) / N, (k - (MAX_PERIOD - B * N)) % N,
      ⟨Int.ediv_nonneg hd0 hNpos.le, Int.ediv_lt_of_lt_mul hNpos hd1⟩,
      ⟨Int.emod_nonneg _ (by omega), Int.emod_lt_of_pos _ hNpos⟩, ?_, ?_⟩
    · have e1 := Int.ediv_add_emod (k - (MAX_PERIOD - B * N)) N
      have e2 : ((k - (MAX_PERIOD - B * N)) / N - B) * N
          = N * ((k - (MAX_PERIOD - B * N)) / N) - B * N := by ring
      rw [e2]
      omega
    · intro i' j' hi'0 hi'1 hj'0 hj'1 hk
      have e1 := Int.ediv_add_emod (k - (MAX_PERIOD - B * N)) N
      have e2 : (i' - B) * N = N * i' - B * N := by ring
      rw [e2] at hk
      have := euclid_unique N i' ((k - (MAX_PERIOD - B * N)) / N) j'
        ((k - (MAX_PERIOD - B * N)) % N) hj'0 hj'1 (Int.emod_nonneg _ (by omega))
        (Int.emod_lt_of_pos _ hNpos) (by omega)
      exact this
  · intro c i j hc0 hc1 hi0 hi1 hj0 hj1
    obtain ⟨b1, b2, b3, _⟩ := inv_mdct_block_spec E lookup window X N overlap B C c i
      (inv_mdct_state E lookup window X
        (CELT_MOVE out_mem (C * B * N) (C * (MAX_PERIOD - B * N)))
        mdct_overlap N overlap B C x0 tmp0 c i) hC h0 h1
    refine ⟨?_, b1⟩
    have e : C * (MAX_PERIOD + (i - B) * N + j) + c
        = C * (MAX_PERIOD + (i - B) * N) + C * j + c := by ring
    rw [e, d1 c i j hc0 hc1 hi0 hi1 hj0 hj1]
    by_cases hjo : j < overlap
    · rw [if_pos hjo]
      exact b2 j hj0 hjo
    · rw [if_neg hjo]
      exact b3 j (by omega) (by omega)

/-- C4 on the decoder of `testExt`: the cell just below the last frame is the old last cell. -/
theorem synthesis_history_slide_witness :
    (compute_inv_mdcts testExt (2 : Int) testDecoder.window (fun _ => 0)
        (CELT_MOVE testDecoder.out_mem (1 * 1 * 1) (1 * (MAX_PERIOD - 1 * 1)))
        testDecoder.mdct_overlap 1 1 1 1 (fun _ => 0) (fun _ => 0)).1 (1 * 1022 + 0)
      = testDecoder.out_mem (1 * (1022 + 1 * 1) + 0) :=
  (synthesis_history_slide testExt (2 : Int) testDecoder.window (fun _ => 0)
    testDecoder.out_mem testDecoder.mdct_overlap 1 1 1 1 (fun _ => 0) (fun _ => 0)
    (by decide) (by decide) (by decide) (by decide) (by decide)).1 0 1022
    (by decide) (by decide) (by decide) (by decide)

end InvMdcts

/-! ## Packet-loss concealment -/

section Lost

variable [LinearOrderedField α] [FloorRing α]

/-- C5. For a decoder state with a valid mode, `celt_decode(st, NULL, len, pcm)` returns `0`
for every `len`; the `pcm` and the state it leaves are those of `celt_decode_lost` and are the
same for every `len`; `oldBandE`, `last_pitch_index` and the window are unchanged, and the
state differs from the old one in `out_mem`, `mdct_overlap` and `preemph_memD` only. -/
theorem lost_frame_effect (E : Ext α) (fuel fuel' : Nat) (st : CELTDecoder α E)
    (len len' : Int) (pcm : Sig Int) (stack : Nat → Sig α)
    (hmode : E.check_mode st.mode = true) :
    ∃ r : DecodeResult α E,
      celt_decode E fuel st none len pcm stack = some r ∧
      celt_decode E fuel' st none len' pcm stack = some r ∧
      r.ret = .ok 0 ∧
      (r.st, r.pcm) = celt_decode_lost E st pcm stack ∧
      r.st.oldBandE = st.oldBandE ∧
      r.st.last_pitch_index = st.last_pitch_index ∧
      r.st.window = st.window ∧
      r.st = { st with out_mem := r.st.out_mem, mdct_overlap := r.st.mdct_overlap,
                       preemph_memD := r.st.preemph_memD } := by
  refine ⟨{ ret := .ok 0, st := (celt_decode_lost E st pcm stack).1,
            pcm := (celt_decode_lost E st pcm stack).2, warnings := [] }, ?_, ?_, rfl, rfl,
    rfl, rfl, rfl, rfl⟩
  · unfold celt_decode
    simp [hmode]
  · unfold celt_decode
    simp [hmode]

/-- C5 on `testDecoder`, for `len = 0` and `len = 7`. -/
theorem lost_frame_effect_witness :
    ∃ r : DecodeResult ℚ testExt,
      celt_decode testExt 0 testDecoder none 0 (fun _ => 0) (fun _ _ => 0) = some r ∧
      celt_decode testExt 3 testDecoder none 7 (fun _ => 0) (fun _ _ => 0) = some r ∧
      r.ret = .ok 0 ∧
      (r.st, r.pcm) = celt_decode_lost testExt testDecoder (fun _ => 0) (fun _ _ => 0) ∧
      r.st.oldBandE = testDecoder.oldBandE ∧
      r.st.last_pitch_index = testDecoder.last_pitch_index ∧
      r.st.window = testDecoder.window ∧
      r.st = { testDecoder with out_mem := r.st.out_mem, mdct_overlap := r.st.mdct_overlap,
                                preemph_memD := r.st.preemph_memD } :=
  lost_frame_effect testExt 0 3 testDecoder 0 7 (fun _ => 0) (fun _ _ => 0) (by decide)

/-- The de-emphasis loops run on two `pcm` buffers: the same memory, and in each cell either
the same sample or the untouched content of each buffer. -/
theorem deemphasis_two_buffers (out_mem : Sig α) (preemph : α) (preemph_memD : Sig α)
    (pcm pcm' : Sig Int) (N B C : Int) :
    (deemphasis out_mem preemph preemph_memD pcm N B C).1
      = (deemphasis out_mem preemph preemph_memD pcm' N B C).1 ∧
    ∀ k, (deemphasis out_mem preemph preemph_memD pcm N B C).2 k
        = (deemphasis out_mem preemph preemph_memD pcm' N B C).2 k ∨
      ((deemphasis out_mem preemph preemph_memD pcm N B C).2 k = pcm k ∧
       (deemphasis out_mem preemph preemph_memD pcm' N B C).2 k = pcm' k) := by
  unfold deemphasis
  let R : Sig α × Sig Int → Sig α × Sig Int → Prop := fun s s' =>
    s.1 = s'.1 ∧ ∀ k, s.2 k = s'.2 k ∨ (s.2 k = pcm k ∧ s'.2 k = pcm' k)
  refine cfor_rel R _ _ _ _ _ _ ⟨rfl, fun k => Or.inr ⟨rfl, rfl⟩⟩ ?_
  intro c s s' _ _ h
  refine cfor_rel R _ _ _ _ _ _ h ?_
  intro i s s' _ _ h
  refine cfor_rel R _ _ _ _ _ _ h ?_
  intro j s s' _ _ h
  obtain ⟨h1, h2⟩ := h
  show _ ∧ _
  simp only
  rw [h1]
  refine ⟨rfl, fun k => ?_⟩
  by_cases hk : k = C * i * N + C * j + c
  · left; rw [hk, wr_same, wr_same]
  · rw [wr_other _ _ _ _ hk, wr_other _ _ _ _ hk]
    exact h2 k

/-- C6 fails: a decoder created for `testMode` decodes `testFrame` successfully (return `0`);
the first loss call that follows writes `pcm[0] = -54` and the second writes `pcm[0] = -43`. -/
theorem stationary_concealment_counterexample :
    (celt_decoder_create testExt testMode).bind (fun d =>
      (celt_decode testExt 8 d (some testFrame) 2 (fun _ => 0) (fun _ _ => 0)).bind (fun r0 =>
        (celt_decode testExt 0 r0.st none 0 r0.pcm (fun _ _ => 0)).bind (fun r1 =>
          (celt_decode testExt 0 r1.st none 0 r1.pcm (fun _ _ => 0)).map (fun r2 =>
            (r0.ret.toOption, r1.ret.toOption, r2.ret.toOption, r1.pcm 0, r2.pcm 0)))))
      = some (some 0, some 0, some 0, -54, -43) := by
  decide!

end Lost

/-- Loops of zero, one and two iterations. -/
theorem cfor_nil {σ : Type} (lo : Int) (body : Int → σ → σ) (s : σ) : cfor lo lo body s = s :=
  cfor_empty _ _ _ _ (le_refl _)

theorem cfor_one {σ : Type} (body : Int → σ → σ) (s : σ) : cfor 0 1 body s = body 0 s := rfl

theorem cfor_two {σ : Type} (body : Int → σ → σ) (s : σ) :
    cfor 0 2 body s = body 1 (body 0 s) := rfl

/-- A loss call leaves the all-zero decoder `testSilentDecoder` as it found it. -/
theorem testSilentDecoder_fixed :
    (celt_decode_lost testExt testSilentDecoder (fun _ => 0) (fun _ _ => 0)).1
      = testSilentDecoder := by
  have h1 : (celt_decode_lost testExt testSilentDecoder (fun _ => 0) (fun _ _ => 0)).1.out_mem
      = fun _ => 0 := by
    funext k
    simp [celt_decode_lost, testSilentDecoder, testDecoder, testMode, compute_inv_mdcts,
      compute_mdcts, mdct_block, mdct_window, inv_mdct_block, interleave, deinterleave,
      cfor_nil, cfor_one, cfor_two, testExt, CELT_MOVE, MAX_PERIOD, offs, wr, decoder_window]
  have h2 : (celt_decode_lost testExt testSilentDecoder (fun _ => 0)
      (fun _ _ => 0)).1.mdct_overlap = fun _ => 0 := by
    funext k
    simp [celt_decode_lost, testSilentDecoder, testDecoder, testMode, compute_inv_mdcts,
      compute_mdcts, mdct_block, mdct_window, inv_mdct_block, interleave, deinterleave,
      cfor_nil, cfor_one, cfor_two, testExt, CELT_MOVE, MAX_PERIOD, offs, wr, decoder_window]
  have h3 : (celt_decode_lost testExt testSilentDecoder (fun _ => 0)
      (fun _ _ => 0)).1.preemph_memD = fun _ => 0 := by
    funext k
    simp [celt_decode_lost, testSilentDecoder, testDecoder, testMode, compute_inv_mdcts,
      compute_mdcts, mdct_block, mdct_window, inv_mdct_block, interleave, deinterleave,
      deemphasis, cfor_nil, cfor_one, cfor_two, testExt, CELT_MOVE, MAX_PERIOD, offs, wr,
      decoder_window]
  calc (celt_decode_lost testExt testSilentDecoder (fun _ => 0) (fun _ _ => 0)).1
      = { testSilentDecoder with
          out_mem := (celt_decode_lost testExt testSilentDecoder (fun _ => 0)
            (fun _ _ => 0)).1.out_mem,
          mdct_overlap := (celt_decode_lost testExt testSilentDecoder (fun _ => 0)
            (fun _ _ => 0)).1.mdct_overlap,
          preemph_memD := (celt_decode_lost testExt testSilentDecoder (fun _ => 0)
            (fun _ _ => 0)).1.preemph_memD } := rfl
    _ = testSilentDecoder := by rw [h1, h2, h3]; rfl

/-! ## The trailer -/

section Trailer

/-- The bit position does not go back while symbols are read. -/
theorem dec_after_tell (E : Ext α)
    (hprog : ∀ d, E.ec_dec_tell d 0 < E.ec_dec_tell (E.ec_dec_uint d 2).2 0)
    (k : Nat) : ∀ dec, E.ec_dec_tell dec 0 ≤ E.ec_dec_tell (dec_after E dec k) 0 := by
  induction k with
  | zero => intro dec; exact le_refl _
  | succ k ih =>
    intro dec
    exact le_trans (le_of_lt (hprog dec)) (ih _)

/-- The trailer loop of the decoder ends within `8·len - tell` reads, and it ends at the
`return CELT_CORRUPTED_DATA` exactly when a symbol read inside the frame is not the expected
one of the pattern `p mod 2, (p+1) mod 2, ...`. -/
theorem dec_trailer_spec (E : Ext α) (len : Int)
    (hprog : ∀ d, E.ec_dec_tell d 0 < E.ec_dec_tell (E.ec_dec_uint d 2).2 0)
    (fuel : Nat) : ∀ (dec : E.Dec × E.Buf) (p : Nat),
      (len * 8 - E.ec_dec_tell dec 0).toNat ≤ fuel →
      ∃ b, dec_trailer E len fuel dec ((p % 2 : Nat) : Int) = some b ∧
        (b = false ↔ ∃ k : Nat, E.ec_dec_tell (dec_after E dec k) 0 < len * 8 ∧
          trailer_symbol E dec k ≠ (((p + k) % 2 : Nat) : Int)) := by
  induction fuel with
  | zero =>
    intro dec p hf
    have hge : ¬ (E.ec_dec_tell dec 0 < len * 8) := by omega
    refine ⟨true, by simp [dec_trailer, hge], ?_⟩
    constructor
    · intro h; cases h
    · rintro ⟨k, hk, _⟩
      have := dec_after_tell E hprog k dec
      omega
  | succ fuel ih =>
    intro dec p hf
    by_cases hlt : E.ec_dec_tell dec 0 < len * 8
    · by_cases hsym : (E.ec_dec_uint dec 2).1 ≠ ((p % 2 : Nat) : Int)
      · refine ⟨false, ?_, ?_⟩
        · rw [dec_trailer, if_pos hlt]
          exact if_pos hsym
        constructor
        · intro _
          exact ⟨0, hlt, hsym⟩
        · intro _; rfl
      · have hnext : (1 : Int) - ((p % 2 : Nat) : Int) = (((p + 1) % 2 : Nat) : Int) := by
          omega
        have hf' : (len * 8 - E.ec_dec_tell (E.ec_dec_uint dec 2).2 0).toNat ≤ fuel := by
          have := hprog dec
          omega
        obtain ⟨b, hb, hiff⟩ := ih (E.ec_dec_uint dec 2).2 (p + 1) hf'
        refine ⟨b, ?_, ?_⟩
        · rw [← hb, ← hnext, dec_trailer, if_pos hlt]
          exact if_neg hsym
        · rw [hiff]
          constructor
          · rintro ⟨k, hk1, hk2⟩
            refine ⟨k + 1, hk1, ?_⟩
            have e : p + (k + 1) = p + 1 + k := by omega
            rw [e]
            exact hk2
          · rintro ⟨k, hk1, hk2⟩
            cases k with
            | zero =>
              exact absurd hk2 hsym
            | succ k =>
              refine ⟨k, hk1, ?_⟩
              have e : p + (k + 1) = p + 1 + k := by omega
              rw [e] at hk2
              exact hk2
    · refine ⟨true, by simp [dec_trailer, hlt], ?_⟩
      constructor
      · intro h; cases h
      · rintro ⟨k, hk, _⟩
        have := dec_after_tell E hprog k dec
        omega

/-- The trailer loop of the encoder writes the symbols `p mod 2, (p+1) mod 2, ...`. -/
theorem enc_trailer_spec (E : Ext α) (nbCompressedBytes : Int) (fuel : Nat) :
    ∀ (coder coder' : E.Enc × E.Buf) (p : Nat),
      enc_trailer E nbCompressedBytes fuel coder ((p % 2 : Nat) : Int) = some coder' →
      ∃ n : Nat, coder' = enc_after E coder p n ∧
        ¬ (E.ec_enc_tell coder' 0 < nbCompressedBytes * 8) := by
  induction fuel with
  | zero =>
    intro coder coder' p h
    by_cases hlt : E.ec_enc_tell coder 0 < nbCompressedBytes * 8
    · simp [enc_trailer, hlt] at h
    · simp [enc_trailer, hlt] at h
      exact ⟨0, h.symm, by rw [← h]; exact hlt⟩
  | succ fuel ih =>
    intro coder coder' p h
    by_cases hlt : E.ec_enc_tell coder 0 < nbCompressedBytes * 8
    · have hnext : (1 : Int) - ((p % 2 : Nat) : Int) = (((p + 1) % 2 : Nat) : Int) := by
        omega
      simp only [enc_trailer, hlt, if_true] at h
      rw [hnext] at h
      obtain ⟨n, hn, hstop⟩ := ih _ coder' (p + 1) h
      exact ⟨n + 1, hn, hstop⟩
    · simp [enc_trailer, hlt] at h
      exact ⟨0, h.symm, by rw [← h]; exact hlt⟩

variable [LinearOrderedField α] [FloorRing α]

/-- C2. For a non-null input and a mode that `check_mode` accepts, with a range decoder whose
`ec_dec_uint(dec, 2)` advances `ec_dec_tell`, `celt_decode` ends (within `8·len - tell`
trailer reads, `tell` being the position after the residual); it returns
`CELT_CORRUPTED_DATA` if and only if some symbol read before `ec_dec_tell` reaches `8·len`
(the `k`-th one, from `0`) differs from `k mod 2`, and returns `0` otherwise. The encoder's
trailer loop writes the symbols `0, 1, 0, 1, ...` in this order. -/
theorem decode_trailer_verification (E : Ext α) (fuel : Nat) (st : CELTDecoder α E)
    (data : Sig Nat) (len : Int) (pcm : Sig Int) (stack : Nat → Sig α)
    (hmode : E.check_mode st.mode = true)
    (hprog : ∀ d, E.ec_dec_tell d 0 < E.ec_dec_tell (E.ec_dec_uint d 2).2 0)
    (hfuel : (len * 8
      - E.ec_dec_tell (celt_decode_frame E st data len pcm stack).2.2 0).toNat ≤ fuel) :
    (∃ r : DecodeResult α E,
      celt_decode E fuel st (some data) len pcm stack = some r ∧
      (r.ret = .error .CELT_CORRUPTED_DATA ↔
        ∃ k : Nat,
          E.ec_dec_tell (dec_after E (celt_decode_frame E st data len pcm stack).2.2 k) 0
            < len * 8 ∧
          trailer_symbol E (celt_decode_frame E st data len pcm stack).2.2 k
            ≠ ((k % 2 : Nat) : Int)) ∧
      (r.ret ≠ .error .CELT_CORRUPTED_DATA → r.ret = .ok 0)) ∧
    (∀ (nbCompressedBytes : Int) (fuel' : Nat) (coder coder' : E.Enc × E.Buf),
      enc_trailer E nbCompressedBytes fuel' coder 0 = some coder' →
      ∃ n : Nat, coder' = enc_after E coder 0 n) := by
  constructor
  · obtain ⟨b, hb, hiff⟩ := dec_trailer_spec E len hprog fuel
      (celt_decode_frame E st data len pcm stack).2.2 0 hfuel
    simp only [Nat.zero_mod, Nat.cast_zero, Nat.zero_add] at hb hiff
    cases b with
    | true =>
      refine ⟨{ ret := .ok 0, st := (celt_decode_frame E st data len pcm stack).1,
                pcm := (celt_decode_frame E st data len pcm stack).2.1, warnings := [] },
        ?_, ?_, fun _ => rfl⟩
      · unfold celt_decode
        simp [hmode, hb]
      · rw [← hiff]
        simp
    | false =>
      refine ⟨{ ret := .error .CELT_CORRUPTED_DATA,
                st := (celt_decode_frame E st data len pcm stack).1,
                pcm := (celt_decode_frame E st data len pcm stack).2.1,
                warnings := [.decodeError] }, ?_, ?_, fun h => absurd rfl h⟩
      · unfold celt_decode
        simp [hmode, hb]
      · rw [← hiff]
        simp
  · intro nb fuel' coder coder' h
    obtain ⟨n, hn, _⟩ := enc_trailer_spec E nb fuel' coder coder' 0 (by simpa using h)
    exact ⟨n, hn⟩

end Trailer

/-- Every two-valued symbol read by the decoder of `testExt` advances its position. -/
theorem testExt_dec_progress :
    ∀ d, testExt.ec_dec_tell d 0 < testExt.ec_dec_tell (testExt.ec_dec_uint d 2).2 0 := by
  intro (d : Nat × List Nat)
  show ((d.1 : Nat) : Int) < ((d.1 + testBits 2 : Nat) : Int)
  have h : testBits 2 = 1 := by decide!
  rw [h]
  omega

/-- C2 on `testExt`: a two-byte all-zero frame, whose single trailer symbol is `0`. -/
theorem decode_trailer_verification_witness :
    ∃ r : DecodeResult ℚ testExt,
      celt_decode testExt 8 testDecoder (some (fun _ => 0)) 2 (fun _ => 0) (fun _ _ => 0)
        = some r ∧
      (r.ret = .error .CELT_CORRUPTED_DATA ↔
        ∃ k : Nat,
          testExt.ec_dec_tell (dec_after testExt (celt_decode_frame testExt testDecoder
            (fun _ => 0) 2 (fun _ => 0) (fun _ _ => 0)).2.2 k) 0 < 2 * 8 ∧
          trailer_symbol testExt (celt_decode_frame testExt testDecoder
            (fun _ => 0) 2 (fun _ => 0) (fun _ _ => 0)).2.2 k ≠ ((k % 2 : Nat) : Int)) ∧
      (r.ret ≠ .error .CELT_CORRUPTED_DATA → r.ret = .ok 0) :=
  (decode_trailer_verification testExt 8 testDecoder (fun _ => 0) 2 (fun _ => 0)
    (fun _ _ => 0) (by decide) testExt_dec_progress (by decide!)).1

/-! ## The output of `celt_encode` -/

section Envelope

/-- The trailer loop of the encoder ends within `8·nbCompressedBytes - tell` symbols when
every symbol advances `ec_enc_tell`. -/
theorem enc_trailer_terminates (E : Ext α) (nbCompressedBytes : Int)
    (hprog : ∀ cd v, E.ec_enc_tell cd 0 < E.ec_enc_tell (E.ec_enc_uint cd v 2) 0)
    (fuel : Nat) : ∀ (coder : E.Enc × E.Buf) (val : Int),
      (nbCompressedBytes * 8 - E.ec_enc_tell coder 0).toNat ≤ fuel →
      ∃ coder', enc_trailer E nbCompressedBytes fuel coder val = some coder' := by
  induction fuel with
  | zero =>
    intro coder val hf
    have hge : ¬ (E.ec_enc_tell coder 0 < nbCompressedBytes * 8) := by omega
    exact ⟨coder, by rw [enc_trailer, if_neg hge]⟩
  | succ fuel ih =>
    intro coder val hf
    by_cases hlt : E.ec_enc_tell coder 0 < nbCompressedBytes * 8
    · have hf' : (nbCompressedBytes * 8
          - E.ec_enc_tell (E.ec_enc_uint coder val 2) 0).toNat ≤ fuel := by
        have := hprog coder val
        omega
      obtain ⟨c', hc'⟩ := ih (E.ec_enc_uint coder val 2) (1 - val) hf'
      exact ⟨c', by rw [enc_trailer, if_pos hlt]; exact hc'⟩
    · exact ⟨coder, by rw [enc_trailer, if_neg hlt]⟩

/-- What lines 406-426 of `celt_encode` do with the coder left by `ec_enc_done`. -/
theorem celt_encode_finish_spec (E : Ext α) (nbCompressedBytes : Int) (fuel : Nat)
    (st : CELTEncoder α E) (pcm : Sig Int) (compressed : Sig Nat) (coder cd : E.Enc × E.Buf)
    (hdone : celt_encode_done E nbCompressedBytes fuel coder = some cd)
    (hbytes : 0 ≤ E.ec_byte_bytes cd.2) :
    ∃ r : EncodeResult α E,
      celt_encode_finish E nbCompressedBytes fuel st pcm compressed coder = some r ∧
      (E.ec_byte_bytes cd.2 ≤ nbCompressedBytes →
        r.ret = .ok nbCompressedBytes ∧
        (∀ i, 0 ≤ i → i < E.ec_byte_bytes cd.2 →
          r.compressed i = E.ec_byte_get_buffer cd.2 i) ∧
        (∀ i, E.ec_byte_bytes cd.2 ≤ i → i < nbCompressedBytes → r.compressed i = 0) ∧
        (∀ i, ¬ (0 ≤ i ∧ i < nbCompressedBytes) → r.compressed i = compressed i)) ∧
      (nbCompressedBytes < E.ec_byte_bytes cd.2 →
        r.ret = .error .CELT_INTERNAL_ERROR ∧ r.compressed = compressed) := by
  unfold celt_encode_finish
  simp only [hdone]
  by_cases hgt : E.ec_byte_bytes cd.2 > nbCompressedBytes
  · rw [if_pos hgt]
    refine ⟨_, rfl, fun h => absurd hgt (by omega), fun _ => ⟨rfl, rfl⟩⟩
  · rw [if_neg hgt]
    refine ⟨_, rfl, fun _ => ⟨rfl, ?_, ?_, ?_⟩, fun h => absurd h (by omega)⟩
    · intro i hi0 hi1
      simp only
      rw [cfor_fill_of _ _ 0 _ (fun j => (zero_add j).symm),
        cfor_fill_of _ _ 0 _ (fun j => (zero_add j).symm)]
      have a1 : ¬ ((0 : Int) + (if 0 < E.ec_byte_bytes cd.2 then E.ec_byte_bytes cd.2 else 0) ≤ i
          ∧ i < 0 + nbCompressedBytes) := by
        split_ifs <;> omega
      have a2 : (0 : Int) + 0 ≤ i ∧ i < 0 + E.ec_byte_bytes cd.2 := by omega
      rw [if_neg a1, if_pos a2, Int.sub_zero]
    · intro i hi0 hi1
      simp only
      rw [cfor_fill_of _ _ 0 _ (fun j => (zero_add j).symm)]
      have a1 : (0 : Int) + (if 0 < E.ec_byte_bytes cd.2 then E.ec_byte_bytes cd.2 else 0) ≤ i
          ∧ i < 0 + nbCompressedBytes := by
        split_ifs <;> omega
      rw [if_pos a1]
    · intro i hi
      simp only
      rw [cfor_fill_of _ _ 0 _ (fun j => (zero_add j).symm),
        cfor_fill_of _ _ 0 _ (fun j => (zero_add j).symm)]
      have a1 : ¬ ((0 : Int) + (if 0 < E.ec_byte_bytes cd.2 then E.ec_byte_bytes cd.2 else 0) ≤ i
          ∧ i < 0 + nbCompressedBytes) := by
        split_ifs <;> omega
      have a2 : ¬ ((0 : Int) + 0 ≤ i ∧ i < 0 + E.ec_byte_bytes cd.2) := by omega
      rw [if_neg a1, if_neg a2]

variable [LinearOrderedField α] [FloorRing α]

/-- C1. When `check_mode` rejects the mode, `celt_encode` returns `CELT_INVALID_MODE` and
leaves the state, `pcm` and `compressed` as they were. When it accepts the mode (and every
two-valued symbol advances `ec_enc_tell`, so that the trailer loop ends), let `nbBytes` be
`ec_byte_bytes` of the coder after `ec_enc_done`: if `nbBytes ≤ nbCompressedBytes` the call
returns `nbCompressedBytes`, `compressed[0..nbBytes)` holds the coder's bytes,
`compressed[nbBytes..nbCompressedBytes)` is zero and no other cell is written; if
`nbBytes > nbCompressedBytes` it returns `CELT_INTERNAL_ERROR` and `compressed` is as it was. -/
theorem encode_output_envelope (E : Ext α) (fuel : Nat) (st : CELTEncoder α E)
    (pcm : Sig Int) (compressed : Sig Nat) (nbCompressedBytes : Int) (stack : Nat → Sig α)
    (hprog : ∀ cd v, E.ec_enc_tell cd 0 < E.ec_enc_tell (E.ec_enc_uint cd v 2) 0)
    (hbytes : ∀ b, 0 ≤ E.ec_byte_bytes b) :
    (E.check_mode st.mode = false →
      celt_encode E fuel st pcm compressed nbCompressedBytes stack
        = some { ret := .error .CELT_INVALID_MODE, st := st, pcm := pcm,
                 compressed := compressed, warnings := [] }) ∧
    (E.check_mode st.mode = true →
      (nbCompressedBytes * 8
        - E.ec_enc_tell (celt_encode_coder E st pcm nbCompressedBytes stack) 0).toNat ≤ fuel →
      ∃ (cd : E.Enc × E.Buf) (r : EncodeResult α E),
        celt_encode_done E nbCompressedBytes fuel
          (celt_encode_coder E st pcm nbCompressedBytes stack) = some cd ∧
        celt_encode E fuel st pcm compressed nbCompressedBytes stack = some r ∧
        (E.ec_byte_bytes cd.2 ≤ nbCompressedBytes →
          r.ret = .ok nbCompressedBytes ∧
          (∀ i, 0 ≤ i → i < E.ec_byte_bytes cd.2 →
            r.compressed i = E.ec_byte_get_buffer cd.2 i) ∧
          (∀ i, E.ec_byte_bytes cd.2 ≤ i → i < nbCompressedBytes → r.compressed i = 0) ∧
          (∀ i, ¬ (0 ≤ i ∧ i < nbCompressedBytes) → r.compressed i = compressed i)) ∧
        (nbCompressedBytes < E.ec_byte_bytes cd.2 →
          r.ret = .error .CELT_INTERNAL_ERROR ∧ r.compressed = compressed)) := by
  constructor
  · intro hmode
    unfold celt_encode
    simp [hmode]
  · intro hmode hfuel
    obtain ⟨c', hc'⟩ := enc_trailer_terminates E nbCompressedBytes hprog fuel
      (celt_encode_coder E st pcm nbCompressedBytes stack) 0 hfuel
    have hdone : celt_encode_done E nbCompressedBytes fuel
        (celt_encode_coder E st pcm nbCompressedBytes stack) = some (E.ec_enc_done c') := by
      unfold celt_encode_done
      rw [hc']
      rfl
    obtain ⟨r, hr, h1, h2⟩ := celt_encode_finish_spec E nbCompressedBytes fuel
      (celt_encode_synthesis E st pcm nbCompressedBytes stack
        (celt_encode_analysis E st pcm nbCompressedBytes stack)
        (celt_encode_pitch E st.mode st.block_size st.nb_blocks st.mode.nbChannels
          (celt_encode_analysis E st pcm nbCompressedBytes stack).curr_power
          (celt_encode_analysis E st pcm nbCompressedBytes stack).pitch_power
          (celt_encode_analysis E st pcm nbCompressedBytes stack).pitch_index
          (celt_encode_analysis E st pcm nbCompressedBytes stack).X (stack 3)
          (celt_encode_analysis E st pcm nbCompressedBytes stack).freq
          (celt_encode_analysis E st pcm nbCompressedBytes stack).bandE (stack 6) (stack 11)
          (celt_encode_analysis E st pcm nbCompressedBytes stack).coder)).1
      (celt_encode_synthesis E st pcm nbCompressedBytes stack
        (celt_encode_analysis E st pcm nbCompressedBytes stack)
        (celt_encode_pitch E st.mode st.block_size st.nb_blocks st.mode.nbChannels
          (celt_encode_analysis E st pcm nbCompressedBytes stack).curr_power
          (celt_encode_analysis E st pcm nbCompressedBytes stack).pitch_power
          (celt_encode_analysis E st pcm nbCompressedBytes stack).pitch_index
          (celt_encode_analysis E st pcm nbCompressedBytes stack).X (stack 3)
          (celt_encode_analysis E st pcm nbCompressedBytes stack).freq
          (celt_encode_analysis E st pcm nbCompressedBytes stack).bandE (stack 6) (stack 11)
          (celt_encode_analysis E st pcm nbCompressedBytes stack).coder)).2.1
      compressed (celt_encode_coder E st pcm nbCompressedBytes stack) (E.ec_enc_done c')
      hdone (hbytes _)
    refine ⟨E.ec_enc_done c', r, hdone, ?_, h1, h2⟩
    rw [← hr]
    unfold celt_encode
    simp only [hmode, not_true_eq_false, if_false]
    rfl

end Envelope

/-- Every two-valued symbol written by the encoder of `testExt` advances its position. -/
theorem testExt_enc_progress :
    ∀ cd v, testExt.ec_enc_tell cd 0 < testExt.ec_enc_tell (testExt.ec_enc_uint cd v 2) 0 := by
  intro (cd : Unit × List Nat) v
  show ((cd.2.length : Nat) : Int) < (((cd.2 ++ testToBits v (testBits 2)).length : Nat) : Int)
  have h : testBits 2 = 1 := by decide!
  rw [h, List.length_append]
  simp [testToBits]

theorem testExt_bytes_nonneg : ∀ b, 0 ≤ testExt.ec_byte_bytes b := by
  intro (b : List Nat)
  show (0 : Int) ≤ (((b.length + 7) / 8 : Nat) : Int)
  omega

/-- C1 on `testExt`: the fresh encoder `testEncoder`, a zero frame and two compressed bytes. -/
theorem encode_output_envelope_witness :
    ∃ (cd : testExt.Enc × testExt.Buf) (r : EncodeResult ℚ testExt),
      celt_encode_done testExt 2 8
        (celt_encode_coder testExt testEncoder (fun _ => 0) 2 (fun _ _ => 0)) = some cd ∧
      celt_encode testExt 8 testEncoder (fun _ => 0) (fun _ => 9) 2 (fun _ _ => 0) = some r ∧
      (testExt.ec_byte_bytes cd.2 ≤ 2 →
        r.ret = .ok 2 ∧
        (∀ i, 0 ≤ i → i < testExt.ec_byte_bytes cd.2 →
          r.compressed i = testExt.ec_byte_get_buffer cd.2 i) ∧
        (∀ i, testExt.ec_byte_bytes cd.2 ≤ i → i < 2 → r.compressed i = 0) ∧
        (∀ i, ¬ (0 ≤ i ∧ i < 2) → r.compressed i = (fun _ => 9) i)) ∧
      ((2 : Int) < testExt.ec_byte_bytes cd.2 →
        r.ret = .error .CELT_INTERNAL_ERROR ∧ r.compressed = fun _ => 9) :=
  (encode_output_envelope testExt 8 testEncoder (fun _ => 0) (fun _ => 9) 2 (fun _ _ => 0)
    testExt_enc_progress testExt_bytes_nonneg).2 (by decide) (by decide!)

/-! ## Input framing of the encoder -/

section Input

variable [Field α]

/-- The pre-emphasis loop of `celt_encode` (lines 258-263) for channel `c`: the cells of `in`
it stores, the cells it keeps, and the pre-emphasis memory. -/
theorem preemph_loop_spec (pcm : Sig Int) (preemph : α) (C M o1 o2 c : Int) (s : InSt α)
    (hC : 1 ≤ C) (hM : 0 ≤ M) :
    (∀ i, 0 ≤ i → i < M →
      (cfor 0 M (fun i (s : InSt α) =>
        let tmp : α := (pcm (C * i + c) : α)
        { s with inp := wr s.inp (C * (i + o1 + o2) + c) (tmp - preemph * s.preemph_memE c),
                 preemph_memE := wr s.preemph_memE c tmp }) s).inp (C * (i + o1 + o2) + c)
        = (pcm (C * i + c) : α)
          - preemph * (if i = 0 then s.preemph_memE c else (pcm (C * (i - 1) + c) : α))) ∧
    (∀ k, (∀ i, 0 ≤ i → i < M → k ≠ C * (i + o1 + o2) + c) →
      (cfor 0 M (fun i (s : InSt α) =>
        let tmp : α := (pcm (C * i + c) : α)
        { s with inp := wr s.inp (C * (i + o1 + o2) + c) (tmp - preemph * s.preemph_memE c),
                 preemph_memE := wr s.preemph_memE c tmp }) s).inp k = s.inp k) ∧
    ((cfor 0 M (fun i (s : InSt α) =>
        let tmp : α := (pcm (C * i + c) : α)
        { s with inp := wr s.inp (C * (i + o1 + o2) + c) (tmp - preemph * s.preemph_memE c),
                 preemph_memE := wr s.preemph_memE c tmp }) s).preemph_memE c
      = if M = 0 then s.preemph_memE c else (pcm (C * (M - 1) + c) : α)) ∧
    (∀ c', c' ≠ c →
      (cfor 0 M (fun i (s : InSt α) =>
        let tmp : α := (pcm (C * i + c) : α)
        { s with inp := wr s.inp (C * (i + o1 + o2) + c) (tmp - preemph * s.preemph_memE c),
                 preemph_memE := wr s.preemph_memE c tmp }) s).preemph_memE c'
      = s.preemph_memE c') ∧
    ((cfor 0 M (fun i (s : InSt α) =>
        let tmp : α := (pcm (C * i + c) : α)
        { s with inp := wr s.inp (C * (i + o1 + o2) + c) (tmp - preemph * s.preemph_memE c),
                 preemph_memE := wr s.preemph_memE c tmp }) s).in_mem = s.in_mem) := by
  have hne : ∀ a b : Int, a ≠ b → C * (a + o1 + o2) + c ≠ C * (b + o1 + o2) + c := by
    intro a b hab h
    have hC0 : C ≠ 0 := by omega
    have h2 : C * (a + o1 + o2) = C * (b + o1 + o2) := by omega
    have := mul_left_cancel₀ hC0 h2
    omega
  refine cfor_induction (fun m (t : InSt α) =>
    (∀ i, 0 ≤ i → i < m → t.inp (C * (i + o1 + o2) + c) = (pcm (C * i + c) : α)
      - preemph * (if i = 0 then s.preemph_memE c else (pcm (C * (i - 1) + c) : α))) ∧
    (∀ k, (∀ i, 0 ≤ i → i < m → k ≠ C * (i + o1 + o2) + c) → t.inp k = s.inp k) ∧
    (t.preemph_memE c = if m = 0 then s.preemph_memE c else (pcm (C * (m - 1) + c) : α)) ∧
    (∀ c', c' ≠ c → t.preemph_memE c' = s.preemph_memE c') ∧
    t.in_mem = s.in_mem) 0 M _ s hM ?_ ?_
  · exact ⟨fun i h1 h2 => absurd h2 (by omega), fun k _ => rfl, by simp, fun c' _ => rfl, rfl⟩
  · intro m t hm0 hm1 ht
    obtain ⟨t1, t2, t3, t4, t5⟩ := ht
    refine ⟨?_, ?_, ?_, ?_, t5⟩
    · intro i hi0 hi1
      show wr t.inp _ _ _ = _
      by_cases him : i = m
      · rw [him, wr_same, t3]
      · rw [wr_other _ _ _ _ (hne i m him)]
        exact t1 i hi0 (by omega)
    · intro k hk
      show wr t.inp _ _ _ = _
      rw [wr_other _ _ _ _ (hk m hm0 (by omega))]
      exact t2 k (fun i hi0 hi1 => hk i hi0 (by omega))
    · show wr t.preemph_memE _ _ _ = _
      rw [wr_same]
      have : ¬ (m + 1 = 0) := by omega
      simp [this]
    · intro c' hc'
      show wr t.preemph_memE _ _ _ = _
      rw [wr_other _ _ _ _ hc']
      exact t4 c' hc'

omit [Field α] in
/-- A loop that stores `v i` at cell `i + off` of channel `c` of an interleaved array. -/
theorem cfor_chan (lo hi off C c : Int) (hC : 1 ≤ C) (f : Int → Int)
    (hf : ∀ i, f i = C * (i + off) + c) (v : Int → α) (a : Sig α) :
    (∀ n, cfor lo hi (fun i w => wr w (f i) (v i)) a (C * n + c)
      = if lo + off ≤ n ∧ n < hi + off then v (n - off) else a (C * n + c)) ∧
    (∀ k, (∀ n, k ≠ C * n + c) → cfor lo hi (fun i w => wr w (f i) (v i)) a k = a k) := by
  have hC0 : C ≠ 0 := by omega
  obtain ⟨h1, h2⟩ := cfor_scatter lo hi f v a (by
    intro j j' _ _ _ _ h
    rw [hf, hf] at h
    have h2 : C * (j + off) = C * (j' + off) := by omega
    have := mul_left_cancel₀ hC0 h2
    omega)
  constructor
  · intro n
    by_cases hn : lo + off ≤ n ∧ n < hi + off
    · rw [if_pos hn]
      have := h1 (n - off) (by omega) (by omega)
      rw [hf, Int.sub_add_cancel] at this
      exact this
    · rw [if_neg hn]
      apply h2
      intro j hj0 hj1 h
      rw [hf] at h
      have h3 : C * n = C * (j + off) := by omega
      have := mul_left_cancel₀ hC0 h3
      omega
  · intro k hk
    apply h2
    intro j _ _ h
    rw [hf] at h
    exact hk (j + off) h

/-- One channel of the input framing on silence: for `0 ≤ overlap ≤ N` with `N - overlap`
even, a zero carry, a zero pre-emphasis memory and zero samples, the `(B+1)·N` cells of the
channel in `in` are zero, and the cells of the other channels are kept. -/
theorem input_channel_zero (E : Ext α) (st : CELTEncoder α E) (pcm : Sig Int) (c : Int)
    (s : InSt α) (hC : 1 ≤ st.mode.nbChannels) (hB : 0 ≤ st.nb_blocks)
    (h0 : 0 ≤ st.overlap) (h1 : st.overlap ≤ st.block_size)
    (heven : (st.block_size - st.overlap) % 2 = 0)
    (hmem : ∀ i, 0 ≤ i → i < st.overlap → s.in_mem (st.mode.nbChannels * i + c) = 0)
    (hE : s.preemph_memE c = 0)
    (hpcm : ∀ i, 0 ≤ i → i < st.nb_blocks * st.block_size →
      pcm (st.mode.nbChannels * i + c) = 0) :
    (∀ n, 0 ≤ n → n < (st.nb_blocks + 1) * st.block_size →
      (input_channel E st pcm c s).inp (st.mode.nbChannels * n + c) = 0) ∧
    (∀ k, (∀ n, k ≠ st.mode.nbChannels * n + c) →
      (input_channel E st pcm c s).inp k = s.inp k) ∧
    (∀ k, (∀ n, k ≠ st.mode.nbChannels * n + c) →
      (input_channel E st pcm c s).in_mem k = s.in_mem k) ∧
    (∀ c', c' ≠ c → (input_channel E st pcm c s).preemph_memE c' = s.preemph_memE c') := by
  unfold input_channel
  simp only
  rw [Int.tdiv_eq_ediv (by omega) (by omega)]
  generalize hN : st.block_size = N at *
  generalize hBB : st.nb_blocks = B at *
  generalize hCC : st.mode.nbChannels = C at *
  generalize hov : st.overlap = ov at *
  generalize hN4 : (N - ov) / 2 = N4
  have hNeq : N = 2 * N4 + ov := by omega
  have hBN : 0 ≤ B * N := mul_nonneg hB (by omega)
  have hBN1 : (B + 1) * N = B * N + N := by ring
  have hBN2 : N * (B + 1) = B * N + N := by ring
  -- the four loops on `in`
  obtain ⟨a1, a2⟩ := cfor_chan 0 N4 0 C c hC (fun i => C * i + c) (fun i => by simp)
    (fun _ => (0 : α)) s.inp
  generalize cfor 0 N4 (fun i a => wr a (C * i + c) (0 : α)) s.inp = inp1 at a1 a2 ⊢
  obtain ⟨b1, b2⟩ := cfor_chan 0 ov N4 C c hC (fun i => C * (i + N4) + c) (fun i => rfl)
    (fun i => s.in_mem (C * i + c)) inp1
  generalize cfor 0 ov (fun i a => wr a (C * (i + N4) + c) (s.in_mem (C * i + c))) inp1
    = inp2 at b1 b2 ⊢
  obtain ⟨p1, p2, _, p4, p5⟩ := preemph_loop_spec pcm st.preemph C (B * N) ov N4 c
    { s with inp := inp2 } hC hBN
  generalize cfor 0 (B * N) (fun i (s : InSt α) =>
    let tmp : α := (pcm (C * i + c) : α)
    { s with inp := wr s.inp (C * (i + ov + N4) + c) (tmp - st.preemph * s.preemph_memE c),
             preemph_memE := wr s.preemph_memE c tmp }) { s with inp := inp2 } = s1
    at p1 p2 p4 p5 ⊢
  obtain ⟨d1, d2⟩ := cfor_chan (N * (B + 1) - N4) (N * (B + 1)) 0 C c hC
    (fun i => C * i + c) (fun i => by simp) (fun _ => (0 : α)) s1.inp
  generalize cfor (N * (B + 1) - N4) (N * (B + 1)) (fun i a => wr a (C * i + c) (0 : α)) s1.inp
    = inp4 at d1 d2 ⊢
  obtain ⟨_, e2⟩ := cfor_chan 0 ov 0 C c hC (fun i => C * i + c) (fun i => by simp)
    (fun i => inp4 (C * (N * (B + 1) - N4 - ov + i) + c)) s1.in_mem
  have hC0 : C ≠ 0 := by omega
  refine ⟨?_, ?_, ?_, p4⟩
  · intro n hn0 hn1
    rw [d1 n]
    by_cases r4 : N * (B + 1) - N4 + 0 ≤ n ∧ n < N * (B + 1) + 0
    · rw [if_pos r4]
    · rw [if_neg r4]
      by_cases r3 : N4 + ov ≤ n
      · have e : n = (n - ov - N4) + ov + N4 := by omega
        rw [e, p1 (n - ov - N4) (by omega) (by omega), hpcm (n - ov - N4) (by omega) (by omega)]
        by_cases hz : n - ov - N4 = 0
        · rw [if_pos hz]
          show (((0 : Int) : α)) - st.preemph * s.preemph_memE c = 0
          rw [hE]; simp
        · rw [if_neg hz, hpcm (n - ov - N4 - 1) (by omega) (by omega)]
          simp
      · rw [p2 _ (by
          intro i hi0 hi1 h
          have h3 : C * n = C * (i + ov + N4) := by omega
          have := mul_left_cancel₀ hC0 h3
          omega)]
        show inp2 (C * n + c) = 0
        rw [b1 n]
        by_cases r2 : 0 + N4 ≤ n ∧ n < ov + N4
        · rw [if_pos r2]
          exact hmem (n - N4) (by omega) (by omega)
        · rw [if_neg r2, a1 n, if_pos (by omega)]
  · intro k hk
    rw [d2 k hk, p2 k (fun i _ _ h => hk _ h)]
    show inp2 k = s.inp k
    rw [b2 k hk, a2 k hk]
  · intro k hk
    rw [e2 k hk, p5]

/-- The input framing on silence: for `0 ≤ overlap ≤ N` with `N - overlap` even, a zero carry,
a zero pre-emphasis memory and a zero frame, the `(B+1)·N` cells of every channel of `in` are
zero. -/
theorem celt_encode_input_zero (E : Ext α) (st : CELTEncoder α E) (pcm : Sig Int)
    (in0 : Sig α) (hC : 1 ≤ st.mode.nbChannels) (hB : 0 ≤ st.nb_blocks)
    (h0 : 0 ≤ st.overlap) (h1 : st.overlap ≤ st.block_size)
    (heven : (st.block_size - st.overlap) % 2 = 0)
    (hmem : ∀ c i, 0 ≤ c → c < st.mode.nbChannels → 0 ≤ i → i < st.overlap →
      st.in_mem (st.mode.nbChannels * i + c) = 0)
    (hE : ∀ c, 0 ≤ c → c < st.mode.nbChannels → st.preemph_memE c = 0)
    (hpcm : ∀ c i, 0 ≤ c → c < st.mode.nbChannels → 0 ≤ i →
      i < st.nb_blocks * st.block_size → pcm (st.mode.nbChannels * i + c) = 0) :
    ∀ c n, 0 ≤ c → c < st.mode.nbChannels → 0 ≤ n → n < (st.nb_blocks + 1) * st.block_size →
      (celt_encode_input E st pcm in0).inp (st.mode.nbChannels * n + c) = 0 := by
  unfold celt_encode_input
  have key := cfor_induction (fun m (s : InSt α) => m ≤ st.mode.nbChannels →
      (∀ c n, 0 ≤ c → c < m → 0 ≤ n → n < (st.nb_blocks + 1) * st.block_size →
        s.inp (st.mode.nbChannels * n + c) = 0) ∧
      (∀ c i, m ≤ c → c < st.mode.nbChannels → 0 ≤ i → i < st.overlap →
        s.in_mem (st.mode.nbChannels * i + c) = 0) ∧
      (∀ c, m ≤ c → c < st.mode.nbChannels → s.preemph_memE c = 0))
    0 st.mode.nbChannels (fun c s => input_channel E st pcm c s)
    { inp := in0, in_mem := st.in_mem, preemph_memE := st.preemph_memE } (by omega) ?_ ?_
  · intro c n hc0 hc1 hn0 hn1
    exact (key (le_refl _)).1 c n hc0 hc1 hn0 hn1
  · intro _
    exact ⟨fun c n h h' => absurd h' (by omega), fun c i h hc hi0 hi1 => hmem c i h hc hi0 hi1,
      fun c h hc => hE c h hc⟩
  · intro m s hm0 hm1 hs _
    obtain ⟨s1, s2, s3⟩ := hs (by omega)
    obtain ⟨z1, z2, z3, z4⟩ := input_channel_zero E st pcm m s hC hB h0 h1 heven
      (fun i hi0 hi1 => s2 m i (le_refl _) hm1 hi0 hi1) (s3 m (le_refl _) hm1)
      (fun i hi0 hi1 => hpcm m i hm0 hm1 hi0 hi1)
    refine ⟨?_, ?_, ?_⟩
    · intro c n hc0 hc1 hn0 hn1
      by_cases hcm : c = m
      · rw [hcm]; exact z1 n hn0 hn1
      · rw [z2 _ (fun n' h => hcm (euclid_unique _ n n' c m hc0 (by omega) hm0 hm1 h).2)]
        exact s1 c n hc0 (by omega) hn0 hn1
    · intro c i hc0 hc1 hi0 hi1
      rw [z3 _ (fun n' h => by
        have := (euclid_unique _ i n' c m (by omega) hc1 hm0 hm1 h).2
        omega)]
      exact s2 c i (by omega) hc1 hi0 hi1
    · intro c hc0 hc1
      rw [z4 c (by omega)]
      exact s3 c (by omega) hc1

end Input

/-! ## Energy floor and pitch gating on silence -/

section Silence

variable [LinearOrderedField α]

/-- The energy that `compute_mdcts` returns is at least the floor `1e-15`, and it is the floor
when every sample read is zero. -/
theorem compute_mdcts_energy_floor (E : Ext α) (lookup : E.Lookup) (window inp out : Sig α)
    (N B C : Int) (x0 tmp0 : Sig α) :
    1 / 1000000000000000 ≤ (compute_mdcts E lookup window inp out N B C x0 tmp0).1 ∧
    ((∀ c i j, 0 ≤ c → c < C → 0 ≤ i → i < B → 0 ≤ j → j < 2 * N →
        inp (C * (i * N + j) + c) = 0) →
      (compute_mdcts E lookup window inp out N B C x0 tmp0).1 = 1 / 1000000000000000) := by
  rw [compute_mdcts_energy]
  constructor
  · have : 0 ≤ ∑ c in Finset.range C.toNat, ∑ i in Finset.range B.toNat,
        ∑ j in Finset.range (2 * N).toNat,
          (window j * inp (C * ((i : Int) * N + j) + c)) ^ 2 :=
      Finset.sum_nonneg (fun c _ => Finset.sum_nonneg (fun i _ =>
        Finset.sum_nonneg (fun j _ => sq_nonneg _)))
    linarith
  · intro hz
    have : ∑ c in Finset.range C.toNat, ∑ i in Finset.range B.toNat,
        ∑ j in Finset.range (2 * N).toNat,
          (window j * inp (C * ((i : Int) * N + j) + c)) ^ 2 = 0 := by
      apply Finset.sum_eq_zero
      intro c hc
      apply Finset.sum_eq_zero
      intro i hi
      apply Finset.sum_eq_zero
      intro j hj
      rw [Finset.mem_range] at hc hi hj
      rw [hz c i j (by omega) (by omega) (by omega) (by omega) (by omega) (by omega)]
      simp
    rw [this, add_zero]

/-- C10. `compute_mdcts` returns `E = 1e-15 + Σ (window[j]·in[C·(i·N+j)+c])²` over all
channels, sub-blocks and `0 ≤ j < 2N`; `E ≥ 1e-15`, with equality when every sample read is
zero. For an encoder with `C ≥ 1`, `B ≥ 0`, `0 ≤ overlap ≤ N`, `N - overlap` even, whose
synthesis history, input carry and pre-emphasis memory are zero, a zero frame, and a pitch
search that returns an index in `[0, MAX_PERIOD - (B+1)·N]`: `curr_power = pitch_power =
1e-15`, the gating test fails, and the pitch block of `celt_encode` returns the coder after the
single `ec_enc_uint(0, 128)`, gains that are zero on `[0, nbPBands)` and a `P` that is zero on
`[0, B·C·N)`. -/
theorem silence_pitch_gating [FloorRing α] (E : Ext α) (st : CELTEncoder α E) (pcm : Sig Int)
    (nbCompressedBytes : Int) (stack : Nat → Sig α) (P gains bandEp : Sig α)
    (hC : 1 ≤ st.mode.nbChannels) (hB : 0 ≤ st.nb_blocks)
    (h0 : 0 ≤ st.overlap) (h1 : st.overlap ≤ st.block_size)
    (heven : (st.block_size - st.overlap) % 2 = 0)
    (hmem : ∀ c i, 0 ≤ c → c < st.mode.nbChannels → 0 ≤ i → i < st.overlap →
      st.in_mem (st.mode.nbChannels * i + c) = 0)
    (hE : ∀ c, 0 ≤ c → c < st.mode.nbChannels → st.preemph_memE c = 0)
    (hpcm : ∀ c i, 0 ≤ c → c < st.mode.nbChannels → 0 ≤ i →
      i < st.nb_blocks * st.block_size → pcm (st.mode.nbChannels * i + c) = 0)
    (hout : ∀ k, 0 ≤ k → k < st.mode.nbChannels * MAX_PERIOD → st.out_mem k = 0)
    (hpitch : ∀ x y, 0 ≤ E.find_spectral_pitch st.fft st.psy x y MAX_PERIOD
        ((st.nb_blocks + 1) * st.block_size) st.mode.nbChannels ∧
      E.find_spectral_pitch st.fft st.psy x y MAX_PERIOD
        ((st.nb_blocks + 1) * st.block_size) st.mode.nbChannels
        + (st.nb_blocks + 1) * st.block_size ≤ MAX_PERIOD) :
    (∀ (lookup : E.Lookup) (window inp out : Sig α) (N B C : Int) (x0 tmp0 : Sig α),
      (compute_mdcts E lookup window inp out N B C x0 tmp0).1
        = 1 / 1000000000000000 + ∑ c in Finset.range C.toNat, ∑ i in Finset.range B.toNat,
            ∑ j in Finset.range (2 * N).toNat,
              (window j * inp (C * ((i : Int) * N + j) + c)) ^ 2 ∧
      1 / 1000000000000000 ≤ (compute_mdcts E lookup window inp out N B C x0 tmp0).1 ∧
      ((∀ c i j, 0 ≤ c → c < C → 0 ≤ i → i < B → 0 ≤ j → j < 2 * N →
          inp (C * (i * N + j) + c) = 0) →
        (compute_mdcts E lookup window inp out N B C x0 tmp0).1 = 1 / 1000000000000000)) ∧
    (celt_encode_analysis E st pcm nbCompressedBytes stack).curr_power
      = 1 / 1000000000000000 ∧
    (celt_encode_analysis E st pcm nbCompressedBytes stack).pitch_power
      = 1 / 1000000000000000 ∧
    ¬ ((celt_encode_analysis E st pcm nbCompressedBytes stack).curr_power + 100000
        < 10 * (celt_encode_analysis E st pcm nbCompressedBytes stack).pitch_power) ∧
    (celt_encode_pitch E st.mode st.block_size st.nb_blocks st.mode.nbChannels
        (celt_encode_analysis E st pcm nbCompressedBytes stack).curr_power
        (celt_encode_analysis E st pcm nbCompressedBytes stack).pitch_power
        (celt_encode_analysis E st pcm nbCompressedBytes stack).pitch_index
        (celt_encode_analysis E st pcm nbCompressedBytes stack).X P
        (celt_encode_analysis E st pcm nbCompressedBytes stack).freq
        (celt_encode_analysis E st pcm nbCompressedBytes stack).bandE gains bandEp
        (celt_encode_analysis E st pcm nbCompressedBytes stack).coder).2.2
      = E.ec_enc_uint (celt_encode_analysis E st pcm nbCompressedBytes stack).coder 0 128 ∧
    (∀ i, 0 ≤ i → i < st.mode.nbPBands →
      (celt_encode_pitch E st.mode st.block_size st.nb_blocks st.mode.nbChannels
        (celt_encode_analysis E st pcm nbCompressedBytes stack).curr_power
        (celt_encode_analysis E st pcm nbCompressedBytes stack).pitch_power
        (celt_encode_analysis E st pcm nbCompressedBytes stack).pitch_index
        (celt_encode_analysis E st pcm nbCompressedBytes stack).X P
        (celt_encode_analysis E st pcm nbCompressedBytes stack).freq
        (celt_encode_analysis E st pcm nbCompressedBytes stack).bandE gains bandEp
        (celt_encode_analysis E st pcm nbCompressedBytes stack).coder).1 i = 0) ∧
    (∀ i, 0 ≤ i → i < st.nb_blocks * st.mode.nbChannels * st.block_size →
      (celt_encode_pitch E st.mode st.block_size st.nb_blocks st.mode.nbChannels
        (celt_encode_analysis E st pcm nbCompressedBytes stack).curr_power
        (celt_encode_analysis E st pcm nbCompressedBytes stack).pitch_power
        (celt_encode_analysis E st pcm nbCompressedBytes stack).pitch_index
        (celt_encode_analysis E st pcm nbCompressedBytes stack).X P
        (celt_encode_analysis E st pcm nbCompressedBytes stack).freq
        (celt_encode_analysis E st pcm nbCompressedBytes stack).bandE gains bandEp
        (celt_encode_analysis E st pcm nbCompressedBytes stack).coder).2.1 i = 0) := by
  have hN : 0 ≤ st.block_size := by omega
  -- the cells that `compute_mdcts` reads lie in the first `(B+1)·N` samples
  have hcell : ∀ i j, 0 ≤ i → i < st.nb_blocks → 0 ≤ j → j < 2 * st.block_size →
      0 ≤ i * st.block_size + j ∧
        i * st.block_size + j < (st.nb_blocks + 1) * st.block_size := by
    intro i j hi0 hi1 hj0 hj1
    have a1 : 0 ≤ i * st.block_size := mul_nonneg hi0 hN
    have a2 : i * st.block_size ≤ (st.nb_blocks - 1) * st.block_size :=
      mul_le_mul_of_nonneg_right (by omega) hN
    have a3 : (st.nb_blocks - 1) * st.block_size
        = st.nb_blocks * st.block_size - st.block_size := by ring
    have a4 : (st.nb_blocks + 1) * st.block_size
        = st.nb_blocks * st.block_size + st.block_size := by ring
    constructor <;> omega
  have hcurr : (celt_encode_analysis E st pcm nbCompressedBytes stack).curr_power
      = 1 / 1000000000000000 := by
    show (compute_mdcts E st.mdct_lookup st.window (celt_encode_input E st pcm (stack 0)).inp
      (stack 1) st.block_size st.nb_blocks st.mode.nbChannels (stack 7) (stack 8)).1 = _
    apply (compute_mdcts_energy_floor E _ _ _ _ _ _ _ _ _).2
    intro c i j hc0 hc1 hi0 hi1 hj0 hj1
    obtain ⟨g0, g1⟩ := hcell i j hi0 hi1 hj0 hj1
    exact celt_encode_input_zero E st pcm (stack 0) hC hB h0 h1 heven hmem hE hpcm c _
      hc0 hc1 g0 g1
  have hpp : (celt_encode_analysis E st pcm nbCompressedBytes stack).pitch_power
      = 1 / 1000000000000000 := by
    show (compute_mdcts E st.mdct_lookup st.window
      (offs st.out_mem
        ((celt_encode_analysis E st pcm nbCompressedBytes stack).pitch_index
          * st.mode.nbChannels)) _ st.block_size st.nb_blocks st.mode.nbChannels
      (stack 9) (stack 10)).1 = _
    apply (compute_mdcts_energy_floor E _ _ _ _ _ _ _ _ _).2
    intro c i j hc0 hc1 hi0 hi1 hj0 hj1
    obtain ⟨g0, g1⟩ := hcell i j hi0 hi1 hj0 hj1
    obtain ⟨q0, q1⟩ := hpitch
      (cfor 0 st.mode.nbChannels (fun c a => cfor 0 st.block_size (fun i a =>
        let a := wr a (st.mode.nbChannels * i + c)
          (a (st.mode.nbChannels * i + c) * st.window i)
        wr a (st.mode.nbChannels * (st.nb_blocks * st.block_size + i) + c)
          (a (st.mode.nbChannels * (st.nb_blocks * st.block_size + i) + c)
            * st.window (st.block_size + i))) a) (celt_encode_input E st pcm (stack 0)).inp)
      st.out_mem
    have hpi : (celt_encode_analysis E st pcm nbCompressedBytes stack).pitch_index
        = E.find_spectral_pitch st.fft st.psy
          (cfor 0 st.mode.nbChannels (fun c a => cfor 0 st.block_size (fun i a =>
            let a := wr a (st.mode.nbChannels * i + c)
              (a (st.mode.nbChannels * i + c) * st.window i)
            wr a (st.mode.nbChannels * (st.nb_blocks * st.block_size + i) + c)
              (a (st.mode.nbChannels * (st.nb_blocks * st.block_size + i) + c)
                * st.window (st.block_size + i))) a)
            (celt_encode_input E st pcm (stack 0)).inp)
          st.out_mem MAX_PERIOD ((st.nb_blocks + 1) * st.block_size) st.mode.nbChannels := rfl
    rw [← hpi] at q0 q1
    clear hpi
    generalize (celt_encode_analysis E st pcm nbCompressedBytes stack).pitch_index = p
      at q0 q1 ⊢
    show st.out_mem (p * st.mode.nbChannels
      + (st.mode.nbChannels * (i * st.block_size + j) + c)) = 0
    have e : p * st.mode.nbChannels + (st.mode.nbChannels * (i * st.block_size + j) + c)
        = st.mode.nbChannels * (p + (i * st.block_size + j)) + c := by ring
    rw [e]
    have hq0 : 0 ≤ p + (i * st.block_size + j) := by
      clear hpitch hmem hE hpcm hcell hcurr hout
      omega
    have hq1 : p + (i * st.block_size + j) + 1 ≤ MAX_PERIOD := by
      clear hpitch hmem hE hpcm hcell hcurr hout
      omega
    have hC0 : (0 : Int) ≤ st.mode.nbChannels := by
      clear hpitch hmem hE hpcm hcell hcurr hout
      omega
    clear hpitch hmem hE hpcm hcell hcurr
    apply hout
    · have := mul_nonneg hC0 hq0
      omega
    · have a1 : st.mode.nbChannels * (p + (i * st.block_size + j) + 1)
          ≤ st.mode.nbChannels * MAX_PERIOD :=
        mul_le_mul_of_nonneg_left hq1 hC0
      have a2 : st.mode.nbChannels * (p + (i * st.block_size + j) + 1)
          = st.mode.nbChannels * (p + (i * st.block_size + j)) + st.mode.nbChannels := by ring
      omega
  have hgate : ¬ ((celt_encode_analysis E st pcm nbCompressedBytes stack).curr_power + 100000
      < 10 * (celt_encode_analysis E st pcm nbCompressedBytes stack).pitch_power) := by
    rw [hcurr, hpp]
    norm_num
  refine ⟨fun lookup window inp out N B C x0 tmp0 =>
      ⟨compute_mdcts_energy E lookup window inp out N B C x0 tmp0,
        compute_mdcts_energy_floor E lookup window inp out N B C x0 tmp0⟩,
    hcurr, hpp, hgate, ?_, ?_, ?_⟩
  · unfold celt_encode_pitch
    rw [if_neg hgate]
  · intro i hi0 hi1
    unfold celt_encode_pitch
    rw [if_neg hgate]
    simp only
    rw [cfor_fill_of _ _ 0 _ (fun j => (zero_add j).symm), if_pos (by omega)]
  · intro i hi0 hi1
    unfold celt_encode_pitch
    rw [if_neg hgate]
    simp only
    rw [cfor_fill_of _ _ 0 _ (fun j => (zero_add j).symm), if_pos (by omega)]

end Silence

/-- The pitch search of `testExt` returns `0`, which is in range. -/
theorem testExt_pitch_range : ∀ x y : Sig ℚ,
    0 ≤ testExt.find_spectral_pitch testEncoder.fft testEncoder.psy x y MAX_PERIOD
        ((testEncoder.nb_blocks + 1) * testEncoder.block_size) testEncoder.mode.nbChannels ∧
    testExt.find_spectral_pitch testEncoder.fft testEncoder.psy x y MAX_PERIOD
        ((testEncoder.nb_blocks + 1) * testEncoder.block_size) testEncoder.mode.nbChannels
      + (testEncoder.nb_blocks + 1) * testEncoder.block_size ≤ MAX_PERIOD := by
  intro x y
  show (0 : Int) ≤ 0 ∧ (0 : Int) + (1 + 1) * 1 ≤ 1024
  decide

/-- C10 on `testExt`: the fresh encoder `testEncoder` and a zero frame. -/
theorem silence_pitch_gating_witness :
    (celt_encode_analysis testExt testEncoder (fun _ => 0) 1 (fun _ _ => 0)).curr_power
      = 1 / 1000000000000000 ∧
    (celt_encode_analysis testExt testEncoder (fun _ => 0) 1 (fun _ _ => 0)).pitch_power
      = 1 / 1000000000000000 ∧
    ¬ ((celt_encode_analysis testExt testEncoder (fun _ => 0) 1 (fun _ _ => 0)).curr_power
        + 100000
      < 10 * (celt_encode_analysis testExt testEncoder (fun _ => 0) 1
          (fun _ _ => 0)).pitch_power) :=
  let h := silence_pitch_gating testExt testEncoder (fun _ => 0) 1 (fun _ _ => 0)
    (fun _ => 5) (fun _ => 5) (fun _ => 5) (by decide) (by decide) (by decide) (by decide)
    (by decide) (fun _ _ _ _ _ _ => rfl) (fun _ _ _ => rfl) (fun _ _ _ _ _ _ => rfl)
    (fun _ _ _ => rfl) testExt_pitch_range
  ⟨h.2.1, h.2.2.1, h.2.2.2.1⟩

/-! ## Input framing and carry of the encoder -/

section Framing
variable [Field α]

/-- One channel of the input framing, for `0 ≤ overlap ≤ N` with `N - overlap` even and
`N4 = (N - overlap)/2`: the four regions of the channel in `in`, the carry and the
pre-emphasis memory it leaves, and the cells of the other channels, which it keeps. -/
theorem input_channel_spec (E : Ext α) (st : CELTEncoder α E) (pcm : Sig Int) (c : Int)
    (s : InSt α) (hC : 1 ≤ st.mode.nbChannels) (hB : 0 ≤ st.nb_blocks)
    (h0 : 0 ≤ st.overlap) (h1 : st.overlap ≤ st.block_size)
    (heven : (st.block_size - st.overlap) % 2 = 0) :
    (∀ n, 0 ≤ n → n < (st.block_size - st.overlap) / 2 →
      (input_channel E st pcm c s).inp (st.mode.nbChannels * n + c) = 0) ∧
    (∀ n, (st.block_size - st.overlap) / 2 ≤ n →
      n < (st.block_size - st.overlap) / 2 + st.overlap →
      (input_channel E st pcm c s).inp (st.mode.nbChannels * n + c)
        = s.in_mem (st.mode.nbChannels * (n - (st.block_size - st.overlap) / 2) + c)) ∧
    (∀ i, 0 ≤ i → i < st.nb_blocks * st.block_size →
      (input_channel E st pcm c s).inp
          (st.mode.nbChannels * ((st.block_size - st.overlap) / 2 + st.overlap + i) + c)
        = (pcm (st.mode.nbChannels * i + c) : α)
          - st.preemph * (if i = 0 then s.preemph_memE c
              else (pcm (st.mode.nbChannels * (i - 1) + c) : α))) ∧
    (∀ n, (st.nb_blocks + 1) * st.block_size - (st.block_size - st.overlap) / 2 ≤ n →
      n < (st.nb_blocks + 1) * st.block_size →
      (input_channel E st pcm c s).inp (st.mode.nbChannels * n + c) = 0) ∧
    (∀ i, 0 ≤ i → i < st.overlap →
      (input_channel E st pcm c s).in_mem (st.mode.nbChannels * i + c)
        = (input_channel E st pcm c s).inp (st.mode.nbChannels
            * ((st.block_size - st.overlap) / 2 + st.nb_blocks * st.block_size + i) + c)) ∧
    ((input_channel E st pcm c s).preemph_memE c
      = if st.nb_blocks * st.block_size = 0 then s.preemph_memE c
        else (pcm (st.mode.nbChannels * (st.nb_blocks * st.block_size - 1) + c) : α)) ∧
    (∀ k, (∀ n, k ≠ st.mode.nbChannels * n + c) →
      (input_channel E st pcm c s).inp k = s.inp k) ∧
    (∀ k, (∀ n, k ≠ st.mode.nbChannels * n + c) →
      (input_channel E st pcm c s).in_mem k = s.in_mem k) ∧
    (∀ c', c' ≠ c → (input_channel E st pcm c s).preemph_memE c' = s.preemph_memE c') := by
  unfold input_channel
  simp only
  rw [Int.tdiv_eq_ediv (by omega) (by omega)]
  generalize hN : st.block_size = N at *
  generalize hBB : st.nb_blocks = B at *
  generalize hCC : st.mode.nbChannels = C at *
  generalize hov : st.overlap = ov at *
  generalize hN4 : (N - ov) / 2 = N4
  have hNeq : N = 2 * N4 + ov := by omega
  have hBN : 0 ≤ B * N := mul_nonneg hB (by omega)
  have hBN1 : (B + 1) * N = B * N + N := by ring
  have hBN2 : N * (B + 1) = B * N + N := by ring
  have hC0 : C ≠ 0 := by omega
  have hcell : ∀ a b : Int, C * a + c = C * b + c → a = b := by
    intro a b h
    have h3 : C * a = C * b := by omega
    exact mul_left_cancel₀ hC0 h3
  obtain ⟨a1, a2⟩ := cfor_chan 0 N4 0 C c hC (fun i => C * i + c) (fun i => by simp)
    (fun _ => (0 : α)) s.inp
  generalize cfor 0 N4 (fun i a => wr a (C * i + c) (0 : α)) s.inp = inp1 at a1 a2 ⊢
  obtain ⟨b1, b2⟩ := cfor_chan 0 ov N4 C c hC (fun i => C * (i + N4) + c) (fun i => rfl)
    (fun i => s.in_mem (C * i + c)) inp1
  generalize cfor 0 ov (fun i a => wr a (C * (i + N4) + c) (s.in_mem (C * i + c))) inp1
    = inp2 at b1 b2 ⊢
  obtain ⟨p1, p2, p3, p4, p5⟩ := preemph_loop_spec pcm st.preemph C (B * N) ov N4 c
    { s with inp := inp2 } hC hBN
  generalize cfor 0 (B * N) (fun i (s : InSt α) =>
    let tmp : α := (pcm (C * i + c) : α)
    { s with inp := wr s.inp (C * (i + ov + N4) + c) (tmp - st.preemph * s.preemph_memE c),
             preemph_memE := wr s.preemph_memE c tmp }) { s with inp := inp2 } = s1
    at p1 p2 p3 p4 p5 ⊢
  obtain ⟨d1, d2⟩ := cfor_chan (N * (B + 1) - N4) (N * (B + 1)) 0 C c hC
    (fun i => C * i + c) (fun i => by simp) (fun _ => (0 : α)) s1.inp
  generalize cfor (N * (B + 1) - N4) (N * (B + 1)) (fun i a => wr a (C * i + c) (0 : α)) s1.inp
    = inp4 at d1 d2 ⊢
  obtain ⟨e1, e2⟩ := cfor_chan 0 ov 0 C c hC (fun i => C * i + c) (fun i => by simp)
    (fun i => inp4 (C * (N * (B + 1) - N4 - ov + i) + c)) s1.in_mem
  -- a cell below the tail zeros holds what the first three loops left
  have low : ∀ n, n < N * (B + 1) - N4 → inp4 (C * n + c) = s1.inp (C * n + c) := by
    intro n hn
    rw [d1 n, if_neg (by omega)]
  have mid : ∀ n, n < N4 + ov → s1.inp (C * n + c) = inp2 (C * n + c) := by
    intro n hn
    rw [p2 _ (fun i hi0 hi1 h => by have := hcell _ _ h; omega)]
  refine ⟨?_, ?_, ?_, ?_, ?_, ?_, ?_, ?_, p4⟩
  · intro n hn0 hn1
    rw [low n (by omega), mid n (by omega), b1 n, if_neg (by omega), a1 n, if_pos (by omega)]
  · intro n hn0 hn1
    rw [low n (by omega), mid n (by omega), b1 n, if_pos (by omega)]
  · intro i hi0 hi1
    rw [low _ (by omega)]
    have e : N4 + ov + i = i + ov + N4 := by omega
    rw [e]
    exact p1 i hi0 hi1
  · intro n hn0 hn1
    rw [d1 n, if_pos (by omega)]
  · intro i hi0 hi1
    rw [e1 i, if_pos (by omega)]
    simp only [Int.sub_zero]
    have e3 : N * (B + 1) - N4 - ov + i = N4 + B * N + i := by omega
    rw [e3]
  · exact p3
  · intro k hk
    rw [d2 k hk, p2 k (fun i _ _ h => hk _ h)]
    show inp2 k = s.inp k
    rw [b2 k hk, a2 k hk]
  · intro k hk
    rw [e2 k hk, p5]

/-- The input framing of `celt_encode`, for `C ≥ 1`, `B ≥ 0`, `0 ≤ overlap ≤ N` with
`N - overlap` even: every channel is framed as `ChannelFramed` says. -/
theorem celt_encode_input_spec (E : Ext α) (st : CELTEncoder α E) (pcm : Sig Int)
    (in0 : Sig α) (hC : 1 ≤ st.mode.nbChannels) (hB : 0 ≤ st.nb_blocks)
    (h0 : 0 ≤ st.overlap) (h1 : st.overlap ≤ st.block_size)
    (heven : (st.block_size - st.overlap) % 2 = 0) :
    ∀ c, 0 ≤ c → c < st.mode.nbChannels →
      ChannelFramed E st pcm c (celt_encode_input E st pcm in0) := by
  unfold celt_encode_input
  have key := cfor_induction (fun m (s : InSt α) => m ≤ st.mode.nbChannels →
      (∀ c, 0 ≤ c → c < m → ChannelFramed E st pcm c s) ∧
      (∀ c, m ≤ c → c < st.mode.nbChannels →
        (∀ i, s.in_mem (st.mode.nbChannels * i + c) = st.in_mem (st.mode.nbChannels * i + c)) ∧
        s.preemph_memE c = st.preemph_memE c))
    0 st.mode.nbChannels (fun c s => input_channel E st pcm c s)
    { inp := in0, in_mem := st.in_mem, preemph_memE := st.preemph_memE } (by omega) ?_ ?_
  · intro c hc0 hc1
    exact (key (le_refl _)).1 c hc0 hc1
  · intro _
    exact ⟨fun c h h' => absurd h' (by omega), fun c _ _ => ⟨fun i => rfl, rfl⟩⟩
  · intro m s hm0 hm1 hs _
    obtain ⟨s1, s2⟩ := hs (by omega)
    obtain ⟨z1, z2, z3, z4, z5, z6, k1, k2, k3⟩ :=
      input_channel_spec E st pcm m s hC hB h0 h1 heven
    have hoth : ∀ c n n', 0 ≤ c → c < st.mode.nbChannels → c ≠ m →
        st.mode.nbChannels * n + c ≠ st.mode.nbChannels * n' + m := by
      intro c n n' hc0 hc1 hcm h
      exact hcm (euclid_unique _ n n' c m hc0 hc1 hm0 hm1 h).2
    refine ⟨?_, ?_⟩
    · intro c hc0 hc1
      by_cases hcm : c = m
      · subst hcm
        obtain ⟨q1, q2⟩ := s2 c (le_refl _) hm1
        refine ⟨z1, ?_, ?_, z4, z5, ?_⟩
        · intro n hn0 hn1
          rw [z2 n hn0 hn1, q1]
        · intro i hi0 hi1
          rw [z3 i hi0 hi1, q2]
        · rw [z6, q2]
      · obtain ⟨r1, r2, r3, r4, r5, r6⟩ := s1 c hc0 (by omega)
        have hk : ∀ n, (input_channel E st pcm m s).inp (st.mode.nbChannels * n + c)
            = s.inp (st.mode.nbChannels * n + c) :=
          fun n => k1 _ (fun n' => hoth c n n' hc0 (by omega) hcm)
        have hk2 : ∀ n, (input_channel E st pcm m s).in_mem (st.mode.nbChannels * n + c)
            = s.in_mem (st.mode.nbChannels * n + c) :=
          fun n => k2 _ (fun n' => hoth c n n' hc0 (by omega) hcm)
        refine ⟨?_, ?_, ?_, ?_, ?_, ?_⟩
        · intro n hn0 hn1; rw [hk]; exact r1 n hn0 hn1
        · intro n hn0 hn1; rw [hk]; exact r2 n hn0 hn1
        · intro i hi0 hi1; rw [hk]; exact r3 i hi0 hi1
        · intro n hn0 hn1; rw [hk]; exact r4 n hn0 hn1
        · intro i hi0 hi1; rw [hk, hk2]; exact r5 i hi0 hi1
        · rw [k3 c hcm]; exact r6
    · intro c hc0 hc1
      obtain ⟨q1, q2⟩ := s2 c (by omega) hc1
      refine ⟨fun i => ?_, ?_⟩
      · rw [k2 _ (fun n' => hoth c i n' (by omega) hc1 (by omega))]
        exact q1 i
      · rw [k3 c (by omega)]; exact q2

end Framing

section Carry
variable [LinearOrderedField α] [FloorRing α]

/-- The state that a call of `celt_encode` leaves when `check_mode` accepts the mode: the
carry and pre-emphasis memory of the input framing, and the same mode and sizes. -/
theorem celt_encode_state (E : Ext α) (fuel : Nat) (st : CELTEncoder α E) (pcm : Sig Int)
    (compressed : Sig Nat) (nbCompressedBytes : Int) (stack : Nat → Sig α)
    (r : EncodeResult α E) (hmode : E.check_mode st.mode = true)
    (h : celt_encode E fuel st pcm compressed nbCompressedBytes stack = some r) :
    r.st.in_mem = (celt_encode_input E st pcm (stack 0)).in_mem ∧
    r.st.preemph_memE = (celt_encode_input E st pcm (stack 0)).preemph_memE ∧
    r.st.mode = st.mode ∧ r.st.block_size = st.block_size ∧ r.st.nb_blocks = st.nb_blocks ∧
    r.st.overlap = st.overlap ∧ r.st.preemph = st.preemph ∧ r.st.window = st.window := by
  unfold celt_encode at h
  simp only [hmode, not_true_eq_false, if_false] at h
  unfold celt_encode_finish at h
  simp only at h
  split at h
  · exact absurd h (by simp)
  · split at h
    · cases h
      exact ⟨rfl, rfl, rfl, rfl, rfl, rfl, rfl, rfl⟩
    · cases h
      exact ⟨rfl, rfl, rfl, rfl, rfl, rfl, rfl, rfl⟩

/-- A call of `celt_encode` on a mode that `check_mode` accepts returns, given fuel for the
trailer loop. -/
theorem celt_encode_returns (E : Ext α) (fuel : Nat) (st : CELTEncoder α E) (pcm : Sig Int)
    (compressed : Sig Nat) (nbCompressedBytes : Int) (stack : Nat → Sig α)
    (hmode : E.check_mode st.mode = true)
    (hprog : ∀ cd v, E.ec_enc_tell cd 0 < E.ec_enc_tell (E.ec_enc_uint cd v 2) 0)
    (hfuel : (nbCompressedBytes * 8
      - E.ec_enc_tell (celt_encode_coder E st pcm nbCompressedBytes stack) 0).toNat ≤ fuel) :
    ∃ r, celt_encode E fuel st pcm compressed nbCompressedBytes stack = some r := by
  obtain ⟨c', hc'⟩ := enc_trailer_terminates E nbCompressedBytes hprog fuel
    (celt_encode_coder E st pcm nbCompressedBytes stack) 0 hfuel
  have hdone : celt_encode_done E nbCompressedBytes fuel
      (celt_encode_coder E st pcm nbCompressedBytes stack) = some (E.ec_enc_done c') := by
    unfold celt_encode_done
    rw [hc']
    rfl
  unfold celt_encode
  simp only [hmode, not_true_eq_false, if_false]
  unfold celt_encode_finish
  simp only
  have hdone' : celt_encode_done E nbCompressedBytes fuel
      (celt_encode_synthesis E st pcm nbCompressedBytes stack
        (celt_encode_analysis E st pcm nbCompressedBytes stack)
        (celt_encode_pitch E st.mode st.block_size st.nb_blocks st.mode.nbChannels
          (celt_encode_analysis E st pcm nbCompressedBytes stack).curr_power
          (celt_encode_analysis E st pcm nbCompressedBytes stack).pitch_power
          (celt_encode_analysis E st pcm nbCompressedBytes stack).pitch_index
          (celt_encode_analysis E st pcm nbCompressedBytes stack).X (stack 3)
          (celt_encode_analysis E st pcm nbCompressedBytes stack).freq
          (celt_encode_analysis E st pcm nbCompressedBytes stack).bandE (stack 6) (stack 11)
          (celt_encode_analysis E st pcm nbCompressedBytes stack).coder)).2.2
      = some (E.ec_enc_done c') := hdone
  rw [hdone']
  simp only
  split
  · exact ⟨_, rfl⟩
  · exact ⟨_, rfl⟩

end Carry

/-- C11. For `C ≥ 1`, `B ≥ 1`, `0 ≤ overlap ≤ N` with `N - overlap` even and
`N4 = (N - overlap)/2`, the input framing of `celt_encode` leaves in every channel of `in`:
zeros on `[0, N4)`, the carry `in_mem` on `[N4, N4+overlap)`, the pre-emphasised samples
`pcm[n] - preemph·pcm[n-1]` on the `B·N` cells from `N4+overlap` (the sample before the first
being `preemph_memE`), zeros on `[(B+1)·N - N4, (B+1)·N)`. The four regions follow one another
and end at `(B+1)·N`, so each cell is stored once; no cell of `[0, (B+1)·N)` keeps what the
array held when it was allocated; and `celt_encoder_create` sets `preemph` to `0.8`. -/
theorem encoder_input_framing [Field α] (E : Ext α) (st : CELTEncoder α E) (pcm : Sig Int)
    (in0 in0' : Sig α) (hC : 1 ≤ st.mode.nbChannels) (hB : 1 ≤ st.nb_blocks)
    (h0 : 0 ≤ st.overlap) (h1 : st.overlap ≤ st.block_size)
    (heven : (st.block_size - st.overlap) % 2 = 0) :
    (0 ≤ (st.block_size - st.overlap) / 2 ∧
      (st.block_size - st.overlap) / 2 + st.overlap + st.nb_blocks * st.block_size
        = (st.nb_blocks + 1) * st.block_size - (st.block_size - st.overlap) / 2 ∧
      0 ≤ st.nb_blocks * st.block_size) ∧
    (∀ c, 0 ≤ c → c < st.mode.nbChannels →
      (∀ n, 0 ≤ n → n < (st.block_size - st.overlap) / 2 →
        (celt_encode_input E st pcm in0).inp (st.mode.nbChannels * n + c) = 0) ∧
      (∀ n, (st.block_size - st.overlap) / 2 ≤ n →
        n < (st.block_size - st.overlap) / 2 + st.overlap →
        (celt_encode_input E st pcm in0).inp (st.mode.nbChannels * n + c)
          = st.in_mem (st.mode.nbChannels * (n - (st.block_size - st.overlap) / 2) + c)) ∧
      (∀ i, 0 ≤ i → i < st.nb_blocks * st.block_size →
        (celt_encode_input E st pcm in0).inp
            (st.mode.nbChannels * ((st.block_size - st.overlap) / 2 + st.overlap + i) + c)
          = (pcm (st.mode.nbChannels * i + c) : α)
            - st.preemph * (if i = 0 then st.preemph_memE c
                else (pcm (st.mode.nbChannels * (i - 1) + c) : α))) ∧
      (∀ n, (st.nb_blocks + 1) * st.block_size - (st.block_size - st.overlap) / 2 ≤ n →
        n < (st.nb_blocks + 1) * st.block_size →
        (celt_encode_input E st pcm in0).inp (st.mode.nbChannels * n + c) = 0)) ∧
    (∀ c n, 0 ≤ c → c < st.mode.nbChannels → 0 ≤ n → n < (st.nb_blocks + 1) * st.block_size →
      (celt_encode_input E st pcm in0).inp (st.mode.nbChannels * n + c)
        = (celt_encode_input E st pcm in0').inp (st.mode.nbChannels * n + c)) ∧
    (∀ (mode : CELTMode) (e : CELTEncoder α E),
      celt_encoder_create E mode = some e → e.preemph = 8 / 10) := by
  have hBN : 0 ≤ st.nb_blocks * st.block_size := mul_nonneg (by omega) (by omega)
  have hBN1 : (st.nb_blocks + 1) * st.block_size
      = st.nb_blocks * st.block_size + st.block_size := by ring
  have hsp := celt_encode_input_spec E st pcm in0 hC (by omega) h0 h1 heven
  have hsp' := celt_encode_input_spec E st pcm in0' hC (by omega) h0 h1 heven
  refine ⟨⟨by omega, by omega, hBN⟩, ?_, ?_, ?_⟩
  · intro c hc0 hc1
    obtain ⟨r1, r2, r3, r4, _, _⟩ := hsp c hc0 hc1
    exact ⟨r1, r2, r3, r4⟩
  · intro c n hc0 hc1 hn0 hn1
    obtain ⟨r1, r2, r3, r4, _, _⟩ := hsp c hc0 hc1
    obtain ⟨q1, q2, q3, q4, _, _⟩ := hsp' c hc0 hc1
    by_cases c1 : n < (st.block_size - st.overlap) / 2
    · rw [r1 n hn0 c1, q1 n hn0 c1]
    · by_cases c2 : n < (st.block_size - st.overlap) / 2 + st.overlap
      · rw [r2 n (by omega) c2, q2 n (by omega) c2]
      · by_cases c3 : n < (st.block_size - st.overlap) / 2 + st.overlap
            + st.nb_blocks * st.block_size
        · have e : n = (st.block_size - st.overlap) / 2 + st.overlap
              + (n - (st.block_size - st.overlap) / 2 - st.overlap) := by omega
          rw [e, r3 _ (by omega) (by omega), q3 _ (by omega) (by omega)]
        · rw [r4 n (by omega) hn1, q4 n (by omega) hn1]
  · intro mode e he
    unfold celt_encoder_create at he
    split at he
    · cases he; rfl
    · cases he

/-- C11 on `testExt`: the fresh encoder `testEncoder` (`N = B = C = overlap = 1`), whose
cell `1` holds the first pre-emphasised sample. -/
theorem encoder_input_framing_witness :
    (celt_encode_input testExt testEncoder (fun _ => 7) (fun _ => 3)).inp
        (testEncoder.mode.nbChannels
          * ((testEncoder.block_size - testEncoder.overlap) / 2 + testEncoder.overlap + 0) + 0)
      = ((7 : Int) : ℚ) - testEncoder.preemph * (if (0 : Int) = 0 then testEncoder.preemph_memE 0
          else (((fun _ => 7) (testEncoder.mode.nbChannels * (0 - 1) + 0) : Int) : ℚ)) :=
  ((encoder_input_framing testExt testEncoder (fun _ => 7) (fun _ => 3) (fun _ => 4)
    (by decide) (by decide) (by decide) (by decide) (by decide)).2.1 0
    (by decide) (by decide)).2.2.1 0 (by decide) (by decide)

section Carry2
variable [LinearOrderedField α] [FloorRing α]

/-- C12. For a mode that `check_mode` accepts, with `C ≥ 1`, `B ≥ 1`, `0 ≤ overlap ≤ N`,
`N - overlap` even and `N4 = (N - overlap)/2` (and a coder whose two-valued symbols advance
`ec_enc_tell`, so that the call returns): after `celt_encode` the carry `in_mem` holds, per
channel, the last `overlap` pre-emphasised samples `pcm[n] - preemph·pcm[n-1]` of the frame
and `preemph_memE` holds its last sample; the sizes are unchanged; and the input framing of
the next call has `in_next[N4 + i] = in_prev[N4 + B·N + i]` for `0 ≤ i < overlap`, the
cells just before its first new sample at `N4 + overlap`. -/
theorem input_carry_across_frames (E : Ext α) (fuel : Nat) (st : CELTEncoder α E)
    (pcm pcm2 : Sig Int) (compressed : Sig Nat) (nbCompressedBytes : Int)
    (stack : Nat → Sig α) (in0 : Sig α)
    (hmode : E.check_mode st.mode = true)
    (hprog : ∀ cd v, E.ec_enc_tell cd 0 < E.ec_enc_tell (E.ec_enc_uint cd v 2) 0)
    (hfuel : (nbCompressedBytes * 8
      - E.ec_enc_tell (celt_encode_coder E st pcm nbCompressedBytes stack) 0).toNat ≤ fuel)
    (hC : 1 ≤ st.mode.nbChannels) (hB : 1 ≤ st.nb_blocks)
    (h0 : 0 ≤ st.overlap) (h1 : st.overlap ≤ st.block_size)
    (heven : (st.block_size - st.overlap) % 2 = 0) :
    ∃ r : EncodeResult α E,
      celt_encode E fuel st pcm compressed nbCompressedBytes stack = some r ∧
      (r.st.mode = st.mode ∧ r.st.block_size = st.block_size ∧
        r.st.nb_blocks = st.nb_blocks ∧ r.st.overlap = st.overlap) ∧
      (∀ c i, 0 ≤ c → c < st.mode.nbChannels → 0 ≤ i → i < st.overlap →
        r.st.in_mem (st.mode.nbChannels * i + c)
          = (pcm (st.mode.nbChannels * (st.nb_blocks * st.block_size - st.overlap + i) + c) : α)
            - st.preemph * (if st.nb_blocks * st.block_size - st.overlap + i = 0
                then st.preemph_memE c
                else (pcm (st.mode.nbChannels
                  * (st.nb_blocks * st.block_size - st.overlap + i - 1) + c) : α))) ∧
      (∀ c, 0 ≤ c → c < st.mode.nbChannels →
        r.st.preemph_memE c = if st.nb_blocks * st.block_size = 0 then st.preemph_memE c
          else (pcm (st.mode.nbChannels * (st.nb_blocks * st.block_size - 1) + c) : α)) ∧
      (∀ c i, 0 ≤ c → c < st.mode.nbChannels → 0 ≤ i → i < st.overlap →
        (celt_encode_input E r.st pcm2 in0).inp
            (st.mode.nbChannels * ((st.block_size - st.overlap) / 2 + i) + c)
          = (celt_encode_input E st pcm (stack 0)).inp (st.mode.nbChannels
              * ((st.block_size - st.overlap) / 2 + st.nb_blocks * st.block_size + i) + c)) := by
  obtain ⟨r, hr⟩ := celt_encode_returns E fuel st pcm compressed nbCompressedBytes stack
    hmode hprog hfuel
  obtain ⟨e1, e2, e3, e4, e5, e6, e7, _⟩ := celt_encode_state E fuel st pcm compressed
    nbCompressedBytes stack r hmode hr
  have hN : 0 ≤ st.block_size := by omega
  have hBN : st.block_size ≤ st.nb_blocks * st.block_size := by
    have := mul_le_mul_of_nonneg_right hB hN
    omega
  have hsp := celt_encode_input_spec E st pcm (stack 0) hC (by omega) h0 h1 heven
  have hsp2 := celt_encode_input_spec E r.st pcm2 in0 (by rw [e3]; exact hC)
    (by rw [e5]; omega) (by rw [e6]; exact h0) (by rw [e6, e4]; exact h1)
    (by rw [e6, e4]; exact heven)
  refine ⟨r, hr, ⟨e3, e4, e5, e6⟩, ?_, ?_, ?_⟩
  · intro c i hc0 hc1 hi0 hi1
    obtain ⟨_, _, r3, _, r5, _⟩ := hsp c hc0 hc1
    rw [e1, r5 i hi0 hi1]
    have e : (st.block_size - st.overlap) / 2 + st.nb_blocks * st.block_size + i
        = (st.block_size - st.overlap) / 2 + st.overlap
          + (st.nb_blocks * st.block_size - st.overlap + i) := by omega
    rw [e]
    exact r3 _ (by omega) (by omega)
  · intro c hc0 hc1
    obtain ⟨_, _, _, _, _, r6⟩ := hsp c hc0 hc1
    rw [e2]
    exact r6
  · intro c i hc0 hc1 hi0 hi1
    obtain ⟨_, _, _, _, r5, _⟩ := hsp c hc0 hc1
    obtain ⟨_, q2, _, _, _, _⟩ := hsp2 c hc0 (by rw [e3]; exact hc1)
    rw [e3, e4, e6] at q2
    rw [q2 _ (by omega) (by omega), e1]
    have e : (st.block_size - st.overlap) / 2 + i - (st.block_size - st.overlap) / 2 = i := by
      omega
    rw [e]
    exact r5 i hi0 hi1

/-- C12 on `testExt`: one frame with sample `5` through the fresh encoder `testEncoder`. -/
theorem input_carry_across_frames_witness :
    ∃ r : EncodeResult ℚ testExt,
      celt_encode testExt 8 testEncoder (fun _ => 5) (fun _ => 9) 2 (fun _ _ => 0) = some r ∧
      (r.st.mode = testEncoder.mode ∧ r.st.block_size = testEncoder.block_size ∧
        r.st.nb_blocks = testEncoder.nb_blocks ∧ r.st.overlap = testEncoder.overlap) ∧
      (∀ c i, 0 ≤ c → c < testEncoder.mode.nbChannels → 0 ≤ i → i < testEncoder.overlap →
        r.st.in_mem (testEncoder.mode.nbChannels * i + c)
          = (((fun _ => 5) (testEncoder.mode.nbChannels
              * (testEncoder.nb_blocks * testEncoder.block_size - testEncoder.overlap + i) + c)
                : Int) : ℚ)
            - testEncoder.preemph
              * (if testEncoder.nb_blocks * testEncoder.block_size - testEncoder.overlap + i = 0
                then testEncoder.preemph_memE c
                else (((fun _ => 5) (testEncoder.mode.nbChannels
                  * (testEncoder.nb_blocks * testEncoder.block_size - testEncoder.overlap + i - 1)
                    + c) : Int) : ℚ))) ∧
      (∀ c, 0 ≤ c → c < testEncoder.mode.nbChannels →
        r.st.preemph_memE c
          = if testEncoder.nb_blocks * testEncoder.block_size = 0 then testEncoder.preemph_memE c
            else (((fun _ => 5) (testEncoder.mode.nbChannels
              * (testEncoder.nb_blocks * testEncoder.block_size - 1) + c) : Int) : ℚ)) ∧
      (∀ c i, 0 ≤ c → c < testEncoder.mode.nbChannels → 0 ≤ i → i < testEncoder.overlap →
        (celt_encode_input testExt r.st (fun _ => 6) (fun _ => 3)).inp
            (testEncoder.mode.nbChannels
              * ((testEncoder.block_size - testEncoder.overlap) / 2 + i) + c)
          = (celt_encode_input testExt testEncoder (fun _ => 5) ((fun _ _ => 0) 0)).inp
              (testEncoder.mode.nbChannels
                * ((testEncoder.block_size - testEncoder.overlap) / 2
                  + testEncoder.nb_blocks * testEncoder.block_size + i) + c)) :=
  input_carry_across_frames testExt 8 testEncoder (fun _ => 5) (fun _ => 6) (fun _ => 9) 2
    (fun _ _ => 0) (fun _ => 3) (by decide) testExt_enc_progress (by decide!)
    (by decide) (by decide) (by decide) (by decide) (by decide)

end Carry2

/-! ## Warning, coder reset and pitch index range -/

section Finish

/-- What `celt_encode_finish` returns, given the coder that `ec_enc_done` leaves: the
warnings, the returned value, `compressed` and the coder kept in the state. -/
theorem celt_encode_finish_result (E : Ext α) (nbCompressedBytes : Int) (fuel : Nat)
    (st : CELTEncoder α E) (pcm : Sig Int) (compressed : Sig Nat) (coder cd : E.Enc × E.Buf)
    (hdone : celt_encode_done E nbCompressedBytes fuel coder = some cd) :
    ∃ r, celt_encode_finish E nbCompressedBytes fuel st pcm compressed coder = some r ∧
      r.warnings
        = (if E.ec_enc_tell coder 0 < nbCompressedBytes * 8 - 7 then
            [Warning.manyUnusedBits (nbCompressedBytes * 8 - E.ec_enc_tell coder 0)] else [])
          ++ (if E.ec_byte_bytes cd.2 > nbCompressedBytes then
            [Warning.gotTooManyBytes (E.ec_byte_bytes cd.2)] else []) ∧
      r.ret = (if E.ec_byte_bytes cd.2 > nbCompressedBytes then .error .CELT_INTERNAL_ERROR
        else .ok nbCompressedBytes) ∧
      r.compressed = (if E.ec_byte_bytes cd.2 > nbCompressedBytes then compressed
        else cfor (if 0 < E.ec_byte_bytes cd.2 then E.ec_byte_bytes cd.2 else 0)
          nbCompressedBytes (fun i a => wr a i 0)
          (cfor 0 (E.ec_byte_bytes cd.2) (fun i a => wr a i (E.ec_byte_get_buffer cd.2 i))
            compressed)) ∧
      r.st.buf = (if E.ec_byte_bytes cd.2 > nbCompressedBytes then cd.2
        else E.ec_byte_reset cd.2) ∧
      r.st.enc = (if E.ec_byte_bytes cd.2 > nbCompressedBytes then cd.1
        else E.ec_enc_init (E.ec_byte_reset cd.2)) := by
  unfold celt_encode_finish
  simp only
  rw [hdone]
  simp only
  by_cases hb : E.ec_byte_bytes cd.2 > nbCompressedBytes
  · rw [if_pos hb]
    refine ⟨_, rfl, ?_, ?_, ?_, ?_, ?_⟩
    · simp only [if_pos hb]
    · simp only [if_pos hb]
    · simp only [if_pos hb]
    · simp only [if_pos hb]
    · simp only [if_pos hb]
  · rw [if_neg hb]
    refine ⟨_, rfl, ?_, ?_, ?_, ?_, ?_⟩
    · simp only [if_neg hb, List.append_nil]
    · simp only [if_neg hb]
    · simp only [if_neg hb]
    · simp only [if_neg hb]
    · simp only [if_neg hb]

end Finish

section Threshold

variable [LinearOrderedField α] [FloorRing α]

/-- A call of `celt_encode` on a mode that `check_mode` accepts is `celt_encode_finish` on the
coder that the residual quantisation leaves. -/
theorem celt_encode_eq_finish (E : Ext α) (fuel : Nat) (st : CELTEncoder α E) (pcm : Sig Int)
    (compressed : Sig Nat) (nbCompressedBytes : Int) (stack : Nat → Sig α)
    (hmode : E.check_mode st.mode = true) :
    ∃ (st1 : CELTEncoder α E) (pcm1 : Sig Int),
      celt_encode E fuel st pcm compressed nbCompressedBytes stack
        = celt_encode_finish E nbCompressedBytes fuel st1 pcm1 compressed
            (celt_encode_coder E st pcm nbCompressedBytes stack) := by
  unfold celt_encode
  simp only [hmode, not_true_eq_false, if_false]
  exact ⟨_, _, rfl⟩

/-- C18 fails: on `testSevenExt` a zero frame takes 17 bits, so with `nbCompressedBytes = 3`
exactly seven bits remain after the quantisation calls, and `celt_encode` raises no
warning. -/
theorem unused_bits_threshold_counterexample :
    (celt_encode testSevenExt 8 testSevenEncoder (fun _ => 0) (fun _ => 9) 3
        (fun _ _ => 0)).map (fun r =>
      (8 * 3 - testSevenExt.ec_enc_tell
        (celt_encode_coder testSevenExt testSevenEncoder (fun _ => 0) 3 (fun _ _ => 0)) 0,
       r.ret.toOption, r.warnings))
      = some (7, some 3, []) := by
  decide!

/-- C18 as amended. For a mode that `check_mode` accepts (and a coder whose two-valued symbols
advance `ec_enc_tell`, so that the call returns), `celt_encode` raises the "many unused bits"
warning if and only if at least eight bits remain after the quantisation calls, that is
`ec_enc_tell < 8·nbCompressedBytes - 7`; it is raised at most once, with the number of
remaining bits; and the returned value and `compressed` are what the coder left by
`ec_enc_done` alone determines, the test of the warning having no part in them. -/
theorem unused_bits_threshold (E : Ext α) (fuel : Nat) (st : CELTEncoder α E) (pcm : Sig Int)
    (compressed : Sig Nat) (nbCompressedBytes : Int) (stack : Nat → Sig α)
    (hmode : E.check_mode st.mode = true)
    (hprog : ∀ cd v, E.ec_enc_tell cd 0 < E.ec_enc_tell (E.ec_enc_uint cd v 2) 0)
    (hfuel : (nbCompressedBytes * 8
      - E.ec_enc_tell (celt_encode_coder E st pcm nbCompressedBytes stack) 0).toNat ≤ fuel) :
    ∃ (cd : E.Enc × E.Buf) (r : EncodeResult α E),
      celt_encode_done E nbCompressedBytes fuel
        (celt_encode_coder E st pcm nbCompressedBytes stack) = some cd ∧
      celt_encode E fuel st pcm compressed nbCompressedBytes stack = some r ∧
      ((∃ k, Warning.manyUnusedBits k ∈ r.warnings) ↔
        8 ≤ nbCompressedBytes * 8
          - E.ec_enc_tell (celt_encode_coder E st pcm nbCompressedBytes stack) 0) ∧
      (∀ k, Warning.manyUnusedBits k ∈ r.warnings →
        k = nbCompressedBytes * 8
          - E.ec_enc_tell (celt_encode_coder E st pcm nbCompressedBytes stack) 0) ∧
      (r.warnings.filter (fun w => match w with
        | .manyUnusedBits _ => true
        | _ => false)).length ≤ 1 ∧
      r.ret = (if E.ec_byte_bytes cd.2 > nbCompressedBytes then .error .CELT_INTERNAL_ERROR
        else .ok nbCompressedBytes) ∧
      r.compressed = (if E.ec_byte_bytes cd.2 > nbCompressedBytes then compressed
        else cfor (if 0 < E.ec_byte_bytes cd.2 then E.ec_byte_bytes cd.2 else 0)
          nbCompressedBytes (fun i a => wr a i 0)
          (cfor 0 (E.ec_byte_bytes cd.2) (fun i a => wr a i (E.ec_byte_get_buffer cd.2 i))
            compressed)) := by
  obtain ⟨c1, hc1⟩ := enc_trailer_terminates E nbCompressedBytes hprog fuel
    (celt_encode_coder E st pcm nbCompressedBytes stack) 0 hfuel
  have hdone : celt_encode_done E nbCompressedBytes fuel
      (celt_encode_coder E st pcm nbCompressedBytes stack) = some (E.ec_enc_done c1) := by
    unfold celt_encode_done
    rw [hc1]
    rfl
  obtain ⟨st1, pcm1, he⟩ := celt_encode_eq_finish E fuel st pcm compressed nbCompressedBytes
    stack hmode
  obtain ⟨r, hr, hw, hret, hcomp, _, _⟩ := celt_encode_finish_result E nbCompressedBytes fuel
    st1 pcm1 compressed _ _ hdone
  refine ⟨_, r, hdone, he.trans hr, ?_, ?_, ?_, hret, hcomp⟩
  · rw [hw]
    constructor
    · rintro ⟨k, hk⟩
      by_cases ht : E.ec_enc_tell (celt_encode_coder E st pcm nbCompressedBytes stack) 0
          < nbCompressedBytes * 8 - 7
      · omega
      · rw [if_neg ht] at hk
        split at hk <;> simp at hk
    · intro h8
      refine ⟨nbCompressedBytes * 8
        - E.ec_enc_tell (celt_encode_coder E st pcm nbCompressedBytes stack) 0, ?_⟩
      rw [if_pos (by omega)]
      exact List.mem_append_left _ (List.mem_singleton_self _)
  · intro k hk
    rw [hw] at hk
    split at hk <;> split at hk <;> simp at hk
    · exact hk
    · exact hk
  · rw [hw]
    split <;> split <;> simp

/-- C18 as amended, on `testSevenExt`: a zero frame through `testSevenEncoder` with
`nbCompressedBytes = 4`, where fifteen bits remain. -/
theorem unused_bits_threshold_witness :
    ∃ (cd : testSevenExt.Enc × testSevenExt.Buf) (r : EncodeResult ℚ testSevenExt),
      celt_encode_done testSevenExt 4 16
        (celt_encode_coder testSevenExt testSevenEncoder (fun _ => 0) 4 (fun _ _ => 0))
          = some cd ∧
      celt_encode testSevenExt 16 testSevenEncoder (fun _ => 0) (fun _ => 9) 4 (fun _ _ => 0)
        = some r ∧
      ((∃ k, Warning.manyUnusedBits k ∈ r.warnings) ↔
        8 ≤ (4 : Int) * 8 - testSevenExt.ec_enc_tell
          (celt_encode_coder testSevenExt testSevenEncoder (fun _ => 0) 4 (fun _ _ => 0)) 0) ∧
      (∀ k, Warning.manyUnusedBits k ∈ r.warnings →
        k = (4 : Int) * 8 - testSevenExt.ec_enc_tell
          (celt_encode_coder testSevenExt testSevenEncoder (fun _ => 0) 4 (fun _ _ => 0)) 0) ∧
      (r.warnings.filter (fun w => match w with
        | .manyUnusedBits _ => true
        | _ => false)).length ≤ 1 ∧
      r.ret = (if testSevenExt.ec_byte_bytes cd.2 > 4 then .error .CELT_INTERNAL_ERROR
        else .ok 4) ∧
      r.compressed = (if testSevenExt.ec_byte_bytes cd.2 > 4 then (fun _ => 9)
        else cfor (if 0 < testSevenExt.ec_byte_bytes cd.2 then testSevenExt.ec_byte_bytes cd.2
            else 0)
          4 (fun i a => wr a i 0)
          (cfor 0 (testSevenExt.ec_byte_bytes cd.2)
            (fun i a => wr a i (testSevenExt.ec_byte_get_buffer cd.2 i)) (fun _ => 9))) :=
  unused_bits_threshold testSevenExt 16 testSevenEncoder (fun _ => 0) (fun _ => 9) 4
    (fun _ _ => 0) (by decide) testExt_enc_progress (by decide!)

/-- C19 fails on the error path: `testEncoder` given a zero frame and `nbCompressedBytes = 1`
passes the mode check, codes 15 bits (two bytes) and returns `CELT_INTERNAL_ERROR` with the
15 bits still in the byte buffer of the state, where a reset buffer is empty; the next call
on that state then leaves the quantisation with 30 bits written instead of the 15 of a
fresh coder. -/
theorem coder_reset_skipped_on_error :
    (celt_encode testExt 8 testEncoder (fun _ => 0) (fun _ => 9) 1 (fun _ _ => 0)).map
      (fun r =>
        ((testExt.check_mode testEncoder.mode,
         (match r.ret with
          | .error e => some e
          | .ok _ => none),
         List.length r.st.buf, List.length (testExt.ec_byte_reset r.st.buf),
         testExt.ec_enc_tell (celt_encode_coder testExt r.st (fun _ => 0) 4 (fun _ _ => 0)) 0,
         testExt.ec_enc_tell
           (celt_encode_coder testExt testEncoder (fun _ => 0) 4 (fun _ _ => 0)) 0)
          : Bool × Option CeltError × Nat × Nat × Int × Int))
      = some (true, some CeltError.CELT_INTERNAL_ERROR, 15, 0, 30, 15) := by
  decide!

end Threshold
/-! ## Range of the pitch index -/

section PitchRange

/-- Two loops whose bodies agree on the range of the loop give the same result. -/
theorem cfor_congr {σ : Type} (lo hi : Int) (body body2 : Int → σ → σ) (s : σ)
    (h : ∀ (j : Int) (u : σ), lo ≤ j → j < hi → body j u = body2 j u) :
    cfor lo hi body s = cfor lo hi body2 s :=
  cfor_rel (fun u v => u = v) lo hi body body2 s s rfl
    (fun j u v h1 h2 huv => by rw [← huv]; exact h j u h1 h2)

/-- The cell of the history that `compute_mdcts` reads for sample `j` of sub-block `i` of
channel `c` at pitch offset `p`. -/
theorem history_index_bound (N B C p c i j : Int) (hN : 0 ≤ N) (hp : 0 ≤ p)
    (hpr : p < MAX_PERIOD - (B + 1) * N) (hc : 0 ≤ c) (hcC : c < C) (hi : 0 ≤ i) (hiB : i < B)
    (hj : 0 ≤ j) (hjN : j < 2 * N) :
    0 ≤ C * p + C * (i * N + j) + c ∧ C * p + C * (i * N + j) + c < C * MAX_PERIOD := by
  have h1 : i * N ≤ (B - 1) * N := mul_le_mul_of_nonneg_right (by omega) hN
  have h2 : 0 ≤ i * N := mul_nonneg hi hN
  have h3 : (B + 1) * N = (B - 1) * N + 2 * N := by ring
  have h4 : 0 ≤ p + (i * N + j) := by omega
  have h5 : p + (i * N + j) + 1 ≤ MAX_PERIOD := by omega
  have h6 : 0 ≤ C * (p + (i * N + j)) := mul_nonneg (by omega) h4
  have h7 : C * (p + (i * N + j) + 1) ≤ C * MAX_PERIOD :=
    mul_le_mul_of_nonneg_left h5 (by omega)
  have h8 : C * (p + (i * N + j)) = C * p + C * (i * N + j) := by ring
  have h9 : C * (p + (i * N + j) + 1) = C * p + C * (i * N + j) + C := by ring
  omega

variable [LinearOrderedField α] [FloorRing α]

/-- The index `last_pitch_index` after `celt_decode_frame`: the decoded integer when the
pitch flag is set, the old index otherwise. -/
theorem celt_decode_frame_pitch (E : Ext α) (st : CELTDecoder α E) (data : Sig Nat) (len : Int)
    (pcm : Sig Int) (stack : Nat → Sig α) :
    ((celt_decode_frame E st data len pcm stack).1.last_pitch_index = st.last_pitch_index ∨
      ∃ d, (celt_decode_frame E st data len pcm stack).1.last_pitch_index
        = (E.ec_dec_uint d (MAX_PERIOD - (st.nb_blocks + 1) * st.block_size)).1) ∧
    (celt_decode_frame E st data len pcm stack).1.mode = st.mode ∧
    (celt_decode_frame E st data len pcm stack).1.nb_blocks = st.nb_blocks ∧
    (celt_decode_frame E st data len pcm stack).1.block_size = st.block_size := by
  refine ⟨?_, rfl, rfl, rfl⟩
  unfold celt_decode_frame
  simp only
  split
  · right; exact ⟨_, rfl⟩
  · left; rfl

/-- C20. Assume `ec_dec_uint(ft)` returns a value of `[0, ft)`. Then (1) a decoder created
for a mode with `(B+1)·N < MAX_PERIOD` has `0 ≤ last_pitch_index < MAX_PERIOD - (B+1)·N`;
(2) on a state with that property the lost-packet path keeps `last_pitch_index`, the frame
path leaves it in the range whatever the pitch flag is, and so every result of `celt_decode`
(invalid mode, lost packet, good or corrupted trailer) has the property, with `mode`, `B`
and `N` unchanged; (3) for a pitch index `p` of that range, `c < C`, `i < B`, `j < 2N`
the index `C·p + C·(i·N + j) + c` lies in `[0, C·MAX_PERIOD)`; and (4) `compute_mdcts` on
`out_mem + p·C`, as `celt_decode`, `celt_decode_lost` and `celt_encode` call it, reads only
cells `[0, C·MAX_PERIOD)` of `out_mem`: its result is the same for two histories that agree
there. -/
theorem pitch_index_in_range (E : Ext α)
    (hdec : ∀ d ft, 0 < ft → 0 ≤ (E.ec_dec_uint d ft).1 ∧ (E.ec_dec_uint d ft).1 < ft) :
    (∀ (mode : CELTMode) (d : CELTDecoder α E),
      (mode.nbMdctBlocks + 1) * mode.mdctSize < MAX_PERIOD →
      celt_decoder_create E mode = some d →
      d.nb_blocks = mode.nbMdctBlocks ∧ d.block_size = mode.mdctSize ∧
      0 ≤ d.last_pitch_index ∧
      d.last_pitch_index < MAX_PERIOD - (d.nb_blocks + 1) * d.block_size) ∧
    (∀ (st : CELTDecoder α E) (pcm : Sig Int) (stack : Nat → Sig α),
      0 ≤ st.last_pitch_index →
      st.last_pitch_index < MAX_PERIOD - (st.nb_blocks + 1) * st.block_size →
      ((celt_decode_lost E st pcm stack).1.last_pitch_index = st.last_pitch_index ∧
        (celt_decode_lost E st pcm stack).1.nb_blocks = st.nb_blocks ∧
        (celt_decode_lost E st pcm stack).1.block_size = st.block_size) ∧
      (∀ (data : Sig Nat) (len : Int),
        0 ≤ (celt_decode_frame E st data len pcm stack).1.last_pitch_index ∧
        (celt_decode_frame E st data len pcm stack).1.last_pitch_index
          < MAX_PERIOD - (st.nb_blocks + 1) * st.block_size) ∧
      (∀ (fuel : Nat) (data : Option (Sig Nat)) (len : Int) (r : DecodeResult α E),
        celt_decode E fuel st data len pcm stack = some r →
        r.st.mode = st.mode ∧ r.st.nb_blocks = st.nb_blocks ∧
        r.st.block_size = st.block_size ∧ 0 ≤ r.st.last_pitch_index ∧
        r.st.last_pitch_index < MAX_PERIOD - (r.st.nb_blocks + 1) * r.st.block_size)) ∧
    (∀ N B C p c i j : Int, 0 ≤ N → 0 ≤ p → p < MAX_PERIOD - (B + 1) * N →
      0 ≤ c → c < C → 0 ≤ i → i < B → 0 ≤ j → j < 2 * N →
      0 ≤ C * p + C * (i * N + j) + c ∧ C * p + C * (i * N + j) + c < C * MAX_PERIOD) ∧
    (∀ (lookup : E.Lookup) (window out_mem out_mem2 out x0 tmp0 : Sig α) (N B C p : Int),
      0 ≤ N → 0 ≤ p → p < MAX_PERIOD - (B + 1) * N →
      (∀ k, 0 ≤ k → k < C * MAX_PERIOD → out_mem k = out_mem2 k) →
      compute_mdcts E lookup window (offs out_mem (p * C)) out N B C x0 tmp0
        = compute_mdcts E lookup window (offs out_mem2 (p * C)) out N B C x0 tmp0) := by
  refine ⟨?_, ?_, ?_, ?_⟩
  · intro mode d hm hd
    unfold celt_decoder_create at hd
    split at hd
    · cases hd
      exact ⟨rfl, rfl, le_refl _,
        by show (0 : Int) < MAX_PERIOD - (mode.nbMdctBlocks + 1) * mode.mdctSize; omega⟩
    · cases hd
  · intro st pcm stack h0 h1
    have hframe : ∀ (data : Sig Nat) (len : Int),
        0 ≤ (celt_decode_frame E st data len pcm stack).1.last_pitch_index ∧
        (celt_decode_frame E st data len pcm stack).1.last_pitch_index
          < MAX_PERIOD - (st.nb_blocks + 1) * st.block_size := by
      intro data len
      rcases (celt_decode_frame_pitch E st data len pcm stack).1 with h | ⟨d, h⟩
      · rw [h]; exact ⟨h0, h1⟩
      · rw [h]; exact hdec d _ (by omega)
    refine ⟨⟨rfl, rfl, rfl⟩, hframe, ?_⟩
    intro fuel data len r hr
    by_cases hm : E.check_mode st.mode = true
    · cases data with
      | none =>
        unfold celt_decode at hr
        simp only [hm, not_true_eq_false, if_false] at hr
        cases hr
        exact ⟨rfl, rfl, rfl, h0, h1⟩
      | some data =>
        have hf := celt_decode_frame_pitch E st data len pcm stack
        have hres : r.st = (celt_decode_frame E st data len pcm stack).1 := by
          unfold celt_decode at hr
          simp only [hm, not_true_eq_false, if_false] at hr
          split at hr
          · cases hr
          · cases hr; rfl
          · cases hr; rfl
        rw [hres, hf.2.2.1, hf.2.2.2]
        exact ⟨hf.2.1, rfl, rfl, (hframe data len).1, (hframe data len).2⟩
    · unfold celt_decode at hr
      simp only [hm, not_false_eq_true, if_true] at hr
      cases hr
      exact ⟨rfl, rfl, rfl, h0, h1⟩
  · intro N B C p c i j hN hp hpr hc hcC hi hiB hj hjN
    exact history_index_bound N B C p c i j hN hp hpr hc hcC hi hiB hj hjN
  · intro lookup window out_mem out_mem2 out x0 tmp0 N B C p hN hp hpr hag
    unfold compute_mdcts
    simp only
    have hbody : ∀ (c : Int) (s : MdctSt α), 0 ≤ c → c < C →
        cfor 0 B (fun i s => mdct_block E lookup window (offs out_mem (p * C)) N B C c i s) s
          = cfor 0 B (fun i s =>
              mdct_block E lookup window (offs out_mem2 (p * C)) N B C c i s) s := by
      intro c s hc hcC
      apply cfor_congr
      intro i u hi hiB
      unfold mdct_block
      simp only
      have hw : mdct_window window (offs out_mem (p * C)) N C c i u
          = mdct_window window (offs out_mem2 (p * C)) N C c i u := by
        unfold mdct_window
        apply cfor_congr
        intro j v hj hjN
        have hb := history_index_bound N B C p c i j hN hp hpr hc hcC hi hiB hj hjN
        have e : p * C + (C * i * N + C * j + c) = C * p + C * (i * N + j) + c := by ring
        simp only [offs]
        rw [e, hag _ hb.1 hb.2]
      rw [hw]
    rw [cfor_congr 0 C _ _ _ (fun c s hc hcC => hbody c s hc hcC)]

/-- The decoder of integers of `testRangeExt` returns a value of `[0, ft)`. -/
theorem testRangeExt_dec_range : ∀ d ft, 0 < ft →
    0 ≤ (testRangeExt.ec_dec_uint d ft).1 ∧ (testRangeExt.ec_dec_uint d ft).1 < ft := by
  intro (d : Nat × List Nat) ft hft
  exact ⟨Int.emod_nonneg _ (by omega), Int.emod_lt_of_pos _ hft⟩

/-- C20 on `testRangeExt`: the frame `testPitchFrame`, whose pitch flag is set, leaves
`testRangeDecoder` with a pitch index in `[0, 1022)`. -/
theorem pitch_index_in_range_witness :
    0 ≤ (celt_decode_frame testRangeExt testRangeDecoder testPitchFrame 3 (fun _ => 0)
      (fun _ _ => 0)).1.last_pitch_index ∧
    (celt_decode_frame testRangeExt testRangeDecoder testPitchFrame 3 (fun _ => 0)
      (fun _ _ => 0)).1.last_pitch_index
        < MAX_PERIOD - (testRangeDecoder.nb_blocks + 1) * testRangeDecoder.block_size :=
  ((pitch_index_in_range testRangeExt testRangeExt_dec_range).2.1 testRangeDecoder
    (fun _ => 0) (fun _ _ => 0) (by decide) (by decide)).2.1 testPitchFrame 3

end PitchRange

/-! ## The filter `fir` -/

section DownLoops

variable {σ : Type}

/-- A descending loop storing `v j` at `a[j]`: the cells stored and the others. -/
theorem cforDown_fill (hi lo : Int) (v : Int → α) (a : Sig α) (k : Int) :
    cforDown hi lo (fun j a => wr a j (v j)) a k = if lo ≤ k ∧ k ≤ hi then v k else a k := by
  unfold cforDown
  by_cases hle : 0 ≤ hi + 1 - lo
  · have key := cfor_induction
      (fun t (b : Sig α) => ∀ k, b k = if hi - t < k ∧ k ≤ hi then v k else a k)
      0 (hi + 1 - lo) (fun t b => wr b (hi - t) (v (hi - t))) a hle
      (fun k => by rw [if_neg (by omega)])
      (fun t b ht0 ht1 hb k => by
        beta_reduce at hb ⊢
        by_cases hk : k = hi - t
        · rw [hk, wr_same, if_pos (by omega)]
        · rw [wr_other _ _ _ _ hk, hb k]
          by_cases h1 : hi - t < k ∧ k ≤ hi
          · rw [if_pos h1, if_pos (by omega)]
          · rw [if_neg h1, if_neg (by omega)])
    rw [key k]
    by_cases h1 : lo ≤ k ∧ k ≤ hi
    · rw [if_pos h1, if_pos (by omega)]
    · rw [if_neg h1, if_neg (by omega)]
  · rw [cfor_empty _ _ _ _ (by omega), if_neg (by omega)]

/-- The loop `for (j = hi; j >= 1; j--) mem[j] = mem[j-1]`: the cells `1..hi` take the
content of the cell before them. -/
theorem cforDown_shift (hi : Int) (m0 : Sig α) (k : Int) :
    cforDown hi 1 (fun j m => wr m j (m (j - 1))) m0 k
      = if 1 ≤ k ∧ k ≤ hi then m0 (k - 1) else m0 k := by
  unfold cforDown
  by_cases hle : 0 ≤ hi + 1 - 1
  · have key := cfor_induction
      (fun t (b : Sig α) => ∀ k, b k = if hi - t < k ∧ k ≤ hi then m0 (k - 1) else m0 k)
      0 (hi + 1 - 1) (fun t b => wr b (hi - t) (b (hi - t - 1))) m0 hle
      (fun k => by rw [if_neg (by omega)])
      (fun t b ht0 ht1 hb k => by
        beta_reduce at hb ⊢
        by_cases hk : k = hi - t
        · rw [hk, wr_same, if_pos (by omega), hb (hi - t - 1), if_neg (by omega)]
        · rw [wr_other _ _ _ _ hk, hb k]
          by_cases h1 : hi - t < k ∧ k ≤ hi
          · rw [if_pos h1, if_pos (by omega)]
          · rw [if_neg h1, if_neg (by omega)])
    rw [key k]
    by_cases h1 : 1 ≤ k ∧ k ≤ hi
    · rw [if_pos h1, if_pos (by omega)]
    · rw [if_neg h1, if_neg (by omega)]
  · rw [cfor_empty _ _ _ _ (by omega), if_neg (by omega)]

/-- A loop from `lo` whose every iteration adds `g j` to a component of the state. -/
theorem cfor_sum_from [AddCommMonoid α] (lo hi : Int) (body : Int → σ → σ) (acc : σ → α)
    (g : Int → α) (h : ∀ j s, lo ≤ j → j < hi → acc (body j s) = acc s + g j) (s : σ) :
    acc (cfor lo hi body s)
      = acc s + ∑ t in Finset.range (hi - lo).toNat, g (lo + (t : Int)) := by
  unfold cfor
  have key : ∀ m : Nat, m ≤ (hi - lo).toNat →
      acc (forLoop m (fun k => body (lo + k)) s)
        = acc s + ∑ t in Finset.range m, g (lo + (t : Int)) := by
    intro m
    induction m with
    | zero => intro _; simp [forLoop]
    | succ m ih =>
      intro hm
      rw [forLoop_succ, Finset.sum_range_succ, h _ _ (by omega) (by omega),
        ih (by omega), add_assoc]
  exact key _ (le_refl _)

end DownLoops

section Fir

variable [Field α]

/-- One sample of `fir`, for `ord ≥ 1`: the output stored and the memory shifted. -/
theorem fir_step_spec (x num : Sig α) (ord SIG_SHIFT i : Int) (s : Sig α × Sig α) :
    (fir_step x num ord SIG_SHIFT i s).1
      = wr s.1 i (x i + ∑ j in Finset.range ord.toNat, num (j : Int) * s.2 (j : Int)) ∧
    ∀ j, (fir_step x num ord SIG_SHIFT i s).2 j
      = if j = 0 then x i else if 1 ≤ j ∧ j ≤ ord - 1 then s.2 (j - 1) else s.2 j := by
  unfold fir_step
  simp only [SHL32, EXTEND32, ROUND16, MULT16_16]
  refine ⟨?_, ?_⟩
  · rw [cfor_sum ord (fun j (sum : α) => sum + num j * s.2 j) (fun t => t)
      (fun j => num j * s.2 j) (fun _ _ _ _ => rfl)]
  · intro j
    by_cases hj : j = 0
    · rw [hj, wr_same, if_pos rfl]
    · rw [wr_other _ _ _ _ hj, if_neg hj, cforDown_shift]

/-- The history of `fir`: the input at `k ≥ 0`, the initial memory `mem[-1-k]` before it. -/
theorem fir_spec (x num y mem : Sig α) (N ord SIG_SHIFT : Int) (hN : 0 ≤ N) (hord : 1 ≤ ord) :
    (∀ i, 0 ≤ i → i < N → (fir x num y N ord mem SIG_SHIFT).1 i
      = x i + ∑ j in Finset.range ord.toNat, num (j : Int)
          * (if 0 ≤ i - 1 - (j : Int) then x (i - 1 - (j : Int))
              else mem (-1 - (i - 1 - (j : Int))))) ∧
    (∀ i, ¬ (0 ≤ i ∧ i < N) → (fir x num y N ord mem SIG_SHIFT).1 i = y i) ∧
    (∀ j, 0 ≤ j → j < ord → (fir x num y N ord mem SIG_SHIFT).2 j
      = if 0 ≤ N - 1 - j then x (N - 1 - j) else mem (-1 - (N - 1 - j))) ∧
    (∀ j, ¬ (0 ≤ j ∧ j < ord) → (fir x num y N ord mem SIG_SHIFT).2 j = mem j) := by
  unfold fir
  refine cfor_induction
    (fun n (s : Sig α × Sig α) =>
      (∀ i, 0 ≤ i → i < n → s.1 i
        = x i + ∑ j in Finset.range ord.toNat, num (j : Int)
            * (if 0 ≤ i - 1 - (j : Int) then x (i - 1 - (j : Int))
                else mem (-1 - (i - 1 - (j : Int))))) ∧
      (∀ i, ¬ (0 ≤ i ∧ i < n) → s.1 i = y i) ∧
      (∀ j, 0 ≤ j → j < ord → s.2 j
        = if 0 ≤ n - 1 - j then x (n - 1 - j) else mem (-1 - (n - 1 - j))) ∧
      (∀ j, ¬ (0 ≤ j ∧ j < ord) → s.2 j = mem j))
    0 N _ (y, mem) hN ?_ ?_
  · refine ⟨fun i h0 h1 => by omega, fun _ _ => rfl, fun j h0 h1 => ?_, fun _ _ => rfl⟩
    rw [if_neg (by omega)]
    show mem j = mem (-1 - (0 - 1 - j))
    have e : -1 - (0 - 1 - j) = j := by omega
    rw [e]
  · intro n s hn0 hn1 ⟨q1, q2, q3, q4⟩
    obtain ⟨f1, f2⟩ := fir_step_spec x num ord SIG_SHIFT n s
    refine ⟨fun i h0 h1 => ?_, fun i hi => ?_, fun j h0 h1 => ?_, fun j hj => ?_⟩
    · rw [f1]
      by_cases hi : i = n
      · rw [hi, wr_same]
        congr 1
        apply Finset.sum_congr rfl
        intro j hj
        rw [Finset.mem_range] at hj
        rw [q3 j (by omega) (by omega)]
      · rw [wr_other _ _ _ _ hi]
        exact q1 i h0 (by omega)
    · rw [f1, wr_other _ _ _ _ (by omega)]
      exact q2 i (by omega)
    · rw [f2 j]
      by_cases hj : j = 0
      · rw [if_pos hj, if_pos (by omega), hj]
        congr 1
        omega
      · rw [if_neg hj, if_pos (by omega), q3 (j - 1) (by omega) (by omega)]
        have e : n - 1 - (j - 1) = n + 1 - 1 - j := by omega
        rw [e]
    · rw [f2 j, if_neg (by omega), if_neg (by omega)]
      exact q4 j hj

/-- C17. For `ord ≥ 1` and `N ≥ 0`, with `h(k) = x[k]` for `k ≥ 0` and `h(k) = m[-1-k]` for
`k < 0`: `fir` stores `y[i] = x[i] + Σ_{j<ord} num[j]·h(i-1-j)` for `0 ≤ i < N` and leaves the
other cells of `y`; on return `mem[j] = h(N-1-j)` for `0 ≤ j < ord`, the last `ord` inputs
with the most recent first, and the other cells of `mem` are unchanged; and filtering the
first `N1` samples, then the next `N2` with the memory carried over, gives the outputs and
the memory of one call on the `N1 + N2` samples. -/
theorem fir_direct_form (x num y mem : Sig α) (N ord SIG_SHIFT : Int) (hN : 0 ≤ N)
    (hord : 1 ≤ ord) :
    (∀ i, 0 ≤ i → i < N → (fir x num y N ord mem SIG_SHIFT).1 i
      = x i + ∑ j in Finset.range ord.toNat, num (j : Int)
          * (if 0 ≤ i - 1 - (j : Int) then x (i - 1 - (j : Int))
              else mem (-1 - (i - 1 - (j : Int))))) ∧
    (∀ i, ¬ (0 ≤ i ∧ i < N) → (fir x num y N ord mem SIG_SHIFT).1 i = y i) ∧
    (∀ j, 0 ≤ j → j < ord → (fir x num y N ord mem SIG_SHIFT).2 j
      = if 0 ≤ N - 1 - j then x (N - 1 - j) else mem (-1 - (N - 1 - j))) ∧
    (∀ j, ¬ (0 ≤ j ∧ j < ord) → (fir x num y N ord mem SIG_SHIFT).2 j = mem j) ∧
    (∀ (N1 N2 : Int) (y2 : Sig α), 0 ≤ N1 → 0 ≤ N2 → N1 + N2 = N →
      (∀ i, 0 ≤ i → i < N1 → (fir x num y N1 ord mem SIG_SHIFT).1 i
        = (fir x num y N ord mem SIG_SHIFT).1 i) ∧
      (∀ i, 0 ≤ i → i < N2 →
        (fir (offs x N1) num y2 N2 ord (fir x num y N1 ord mem SIG_SHIFT).2 SIG_SHIFT).1 i
          = (fir x num y N ord mem SIG_SHIFT).1 (N1 + i)) ∧
      (fir (offs x N1) num y2 N2 ord (fir x num y N1 ord mem SIG_SHIFT).2 SIG_SHIFT).2
        = (fir x num y N ord mem SIG_SHIFT).2) := by
  obtain ⟨a1, a2, a3, a4⟩ := fir_spec x num y mem N ord SIG_SHIFT hN hord
  refine ⟨a1, a2, a3, a4, ?_⟩
  intro N1 N2 y2 hN1 hN2 hsum
  obtain ⟨b1, _, b3, b4⟩ := fir_spec x num y mem N1 ord SIG_SHIFT hN1 hord
  obtain ⟨c1, _, c3, c4⟩ := fir_spec (offs x N1) num y2
    (fir x num y N1 ord mem SIG_SHIFT).2 N2 ord SIG_SHIFT hN2 hord
  have hist : ∀ k : Int, -ord ≤ k →
      (if 0 ≤ k then offs x N1 k else (fir x num y N1 ord mem SIG_SHIFT).2 (-1 - k))
        = if 0 ≤ N1 + k then x (N1 + k) else mem (-1 - (N1 + k)) := by
    intro k hk
    by_cases h0 : 0 ≤ k
    · rw [if_pos h0, if_pos (by omega)]
      rfl
    · rw [if_neg h0, b3 (-1 - k) (by omega) (by omega)]
      have e : N1 - 1 - (-1 - k) = N1 + k := by omega
      rw [e]
  refine ⟨fun i h0 h1 => ?_, fun i h0 h1 => ?_, ?_⟩
  · rw [b1 i h0 h1, a1 i h0 (by omega)]
  · rw [c1 i h0 h1, a1 (N1 + i) (by omega) (by omega)]
    congr 1
    apply Finset.sum_congr rfl
    intro j hj
    rw [Finset.mem_range] at hj
    rw [hist (i - 1 - (j : Int)) (by omega)]
    have e : N1 + (i - 1 - (j : Int)) = N1 + i - 1 - (j : Int) := by omega
    rw [e]
  · funext j
    by_cases hj : 0 ≤ j ∧ j < ord
    · rw [c3 j hj.1 hj.2, a3 j hj.1 hj.2, hist (N2 - 1 - j) (by omega)]
      have e : N1 + (N2 - 1 - j) = N - 1 - j := by omega
      rw [e]
    · rw [c4 j hj, b4 j hj, a4 j hj]

end Fir

/-- C17 on the signal `1, 2, 3, 4` with `ord = 2`, coefficients `10, 100` and initial memory
`5, 7`: the second output is `2 + 10·1 + 100·5`. -/
theorem fir_direct_form_witness :
    (fir testSignal (fun k => if k = 0 then 10 else 100) (fun _ => 0) 4 2
        (fun k => if k = 0 then 5 else 7) 0).1 1
      = testSignal 1 + ∑ j in Finset.range (2 : Int).toNat,
          (fun k : Int => if k = 0 then (10 : ℚ) else 100) (j : Int)
            * (if 0 ≤ (1 : Int) - 1 - (j : Int) then testSignal (1 - 1 - (j : Int))
                else (fun k : Int => if k = 0 then (5 : ℚ) else 7) (-1 - (1 - 1 - (j : Int)))) :=
  (fir_direct_form testSignal (fun k => if k = 0 then 10 else 100) (fun _ => 0)
    (fun k => if k = 0 then 5 else 7) 4 2 0 (by decide) (by decide)).1 1 (by decide) (by decide)
/-! ## The autocorrelation `_celt_autocorr` -/

section Autocorr

/-- The entries of `ac` after `_celt_autocorr`: for `0 ≤ k ≤ lag` the correlation of `x`
with itself at lag `k` (plus `10` at `k = 0`), the old content elsewhere (plus `10` at
`k = 0`). -/
theorem autocorr_spec [Field α] (x ac window xx0 : Sig α) (overlap lag n : Int) (Q15ONE : α)
    (k : Int) :
    (_celt_autocorr x ac window overlap lag n Q15ONE xx0).1 k
      = (if 0 ≤ k ∧ k ≤ lag then
            ∑ t in Finset.range (n - k).toNat, x (k + (t : Int)) * x (k + (t : Int) - k)
          else ac k)
        + (if k = 0 then 10 else 0) := by
  unfold _celt_autocorr
  simp only
  have hfill := cforDown_fill lag 0
    (fun l => cfor l n (fun i (d : α) => d + x i * x (i - l)) 0 * 1) ac
  have hsum : ∀ l : Int, cfor l n (fun i (d : α) => d + x i * x (i - l)) 0
      = ∑ t in Finset.range (n - l).toNat, x (l + (t : Int)) * x (l + (t : Int) - l) := by
    intro l
    rw [cfor_sum_from l n (fun i (d : α) => d + x i * x (i - l)) (fun t => t)
      (fun i => x i * x (i - l)) (fun _ _ _ _ => rfl), zero_add]
  by_cases hk : k = 0
  · rw [hk, wr_same, hfill 0, if_pos rfl]
    by_cases h0 : (0 : Int) ≤ 0 ∧ (0 : Int) ≤ lag
    · rw [if_pos h0, if_pos h0, mul_one, hsum 0]
    · rw [if_neg h0, if_neg h0]
  · rw [wr_other _ _ _ _ hk, hfill k, if_neg hk, add_zero]
    by_cases h0 : 0 ≤ k ∧ k ≤ lag
    · rw [if_pos h0, if_pos h0, mul_one, hsum k]
    · rw [if_neg h0, if_neg h0]

/-- The correlation at lag `l ≥ 0` is at most the energy, in absolute value. -/
theorem corr_le_energy [LinearOrderedField α] (x : Sig α) (n l : Int) (hl : 0 ≤ l) :
    |∑ t in Finset.range (n - l).toNat, x (l + (t : Int)) * x (l + (t : Int) - l)|
      ≤ ∑ t in Finset.range (n - 0).toNat, x (0 + (t : Int)) * x (0 + (t : Int) - 0) := by
  have hsq : ∀ u : Nat, x (0 + (u : Int)) * x (0 + (u : Int) - 0) = x (u : Int) ^ 2 := by
    intro u
    rw [zero_add, sub_zero, sq]
  have hE : ∑ t in Finset.range (n - 0).toNat, x (0 + (t : Int)) * x (0 + (t : Int) - 0)
      = ∑ u in Finset.range n.toNat, x (u : Int) ^ 2 := by
    have e : (n - 0).toNat = n.toNat := by simp
    rw [e]
    exact Finset.sum_congr rfl (fun u _ => hsq u)
  rw [hE]
  have hterm : ∀ t : Nat, |x (l + (t : Int)) * x (l + (t : Int) - l)|
      ≤ (x (((l.toNat + t : Nat) : Int)) ^ 2 + x (t : Int) ^ 2) / 2 := by
    intro t
    have e1 : l + (t : Int) - l = t := by omega
    have e2 : ((l.toNat + t : Nat) : Int) = l + (t : Int) := by push_cast; omega
    rw [e1, e2, abs_le]
    constructor
    · nlinarith [sq_nonneg (x (l + (t : Int)) + x (t : Int))]
    · nlinarith [sq_nonneg (x (l + (t : Int)) - x (t : Int))]
  have hm : l.toNat + (n - l).toNat ≤ n.toNat ∨ (n - l).toNat = 0 := by omega
  have hA : ∑ t in Finset.range (n - l).toNat, x (((l.toNat + t : Nat) : Int)) ^ 2
      ≤ ∑ u in Finset.range n.toNat, x (u : Int) ^ 2 := by
    rcases hm with hm | hm
    · have hico := Finset.sum_Ico_eq_sum_range (fun u : Nat => x (u : Int) ^ 2) l.toNat
        (l.toNat + (n - l).toNat)
      rw [Nat.add_sub_cancel_left] at hico
      rw [← hico]
      apply Finset.sum_le_sum_of_subset_of_nonneg
      · intro u hu
        rw [Finset.mem_Ico] at hu
        rw [Finset.mem_range]
        omega
      · intro u _ _
        exact sq_nonneg _
    · rw [hm, Finset.sum_range_zero]
      exact Finset.sum_nonneg (fun u _ => sq_nonneg _)
  have hB : ∑ t in Finset.range (n - l).toNat, x (t : Int) ^ 2
      ≤ ∑ u in Finset.range n.toNat, x (u : Int) ^ 2 := by
    apply Finset.sum_le_sum_of_subset_of_nonneg
    · intro u hu
      rw [Finset.mem_range] at hu ⊢
      omega
    · intro u _ _
      exact sq_nonneg _
  calc |∑ t in Finset.range (n - l).toNat, x (l + (t : Int)) * x (l + (t : Int) - l)|
      ≤ ∑ t in Finset.range (n - l).toNat, |x (l + (t : Int)) * x (l + (t : Int) - l)| :=
        Finset.abs_sum_le_sum_abs _ _
    _ ≤ ∑ t in Finset.range (n - l).toNat,
          (x (((l.toNat + t : Nat) : Int)) ^ 2 + x (t : Int) ^ 2) / 2 :=
        Finset.sum_le_sum (fun t _ => hterm t)
    _ = (∑ t in Finset.range (n - l).toNat, x (((l.toNat + t : Nat) : Int)) ^ 2
          + ∑ t in Finset.range (n - l).toNat, x (t : Int) ^ 2) / 2 := by
        rw [← Finset.sum_add_distrib, Finset.sum_div]
    _ ≤ ∑ u in Finset.range n.toNat, x (u : Int) ^ 2 := by linarith

/-- C15 fails on the code, which builds the windowed copy `xx` and then correlates `x`: the
entries of `ac` are the same for any two windows, overlaps, constants `Q15ONE` and contents
of the scratch array; and for `x = 1, 1` (`n = 2`), `overlap = 1`, `window[0] = 0`,
`lag = 0` the code leaves `ac[0] = 1 + 1 + 10 = 12`, where the correlation of the windowed
copy `xx = 0, 0` that it has built gives `0 + 10 = 10`. -/
theorem autocorr_ignores_window [Field α] (x ac window window2 xx0 xx1 : Sig α)
    (overlap overlap2 lag n : Int) (Q15ONE Q15ONE2 : α) :
    (_celt_autocorr x ac window overlap lag n Q15ONE xx0).1
      = (_celt_autocorr x ac window2 overlap2 lag n Q15ONE2 xx1).1 ∧
    ((_celt_autocorr (fun k => if 0 ≤ k ∧ k < 2 then (1 : ℚ) else 0) (fun _ => 0)
        (fun _ => 0) 1 0 2 1 (fun _ => 0)).1 0,
      (_celt_autocorr (fun k => if 0 ≤ k ∧ k < 2 then (1 : ℚ) else 0) (fun _ => 0)
        (fun _ => 0) 1 0 2 1 (fun _ => 0)).2 0,
      (_celt_autocorr (fun k => if 0 ≤ k ∧ k < 2 then (1 : ℚ) else 0) (fun _ => 0)
        (fun _ => 0) 1 0 2 1 (fun _ => 0)).2 1,
      cfor 0 2 (fun i d => d
        + (_celt_autocorr (fun k => if 0 ≤ k ∧ k < 2 then (1 : ℚ) else 0) (fun _ => 0)
            (fun _ => 0) 1 0 2 1 (fun _ => 0)).2 i
          * (_celt_autocorr (fun k => if 0 ≤ k ∧ k < 2 then (1 : ℚ) else 0) (fun _ => 0)
            (fun _ => 0) 1 0 2 1 (fun _ => 0)).2 (i - 0)) 0 + 10)
      = (12, 0, 0, 10) := by
  refine ⟨?_, by decide!⟩
  funext k
  rw [autocorr_spec, autocorr_spec]

/-- C16. For every `x`, `n` and `lag ≥ 0`, the entries that `_celt_autocorr` leaves satisfy
`|ac[l]| ≤ ac[0] - 10` (hence `|ac[l]| ≤ ac[0]`) for `1 ≤ l ≤ lag`; the cells outside
`[0, lag]` keep their content, and the `lag + 1` cells of `[0, lag]` are all stored: what
they hold does not depend on the old content of `ac`. -/
theorem autocorr_peak [LinearOrderedField α] (x ac ac2 window xx0 : Sig α)
    (overlap lag n : Int) (Q15ONE : α) (hlag : 0 ≤ lag) :
    (∀ l, 1 ≤ l → l ≤ lag →
      |(_celt_autocorr x ac window overlap lag n Q15ONE xx0).1 l|
        ≤ (_celt_autocorr x ac window overlap lag n Q15ONE xx0).1 0 - 10) ∧
    (∀ l, 1 ≤ l → l ≤ lag →
      |(_celt_autocorr x ac window overlap lag n Q15ONE xx0).1 l|
        ≤ (_celt_autocorr x ac window overlap lag n Q15ONE xx0).1 0) ∧
    (∀ k, ¬ (0 ≤ k ∧ k ≤ lag) →
      (_celt_autocorr x ac window overlap lag n Q15ONE xx0).1 k = ac k) ∧
    (∀ k, 0 ≤ k → k ≤ lag →
      (_celt_autocorr x ac window overlap lag n Q15ONE xx0).1 k
        = (_celt_autocorr x ac2 window overlap lag n Q15ONE xx0).1 k) := by
  have hpeak : ∀ l, 1 ≤ l → l ≤ lag →
      |(_celt_autocorr x ac window overlap lag n Q15ONE xx0).1 l|
        ≤ (_celt_autocorr x ac window overlap lag n Q15ONE xx0).1 0 - 10 := by
    intro l h1 h2
    rw [autocorr_spec, autocorr_spec, if_pos ⟨by omega, h2⟩, if_neg (by omega),
      if_pos ⟨le_refl _, hlag⟩, if_pos rfl, add_zero, add_sub_cancel_right]
    exact corr_le_energy x n l (by omega)
  refine ⟨hpeak, fun l h1 h2 => ?_, fun k hk => ?_, fun k h0 h1 => ?_⟩
  · have := hpeak l h1 h2
    linarith
  · rw [autocorr_spec, if_neg hk, if_neg (by omega), add_zero]
  · have hk : 0 ≤ k ∧ k ≤ lag := ⟨h0, h1⟩
    rw [autocorr_spec, autocorr_spec, if_pos hk, if_pos hk]

/-- C16 on the signal `1, 2, 3, 4` with `lag = 2`: `|ac[2]| = 11 ≤ 30 = ac[0] - 10`. -/
theorem autocorr_peak_witness :
    |(_celt_autocorr testSignal (fun _ => -1) (fun _ => 0) 1 2 4 1 (fun _ => 77)).1 2|
      ≤ (_celt_autocorr testSignal (fun _ => -1) (fun _ => 0) 1 2 4 1 (fun _ => 77)).1 0 - 10 :=
  (autocorr_peak testSignal (fun _ => -1) (fun _ => 5) (fun _ => 0) (fun _ => 77) 1 2 4 1
    (by decide)).1 2 (by decide) (by decide)

end Autocorr

/-! ## The Levinson-Durbin recursion `_celt_lpc` -/

section Lpc

variable [LinearOrderedField α]

/-- The update loop of lines 42-49: every cell `k` of `[0, i)` takes `lpc[k] + r·lpc[i-1-k]`
of the old content, the other cells are kept. -/
theorem lpc_update_spec (r : α) (i : Int) (a : Sig α) (k : Int) :
    cfor 0 ((i + 1) / 2) (fun j lpc =>
        let tmp1 := lpc j
        let tmp2 := lpc (i - 1 - j)
        let lpc := wr lpc j (tmp1 + MULT32_32_Q31 r tmp2)
        wr lpc (i - 1 - j) (tmp2 + MULT32_32_Q31 r tmp1)) a k
      = if 0 ≤ k ∧ k < i then a k + r * a (i - 1 - k) else a k := by
  by_cases hT : 0 ≤ (i + 1) / 2
  · have key := cfor_induction
      (fun t (b : Sig α) => ∀ k, b k
        = if (0 ≤ k ∧ k < t) ∨ (i - 1 - t < k ∧ k ≤ i - 1) then a k + r * a (i - 1 - k)
          else a k)
      0 ((i + 1) / 2) (fun j lpc =>
        let tmp1 := lpc j
        let tmp2 := lpc (i - 1 - j)
        let lpc := wr lpc j (tmp1 + MULT32_32_Q31 r tmp2)
        wr lpc (i - 1 - j) (tmp2 + MULT32_32_Q31 r tmp1)) a hT
      (fun k => by rw [if_neg (by omega)])
      (fun t b ht0 ht1 hb k => by
        beta_reduce at hb ⊢
        simp only [MULT32_32_Q31]
        have h1 : b t = a t := by rw [hb t, if_neg (by omega)]
        have h2 : b (i - 1 - t) = a (i - 1 - t) := by rw [hb (i - 1 - t), if_neg (by omega)]
        by_cases hk : k = i - 1 - t
        · rw [hk, wr_same, if_pos (by omega), h1, h2]
          have e : i - 1 - (i - 1 - t) = t := by omega
          rw [e]
        · rw [wr_other _ _ _ _ hk]
          by_cases hk2 : k = t
          · rw [hk2, wr_same, if_pos (by omega), h1, h2]
          · rw [wr_other _ _ _ _ hk2, hb k]
            by_cases hc : (0 ≤ k ∧ k < t) ∨ (i - 1 - t < k ∧ k ≤ i - 1)
            · rw [if_pos hc, if_pos (by omega)]
            · rw [if_neg hc, if_neg (by omega)])
    rw [key k]
    by_cases hc : 0 ≤ k ∧ k < i
    · rw [if_pos hc, if_pos (by omega)]
    · rw [if_neg hc, if_neg (by omega)]
  · rw [cfor_empty _ _ _ _ (by omega), if_neg (by omega)]

/-- One executed iteration of the main loop, at index `i ≥ 0` with a divisor `error ≠ 0`:
the reflection coefficient `r = -(Σ_{j<i} lpc[j]·ac[i-j] + ac[i+1]) / error`, the new
coefficients, the new error and the exit test. -/
theorem lpc_step_spec (ac : Sig α) (i : Int) (s : LpcSt α)
    (hb : s.brk = false) (he : s.error ≠ 0) :
    ∃ s2 : LpcSt α, lpc_step ac i s = some s2 ∧
      (∀ k, s2.lpc k
        = if 0 ≤ k ∧ k < i then
            s.lpc k + -((∑ j in Finset.range i.toNat, s.lpc (j : Int) * ac (i - (j : Int))
              + ac (i + 1)) / s.error) * s.lpc (i - 1 - k)
          else if k = i then
            -((∑ j in Finset.range i.toNat, s.lpc (j : Int) * ac (i - (j : Int))
              + ac (i + 1)) / s.error)
          else s.lpc k) ∧
      s2.error = s.error
        - -((∑ j in Finset.range i.toNat, s.lpc (j : Int) * ac (i - (j : Int))
            + ac (i + 1)) / s.error)
          * -((∑ j in Finset.range i.toNat, s.lpc (j : Int) * ac (i - (j : Int))
            + ac (i + 1)) / s.error) * s.error ∧
      (s2.brk = true ↔ s2.error < 1 / 100000 * ac 0) ∧
      s2.i = (if s2.brk then i else i + 1) := by
  have hrr : cfor 0 i (fun j (rr : α) => rr + MULT32_32_Q31 (s.lpc j) (ac (i - j))) 0
      = ∑ j in Finset.range i.toNat, s.lpc (j : Int) * ac (i - (j : Int)) := by
    rw [cfor_sum i (fun j (rr : α) => rr + MULT32_32_Q31 (s.lpc j) (ac (i - j))) (fun t => t)
      (fun j => s.lpc j * ac (i - j)) (fun _ _ _ _ => rfl), zero_add]
  have hlpc : ∀ (r : α) (k : Int),
      cfor 0 ((i + 1) / 2) (fun j lpc =>
        let tmp1 := lpc j
        let tmp2 := lpc (i - 1 - j)
        let lpc := wr lpc j (tmp1 + MULT32_32_Q31 r tmp2)
        wr lpc (i - 1 - j) (tmp2 + MULT32_32_Q31 r tmp1)) (wr s.lpc i (SHR32 r 3)) k
      = if 0 ≤ k ∧ k < i then s.lpc k + r * s.lpc (i - 1 - k)
        else if k = i then r else s.lpc k := by
    intro r k
    rw [lpc_update_spec]
    by_cases hc : 0 ≤ k ∧ k < i
    · rw [if_pos hc, if_pos hc, wr_other _ _ _ _ (by omega), wr_other _ _ _ _ (by omega)]
    · rw [if_neg hc, if_neg hc]
      by_cases hk : k = i
      · rw [hk, wr_same, if_pos rfl]
        rfl
      · rw [wr_other _ _ _ _ hk, if_neg hk]
  unfold lpc_step
  rw [if_neg (by rw [hb]; decide)]
  simp only [hrr, frac_div, SHL32, if_neg he]
  simp only [SHR32, MULT32_32_Q31] at hlpc ⊢
  split
  · rename_i h
    exact ⟨_, rfl, fun k => hlpc _ k, rfl, ⟨fun _ => h, fun _ => rfl⟩, rfl⟩
  · rename_i h
    exact ⟨_, rfl, fun k => hlpc _ k, rfl,
      ⟨fun h2 => Bool.noConfusion h2, fun h2 => absurd h2 h⟩, rfl⟩

/-- A sum over `j < m` read from the other end. -/
theorem sum_reflect_mul (m : Nat) (a G : Int → α) :
    ∑ j in Finset.range m, a ((m : Int) - 1 - (j : Int)) * G (j : Int)
      = ∑ j in Finset.range m, a (j : Int) * G ((m : Int) - 1 - (j : Int)) := by
  rw [← Finset.sum_range_reflect (fun j : Nat => a (j : Int) * G ((m : Int) - 1 - (j : Int))) m]
  apply Finset.sum_congr rfl
  intro j hj
  rw [Finset.mem_range] at hj
  have e1 : ((m - 1 - j : Nat) : Int) = (m : Int) - 1 - (j : Int) := by omega
  have e2 : (m : Int) - 1 - ((m : Int) - 1 - (j : Int)) = (j : Int) := by omega
  rw [e1, e2]

/-- The step of the Levinson-Durbin recursion: from coefficients `a` that solve the normal
equations of order `m` with prediction error `E ≠ 0`, the reflection coefficient
`r = -(Σ_{j<m} a[j]·R[m-j] + R[m+1]) / E` and the update `a[k] + r·a[m-1-k]`, `a[m] = r` give
coefficients that solve the normal equations of order `m + 1`, with prediction error
`E - r·r·E`. -/
theorem levinson_step (R a a2 : Sig α) (m : Nat) (E : α) (hE : E ≠ 0)
    (hne : ∀ i : Int, 0 ≤ i → i < m →
      R (i + 1) + ∑ j in Finset.range m, a (j : Int) * R |i - (j : Int)| = 0)
    (herr : E = R 0 + ∑ j in Finset.range m, a (j : Int) * R ((j : Int) + 1))
    (ha2 : ∀ k : Int, a2 k
      = if 0 ≤ k ∧ k < m then
          a k + -((∑ j in Finset.range m, a (j : Int) * R ((m : Int) - (j : Int))
            + R ((m : Int) + 1)) / E) * a ((m : Int) - 1 - k)
        else if k = m then
          -((∑ j in Finset.range m, a (j : Int) * R ((m : Int) - (j : Int))
            + R ((m : Int) + 1)) / E)
        else a k) :
    (∀ i : Int, 0 ≤ i → i < (m : Int) + 1 →
      R (i + 1) + ∑ j in Finset.range (m + 1), a2 (j : Int) * R |i - (j : Int)| = 0) ∧
    E - -((∑ j in Finset.range m, a (j : Int) * R ((m : Int) - (j : Int))
          + R ((m : Int) + 1)) / E)
        * -((∑ j in Finset.range m, a (j : Int) * R ((m : Int) - (j : Int))
          + R ((m : Int) + 1)) / E) * E
      = R 0 + ∑ j in Finset.range (m + 1), a2 (j : Int) * R ((j : Int) + 1) := by
  generalize hrr : ∑ j in Finset.range m, a (j : Int) * R ((m : Int) - (j : Int))
    + R ((m : Int) + 1) = rr at ha2 ⊢
  generalize hr : -(rr / E) = r at ha2 ⊢
  have hrE : r * E = -rr := by
    rw [← hr]
    field_simp
  have hsplit : ∀ G : Int → α,
      ∑ j in Finset.range (m + 1), a2 (j : Int) * G (j : Int)
        = ∑ j in Finset.range m, a (j : Int) * G (j : Int)
          + r * ∑ j in Finset.range m, a (j : Int) * G ((m : Int) - 1 - (j : Int))
          + r * G (m : Int) := by
    intro G
    rw [Finset.sum_range_succ, ha2 (m : Int), if_neg (by omega), if_pos rfl,
      ← sum_reflect_mul m a G, Finset.mul_sum]
    congr 1
    rw [← Finset.sum_add_distrib]
    apply Finset.sum_congr rfl
    intro j hj
    rw [Finset.mem_range] at hj
    rw [ha2 (j : Int), if_pos ⟨by omega, by omega⟩]
    ring
  refine ⟨?_, ?_⟩
  · intro i hi0 hi1
    rw [hsplit (fun t => R |i - t|)]
    by_cases him : i < m
    · have h1 := hne i hi0 him
      have h2 := hne ((m : Int) - 1 - i) (by omega) (by omega)
      have e1 : ∑ j in Finset.range m, a (j : Int) * R |i - ((m : Int) - 1 - (j : Int))|
          = ∑ j in Finset.range m, a (j : Int) * R |(m : Int) - 1 - i - (j : Int)| := by
        apply Finset.sum_congr rfl
        intro j _
        have e : i - ((m : Int) - 1 - (j : Int)) = -((m : Int) - 1 - i - (j : Int)) := by ring
        rw [e, abs_neg]
      have e2 : |i - (m : Int)| = (m : Int) - 1 - i + 1 := by
        rw [abs_of_nonpos (by omega)]
        ring
      rw [e1, e2]
      linear_combination h1 + r * h2
    · have hi : i = m := by omega
      have e1 : ∑ j in Finset.range m, a (j : Int) * R |i - (j : Int)|
          = ∑ j in Finset.range m, a (j : Int) * R ((m : Int) - (j : Int)) := by
        apply Finset.sum_congr rfl
        intro j hj
        rw [Finset.mem_range] at hj
        rw [hi, abs_of_nonneg (by omega)]
      have e2 : ∑ j in Finset.range m, a (j : Int) * R |i - ((m : Int) - 1 - (j : Int))|
          = ∑ j in Finset.range m, a (j : Int) * R ((j : Int) + 1) := by
        apply Finset.sum_congr rfl
        intro j hj
        rw [Finset.mem_range] at hj
        have e : i - ((m : Int) - 1 - (j : Int)) = (j : Int) + 1 := by omega
        rw [e, abs_of_nonneg (by omega)]
      have e3 : |i - (m : Int)| = 0 := by
        rw [hi, sub_self, abs_zero]
      rw [e1, e2, e3, hi]
      linear_combination hrr - r * herr + hrE
  · rw [hsplit (fun t => R (t + 1))]
    have e1 : ∑ j in Finset.range m, a (j : Int) * R ((m : Int) - 1 - (j : Int) + 1)
        = ∑ j in Finset.range m, a (j : Int) * R ((m : Int) - (j : Int)) := by
      apply Finset.sum_congr rfl
      intro j _
      have e : (m : Int) - 1 - (j : Int) + 1 = (m : Int) - (j : Int) := by ring
      rw [e]
    rw [e1]
    linear_combination herr - r * hrr - r * hrE

/-- The main loop before its first iteration. -/
theorem lpc_run_zero (_lpc ac : Sig α) (p : Int) :
    lpc_run _lpc ac p 0 = some (lpc_init _lpc ac p) := by
  unfold lpc_run
  rw [cfor_nil]

/-- The main loop cut after one more iteration. -/
theorem lpc_run_succ (_lpc ac : Sig α) (p k : Int) (hk : 0 ≤ k) :
    lpc_run _lpc ac p (k + 1) = (lpc_run _lpc ac p k).bind (lpc_step ac k) := by
  unfold lpc_run
  rw [cfor_last _ _ _ _ (by omega)]
  have e : k + 1 - 1 = k := by omega
  rw [e]

/-- The state of the main loop after `k` iterations, for `ac[0] > 0`: with `m` the number of
iterations executed, the coefficients solve the normal equations of order `m`, `error` is
their prediction error, the cells from `m` are still zero, the divisor `error` is positive
while the loop continues, and `error ≤ ac[0]`. -/
theorem lpc_run_inv (_lpc ac : Sig α) (p : Int) (hac : 0 < ac 0) (k : Nat) :
    ∃ s : LpcSt α, lpc_run _lpc ac p k = some s ∧
      ∃ m : Nat, (m : Int) = (if s.brk then s.i + 1 else s.i) ∧ m ≤ k ∧
        (s.brk = false → m = k) ∧ (1 ≤ k → 1 ≤ m) ∧
        (∀ i : Int, 0 ≤ i → i < m →
          ac (i + 1) + ∑ j in Finset.range m, s.lpc (j : Int) * ac |i - (j : Int)| = 0) ∧
        s.error = ac 0 + ∑ j in Finset.range m, s.lpc (j : Int) * ac ((j : Int) + 1) ∧
        (∀ j : Int, (m : Int) ≤ j → j < p → s.lpc j = 0) ∧
        (s.brk = false → 0 < s.error) ∧
        (s.brk = false → 1 ≤ k → ¬ (s.error < 1 / 100000 * ac 0)) ∧
        (s.brk = true → s.error < 1 / 100000 * ac 0) ∧
        s.error ≤ ac 0 := by
  induction k with
  | zero =>
    refine ⟨lpc_init _lpc ac p, lpc_run_zero _lpc ac p, 0, rfl, le_refl _, fun _ => rfl,
      fun h => absurd h (by decide), fun i h0 h1 => by omega, ?_, ?_, fun _ => hac,
      fun _ h => absurd h (by decide), fun h => Bool.noConfusion h, le_refl _⟩
    · simp [lpc_init]
    · intro j hj0 hj1
      show cfor 0 p (fun i lpc => wr lpc i 0) _lpc j = 0
      have h := cfor_fill 0 p 0 (fun _ => (0 : α)) _lpc j
      simp only [zero_add] at h
      rw [h, if_pos ⟨by omega, hj1⟩]
  | succ k ih =>
    obtain ⟨s, hs, m, hm, hmk, hmb, hm1, hne, herr, hz, hpos, hthr, hbrk, hle⟩ := ih
    have hrun : lpc_run _lpc ac p ((k + 1 : Nat) : Int) = lpc_step ac k s := by
      have := lpc_run_succ _lpc ac p k (by omega)
      rw [hs] at this
      push_cast
      exact this
    by_cases hb : s.brk = true
    · have hstep : lpc_step ac k s = some s := by
        unfold lpc_step
        rw [if_pos hb]
      rw [hstep] at hrun
      exact ⟨s, hrun, m, hm, by omega, fun h => by rw [hb] at h; exact Bool.noConfusion h,
        fun _ => by
          rcases Nat.eq_zero_or_pos k with h0 | h0
          · exfalso
            rw [h0, Nat.cast_zero, lpc_run_zero] at hs
            cases hs
            exact absurd hb (by simp [lpc_init])
          · exact hm1 h0,
        hne, herr, hz, fun h => by rw [hb] at h; exact Bool.noConfusion h,
        fun h => by rw [hb] at h; exact Bool.noConfusion h, hbrk, hle⟩
    · have hb2 : s.brk = false := by
        cases h : s.brk
        · rfl
        · exact absurd h hb
      have hmk2 : m = k := hmb hb2
      have hE : 0 < s.error := hpos hb2
      obtain ⟨s2, hs2, hl2, he2, hbr2, hi2⟩ := lpc_step_spec ac k s hb2 (ne_of_gt hE)
      rw [Int.toNat_natCast] at hl2 he2
      rw [hs2] at hrun
      rw [hmk2] at hne herr hz
      obtain ⟨ne2, err2⟩ := levinson_step ac s.lpc s2.lpc k s.error (ne_of_gt hE) hne herr hl2
      rw [← he2] at err2
      have hm2 : ((k + 1 : Nat) : Int) = (if s2.brk then s2.i + 1 else s2.i) := by
        rw [hi2]
        cases s2.brk
        · simp
        · simp
      have hsq : s2.error ≤ s.error := by
        rw [he2]
        have : 0 ≤ -((∑ j in Finset.range k, s.lpc (j : Int) * ac ((k : Int) - (j : Int))
            + ac ((k : Int) + 1)) / s.error)
          * -((∑ j in Finset.range k, s.lpc (j : Int) * ac ((k : Int) - (j : Int))
            + ac ((k : Int) + 1)) / s.error) * s.error :=
          mul_nonneg (mul_self_nonneg _) (le_of_lt hE)
        linarith
      have hthr0 : 0 < 1 / 100000 * ac 0 := by positivity
      refine ⟨s2, hrun, k + 1, hm2, le_refl _, fun _ => rfl, fun _ => by omega, ?_, err2, ?_,
        ?_, ?_, fun h => hbr2.1 h, le_trans hsq hle⟩
      · intro i h0 h1
        exact ne2 i h0 (by push_cast at h1; omega)
      · intro j hj0 hj1
        rw [hl2 j, if_neg (by push_cast at hj0; omega), if_neg (by push_cast at hj0; omega)]
        exact hz j (by push_cast at hj0; omega) hj1
      · intro h
        have : ¬ (s2.error < 1 / 100000 * ac 0) := fun hlt => by
          rw [hbr2.2 hlt] at h
          exact Bool.noConfusion h
        linarith [not_lt.mp this]
      · intro h _ hlt
        rw [hbr2.2 hlt] at h
        exact Bool.noConfusion h

/-- C14 fails for a negative `ac[0]`: on `ac = -1, 1` with `p = 1` the one iteration has
`r = 1` and takes `error` from `-1` to `-1 - 1·1·(-1) = 0`: the sequence increases, and the
returned `error = 0` is above `ac[0] = -1`. -/
theorem lpc_error_monotone_counterexample :
    ((lpc_run (fun _ => 0) testNegAc 1 0).map (fun s => s.error),
      (lpc_run (fun _ => 0) testNegAc 1 1).map (fun s => s.error),
      (_celt_lpc (fun _ => 0) testNegAc 1).map (fun r => (r.1, decide (r.1 ≤ testNegAc 0))))
      = (some (-1), some 0, some (0, false)) := by
  decide!

/-- C14 as amended. For every order `p` and `ac[0..p]` with `ac[0] ≥ 0`, `_celt_lpc` returns
an `error` that is at most `ac[0]`; and when `ac[0] ≠ 0`, the sequence of `error` values
starts at `ac[0]` and does not increase: an executed iteration `k` takes `error` to
`error - r·r·error` with `r = -(Σ_{j<k} lpc[j]·ac[k-j] + ac[k+1]) / error`, which is at
most `error`, and after a `break` the state is kept. -/
theorem lpc_error_monotone (_lpc ac : Sig α) (p : Int) (hac : 0 ≤ ac 0) :
    (∃ (e : α) (l : Sig α), _celt_lpc _lpc ac p = some (e, l) ∧ e ≤ ac 0) ∧
    (ac 0 ≠ 0 →
      (lpc_run _lpc ac p 0).map (fun s => s.error) = some (ac 0) ∧
      ∀ k : Int, 0 ≤ k → k < p →
        ∃ s s2 : LpcSt α, lpc_run _lpc ac p k = some s ∧
          lpc_run _lpc ac p (k + 1) = some s2 ∧
          s2.error ≤ s.error ∧ s.error ≤ ac 0 ∧
          (s.brk = false → s2.error = s.error
            - -((∑ j in Finset.range k.toNat, s.lpc (j : Int) * ac (k - (j : Int))
                + ac (k + 1)) / s.error)
              * -((∑ j in Finset.range k.toNat, s.lpc (j : Int) * ac (k - (j : Int))
                + ac (k + 1)) / s.error) * s.error) ∧
          (s.brk = true → s2.error = s.error)) := by
  rcases eq_or_lt_of_le hac with h0 | hpos
  · refine ⟨⟨ac 0, (lpc_init _lpc ac p).lpc, ?_, le_refl _⟩, fun h => absurd h0.symm h⟩
    unfold _celt_lpc
    simp only [if_neg (not_not.mpr h0.symm), Option.map_some']
    rfl
  · refine ⟨?_, fun _ => ⟨?_, ?_⟩⟩
    · by_cases hp : 0 ≤ p
      · obtain ⟨s, hs, m, _, _, _, _, _, _, _, _, _, _, hle⟩ :=
          lpc_run_inv _lpc ac p hpos p.toNat
        have hP : ((p.toNat : Nat) : Int) = p := by omega
        rw [hP] at hs
        refine ⟨s.error, s.lpc, ?_, hle⟩
        unfold _celt_lpc
        simp only [if_pos (ne_of_gt hpos), hs, Option.map_some']
      · refine ⟨ac 0, (lpc_init _lpc ac p).lpc, ?_, le_refl _⟩
        unfold _celt_lpc lpc_run
        simp only [if_pos (ne_of_gt hpos)]
        rw [cfor_empty _ _ _ _ (by omega)]
        rfl
    · rw [lpc_run_zero]
      rfl
    · intro k hk0 _
      obtain ⟨s, hs, m, _, _, _, _, _, _, _, hp2, _, _, hle⟩ :=
        lpc_run_inv _lpc ac p hpos k.toNat
      have hK : ((k.toNat : Nat) : Int) = k := by omega
      rw [hK] at hs
      have hsucc := lpc_run_succ _lpc ac p k hk0
      rw [hs] at hsucc
      by_cases hb : s.brk = true
      · have hstep : lpc_step ac k s = some s := by
          unfold lpc_step
          rw [if_pos hb]
        refine ⟨s, s, hs, ?_, le_refl _, hle, fun h => ?_, fun _ => rfl⟩
        · rw [hsucc]
          exact hstep
        · rw [hb] at h
          exact Bool.noConfusion h
      · have hb2 : s.brk = false := by
          cases h2 : s.brk
          · rfl
          · exact absurd h2 hb
        have hE := hp2 hb2
        obtain ⟨s2, hs2, _, he2, _, _⟩ := lpc_step_spec ac k s hb2 (ne_of_gt hE)
        refine ⟨s, s2, hs, ?_, ?_, hle, fun _ => he2, fun h => absurd h hb⟩
        · rw [hsucc]
          exact hs2
        · rw [he2]
          have : 0 ≤ -((∑ j in Finset.range k.toNat, s.lpc (j : Int) * ac (k - (j : Int))
              + ac (k + 1)) / s.error)
            * -((∑ j in Finset.range k.toNat, s.lpc (j : Int) * ac (k - (j : Int))
              + ac (k + 1)) / s.error) * s.error :=
            mul_nonneg (mul_self_nonneg _) (le_of_lt hE)
          linarith

/-- C14 as amended, on the autocorrelation `2, 1, 0` with `p = 2`: the returned `error` is at
most `ac[0] = 2`. -/
theorem lpc_error_monotone_witness :
    ∃ (e : ℚ) (l : Sig ℚ), _celt_lpc (fun _ => 9) testAc 2 = some (e, l) ∧ e ≤ testAc 0 :=
  (lpc_error_monotone (fun _ => 9) testAc 2 (by decide!)).1

end Lpc

/-! ## The filter `iir` and the divisors of `_celt_lpc` -/

section Iir

variable [Field α]

/-- One sample of `iir`: the output stored and the memory shifted, with the output at its
head. -/
theorem iir_step_spec (x den : Sig α) (ord SIG_SHIFT i : Int) (s : Sig α × Sig α) :
    (iir_step x den ord SIG_SHIFT i s).1
      = wr s.1 i (x i - ∑ j in Finset.range ord.toNat, den (j : Int) * s.2 (j : Int)) ∧
    ∀ j, (iir_step x den ord SIG_SHIFT i s).2 j
      = if j = 0 then x i - ∑ j in Finset.range ord.toNat, den (j : Int) * s.2 (j : Int)
        else if 1 ≤ j ∧ j ≤ ord - 1 then s.2 (j - 1) else s.2 j := by
  have hsum : cfor 0 ord (fun j (sum : α) => sum - den j * s.2 j) (x i)
      = x i - ∑ j in Finset.range ord.toNat, den (j : Int) * s.2 (j : Int) := by
    rw [cfor_sum ord (fun j (sum : α) => sum - den j * s.2 j) (fun t => t)
      (fun j => -(den j * s.2 j)) (fun _ _ _ _ => sub_eq_add_neg _ _),
      Finset.sum_neg_distrib, sub_eq_add_neg]
  unfold iir_step
  simp only [ROUND16, MULT16_16, hsum]
  refine ⟨trivial, ?_⟩
  intro j
  by_cases hj : j = 0
  · rw [hj, wr_same, if_pos rfl]
  · rw [wr_other _ _ _ _ hj, if_neg hj, cforDown_shift]

/-- The recursion of `iir`, for `ord ≥ 1` and `N ≥ 0`: with `h(k) = z[k]` for `k ≥ 0`, its own
outputs, and `h(k) = m[-1-k]` before them, `z[i] = u[i] - Σ_{j<ord} den[j]·h(i-1-j)` on
`[0, N)`, and on return `mem[j] = h(N-1-j)` on `[0, ord)`. -/
theorem iir_spec (u den z0 m : Sig α) (N ord SIG_SHIFT : Int) (hN : 0 ≤ N) (hord : 1 ≤ ord) :
    (∀ i, 0 ≤ i → i < N → (iir u den z0 N ord m SIG_SHIFT).1 i
      = u i - ∑ j in Finset.range ord.toNat, den (j : Int)
          * (if 0 ≤ i - 1 - (j : Int) then (iir u den z0 N ord m SIG_SHIFT).1 (i - 1 - (j : Int))
              else m (-1 - (i - 1 - (j : Int))))) ∧
    (∀ j, 0 ≤ j → j < ord → (iir u den z0 N ord m SIG_SHIFT).2 j
      = if 0 ≤ N - 1 - j then (iir u den z0 N ord m SIG_SHIFT).1 (N - 1 - j)
        else m (-1 - (N - 1 - j))) := by
  unfold iir
  refine cfor_induction
    (fun n (s : Sig α × Sig α) =>
      (∀ i, 0 ≤ i → i < n → s.1 i
        = u i - ∑ j in Finset.range ord.toNat, den (j : Int)
            * (if 0 ≤ i - 1 - (j : Int) then s.1 (i - 1 - (j : Int))
                else m (-1 - (i - 1 - (j : Int))))) ∧
      (∀ j, 0 ≤ j → j < ord → s.2 j
        = if 0 ≤ n - 1 - j then s.1 (n - 1 - j) else m (-1 - (n - 1 - j))))
    0 N _ (z0, m) hN ?_ ?_
  · refine ⟨fun i h0 h1 => by omega, fun j h0 h1 => ?_⟩
    rw [if_neg (by omega)]
    show m j = m (-1 - (0 - 1 - j))
    have e : -1 - (0 - 1 - j) = j := by omega
    rw [e]
  · intro n s hn0 hn1 ⟨q1, q3⟩
    obtain ⟨g1, g2⟩ := iir_step_spec u den ord SIG_SHIFT n s
    have hold : ∀ k, k < n → (iir_step u den ord SIG_SHIFT n s).1 k = s.1 k := by
      intro k hk
      rw [g1, wr_other _ _ _ _ (by omega)]
    have hsum : ∀ i, 0 ≤ i → i ≤ n →
        ∑ j in Finset.range ord.toNat, den (j : Int)
          * (if 0 ≤ i - 1 - (j : Int) then
              (iir_step u den ord SIG_SHIFT n s).1 (i - 1 - (j : Int))
            else m (-1 - (i - 1 - (j : Int))))
        = ∑ j in Finset.range ord.toNat, den (j : Int)
          * (if 0 ≤ i - 1 - (j : Int) then s.1 (i - 1 - (j : Int))
            else m (-1 - (i - 1 - (j : Int)))) := by
      intro i _ hi
      apply Finset.sum_congr rfl
      intro j _
      rw [hold (i - 1 - (j : Int)) (by omega)]
    refine ⟨fun i h0 h1 => ?_, fun j h0 h1 => ?_⟩
    · rw [hsum i h0 (by omega)]
      by_cases hi : i = n
      · rw [hi, g1, wr_same]
        congr 1
        apply Finset.sum_congr rfl
        intro j hj
        rw [Finset.mem_range] at hj
        rw [q3 j (by omega) (by omega)]
      · rw [hold i (by omega)]
        exact q1 i h0 (by omega)
    · rw [g2 j]
      by_cases hj : j = 0
      · rw [if_pos hj, if_pos (by omega), hj, g1]
        have e : n + 1 - 1 - 0 = n := by omega
        rw [e, wr_same]
      · rw [if_neg hj, if_pos (by omega), q3 (j - 1) (by omega) (by omega)]
        have e : n - 1 - (j - 1) = n + 1 - 1 - j := by omega
        rw [e]
        by_cases hc : 0 ≤ n + 1 - 1 - j
        · rw [if_pos hc, if_pos hc, hold _ (by omega)]
        · rw [if_neg hc, if_neg hc]

/-- C23. For `ord ≥ 1`, `N ≥ 0`, coefficients `a` and the same initial memory `m` given to
both filters: `iir` applied to the output of `fir` stores `x[i]` at every `i` of `[0, N)`
and leaves the other cells of its output array; and after both calls the two memories are
equal, cell for cell. This holds since `fir` stores `y[i] = x[i] + Σ_j a[j]·x[i-1-j]` and
`iir` on any input `u` stores `z[i] = u[i] - Σ_j a[j]·z[i-1-j]`, where the samples before
the first are those of the initial memory, and the memory of `iir` holds its own last `ord`
outputs. -/
theorem iir_inverts_fir (x a y0 z0 m : Sig α) (N ord SIG_SHIFT : Int) (hN : 0 ≤ N)
    (hord : 1 ≤ ord) :
    (∀ i, 0 ≤ i → i < N →
      (iir (fir x a y0 N ord m SIG_SHIFT).1 a z0 N ord m SIG_SHIFT).1 i = x i) ∧
    (∀ i, ¬ (0 ≤ i ∧ i < N) →
      (iir (fir x a y0 N ord m SIG_SHIFT).1 a z0 N ord m SIG_SHIFT).1 i = z0 i) ∧
    (iir (fir x a y0 N ord m SIG_SHIFT).1 a z0 N ord m SIG_SHIFT).2
      = (fir x a y0 N ord m SIG_SHIFT).2 ∧
    (∀ i, 0 ≤ i → i < N → (fir x a y0 N ord m SIG_SHIFT).1 i
      = x i + ∑ j in Finset.range ord.toNat, a (j : Int)
          * (if 0 ≤ i - 1 - (j : Int) then x (i - 1 - (j : Int))
              else m (-1 - (i - 1 - (j : Int))))) ∧
    (∀ u : Sig α,
      (∀ i, 0 ≤ i → i < N → (iir u a z0 N ord m SIG_SHIFT).1 i
        = u i - ∑ j in Finset.range ord.toNat, a (j : Int)
            * (if 0 ≤ i - 1 - (j : Int) then (iir u a z0 N ord m SIG_SHIFT).1 (i - 1 - (j : Int))
                else m (-1 - (i - 1 - (j : Int))))) ∧
      (∀ j, 0 ≤ j → j < ord → (iir u a z0 N ord m SIG_SHIFT).2 j
        = if 0 ≤ N - 1 - j then (iir u a z0 N ord m SIG_SHIFT).1 (N - 1 - j)
          else m (-1 - (N - 1 - j)))) := by
  obtain ⟨f1, _, f3, f4⟩ := fir_spec x a y0 m N ord SIG_SHIFT hN hord
  have key : (∀ i, 0 ≤ i → i < N →
        (iir (fir x a y0 N ord m SIG_SHIFT).1 a z0 N ord m SIG_SHIFT).1 i = x i) ∧
      (∀ i, ¬ (0 ≤ i ∧ i < N) →
        (iir (fir x a y0 N ord m SIG_SHIFT).1 a z0 N ord m SIG_SHIFT).1 i = z0 i) ∧
      (∀ j, 0 ≤ j → j < ord →
        (iir (fir x a y0 N ord m SIG_SHIFT).1 a z0 N ord m SIG_SHIFT).2 j
          = if 0 ≤ N - 1 - j then x (N - 1 - j) else m (-1 - (N - 1 - j))) ∧
      (∀ j, ¬ (0 ≤ j ∧ j < ord) →
        (iir (fir x a y0 N ord m SIG_SHIFT).1 a z0 N ord m SIG_SHIFT).2 j = m j) := by
    unfold iir
    refine cfor_induction
      (fun n (s : Sig α × Sig α) =>
        (∀ i, 0 ≤ i → i < n → s.1 i = x i) ∧
        (∀ i, ¬ (0 ≤ i ∧ i < n) → s.1 i = z0 i) ∧
        (∀ j, 0 ≤ j → j < ord → s.2 j
          = if 0 ≤ n - 1 - j then x (n - 1 - j) else m (-1 - (n - 1 - j))) ∧
        (∀ j, ¬ (0 ≤ j ∧ j < ord) → s.2 j = m j))
      0 N _ (z0, m) hN ?_ ?_
    · refine ⟨fun i h0 h1 => by omega, fun _ _ => rfl, fun j h0 h1 => ?_, fun _ _ => rfl⟩
      rw [if_neg (by omega)]
      show m j = m (-1 - (0 - 1 - j))
      have e : -1 - (0 - 1 - j) = j := by omega
      rw [e]
    · intro n s hn0 hn1 ⟨q1, q2, q3, q4⟩
      obtain ⟨g1, g2⟩ := iir_step_spec (fir x a y0 N ord m SIG_SHIFT).1 a ord SIG_SHIFT n s
      have hval : (fir x a y0 N ord m SIG_SHIFT).1 n
          - ∑ j in Finset.range ord.toNat, a (j : Int) * s.2 (j : Int) = x n := by
        rw [f1 n hn0 hn1]
        have : ∑ j in Finset.range ord.toNat, a (j : Int) * s.2 (j : Int)
            = ∑ j in Finset.range ord.toNat, a (j : Int)
              * (if 0 ≤ n - 1 - (j : Int) then x (n - 1 - (j : Int))
                  else m (-1 - (n - 1 - (j : Int)))) := by
          apply Finset.sum_congr rfl
          intro j hj
          rw [Finset.mem_range] at hj
          rw [q3 j (by omega) (by omega)]
        rw [this, add_sub_cancel_right]
      rw [hval] at g1 g2
      refine ⟨fun i h0 h1 => ?_, fun i hi => ?_, fun j h0 h1 => ?_, fun j hj => ?_⟩
      · rw [g1]
        by_cases hi : i = n
        · rw [hi, wr_same]
        · rw [wr_other _ _ _ _ hi]
          exact q1 i h0 (by omega)
      · rw [g1, wr_other _ _ _ _ (by omega)]
        exact q2 i (by omega)
      · rw [g2 j]
        by_cases hj : j = 0
        · rw [if_pos hj, if_pos (by omega), hj]
          congr 1
          omega
        · rw [if_neg hj, if_pos (by omega), q3 (j - 1) (by omega) (by omega)]
          have e : n - 1 - (j - 1) = n + 1 - 1 - j := by omega
          rw [e]
      · rw [g2 j, if_neg (by omega), if_neg (by omega)]
        exact q4 j hj
  obtain ⟨k1, k2, k3, k4⟩ := key
  refine ⟨k1, k2, ?_, f1, fun u => iir_spec u a z0 m N ord SIG_SHIFT hN hord⟩
  funext j
  by_cases hj : 0 ≤ j ∧ j < ord
  · rw [k3 j hj.1 hj.2, f3 j hj.1 hj.2]
  · rw [k4 j hj, f4 j hj]

end Iir

/-- C23 on the signal `1, 2, 3, 4` with `ord = 2`, coefficients `10, 100` and initial memory
`5, 7`: `iir` gives back the third sample. -/
theorem iir_inverts_fir_witness :
    (iir (fir testSignal (fun k => if k = 0 then 10 else 100) (fun _ => 0) 4 2
        (fun k => if k = 0 then 5 else 7) 0).1 (fun k => if k = 0 then 10 else 100)
        (fun _ => 0) 4 2 (fun k => if k = 0 then 5 else 7) 0).1 2 = testSignal 2 :=
  (iir_inverts_fir testSignal (fun k => if k = 0 then 10 else 100) (fun _ => 0) (fun _ => 0)
    (fun k => if k = 0 then 5 else 7) 4 2 0 (by decide) (by decide)).1 2 (by decide) (by decide)
section LpcDivisor

variable [LinearOrderedField α]

/-- Once an iteration has divided by zero, the loop delivers nothing. -/
theorem lpc_run_none (_lpc ac : Sig α) (p : Int) (k : Nat)
    (hk : lpc_run _lpc ac p k = none) (k2 : Nat) (hk2 : k ≤ k2) :
    lpc_run _lpc ac p k2 = none := by
  induction k2, hk2 using Nat.le_induction with
  | base => exact hk
  | succ n _ ih =>
    have h := lpc_run_succ _lpc ac p n (by omega)
    rw [ih] at h
    push_cast
    rw [h]
    rfl

/-- C22. For an order `p ≥ 0`. When `ac[0] > 0`, `_celt_lpc` returns, its loop executes at
most `p` iterations, and every executed iteration `k` finds a divisor `error > 0`, so that
`frac_div` is defined on it: the divisor is `ac[0]` at `k = 0` and at least `1e-5·ac[0]` at
`k ≥ 1`, and the iteration delivers the next state. When `ac[0] = 0`, `_celt_lpc` returns the
state of line 30, with `error = 0`, `lpc[k] = 0` on `[0, p)` and the other cells untouched,
without any division: the loop it skips would divide by zero in its first iteration. -/
theorem lpc_divisor_positive (_lpc ac : Sig α) (p : Int) (hp : 0 ≤ p) :
    (0 < ac 0 →
      (∃ s : LpcSt α, lpc_run _lpc ac p p = some s ∧
        _celt_lpc _lpc ac p = some (s.error, s.lpc) ∧
        0 ≤ (if s.brk then s.i + 1 else s.i) ∧ (if s.brk then s.i + 1 else s.i) ≤ p) ∧
      (∀ k, 0 ≤ k → k < p → ∃ t : LpcSt α, lpc_run _lpc ac p k = some t ∧
        (t.brk = false →
          0 < t.error ∧ (k = 0 → t.error = ac 0) ∧ (1 ≤ k → 1 / 100000 * ac 0 ≤ t.error) ∧
          (∀ rr : α, frac_div rr t.error = some (rr / t.error)) ∧
          ∃ t2 : LpcSt α, lpc_step ac k t = some t2 ∧
            lpc_run _lpc ac p (k + 1) = some t2))) ∧
    (ac 0 = 0 →
      _celt_lpc _lpc ac p = some (0, (lpc_init _lpc ac p).lpc) ∧
      (∀ k, 0 ≤ k → k < p → (lpc_init _lpc ac p).lpc k = 0) ∧
      (∀ k, ¬ (0 ≤ k ∧ k < p) → (lpc_init _lpc ac p).lpc k = _lpc k) ∧
      (∀ rr : α, frac_div rr (lpc_init _lpc ac p).error = none) ∧
      (1 ≤ p → lpc_run _lpc ac p p = none)) := by
  have hfill : ∀ k, (lpc_init _lpc ac p).lpc k = if 0 ≤ k ∧ k < p then 0 else _lpc k := by
    intro k
    show cfor 0 p (fun i lpc => wr lpc i 0) _lpc k = _
    have h := cfor_fill 0 p 0 (fun _ => (0 : α)) _lpc k
    simp only [zero_add] at h
    exact h
  refine ⟨fun hac => ⟨?_, ?_⟩, fun h0 => ⟨?_, ?_, ?_, ?_, ?_⟩⟩
  · obtain ⟨s, hs, m, hm, hmk, _⟩ := lpc_run_inv _lpc ac p hac p.toNat
    have hP : ((p.toNat : Nat) : Int) = p := by omega
    rw [hP] at hs
    refine ⟨s, hs, ?_, by omega, by omega⟩
    unfold _celt_lpc
    simp only [if_pos (ne_of_gt hac), hs, Option.map_some']
  · intro k hk0 _
    obtain ⟨t, ht, m, _, _, _, _, _, _, _, hpos, hthr, _⟩ := lpc_run_inv _lpc ac p hac k.toNat
    have hK : ((k.toNat : Nat) : Int) = k := by omega
    rw [hK] at ht
    refine ⟨t, ht, fun hb => ⟨hpos hb, fun hk => ?_, fun hk => ?_, fun rr => ?_, ?_⟩⟩
    · rw [hk, lpc_run_zero] at ht
      cases ht
      rfl
    · exact not_lt.mp (hthr hb (by omega))
    · unfold frac_div
      rw [if_neg (ne_of_gt (hpos hb))]
    · obtain ⟨t2, ht2, _⟩ := lpc_step_spec ac k t hb (ne_of_gt (hpos hb))
      refine ⟨t2, ht2, ?_⟩
      rw [lpc_run_succ _lpc ac p k hk0, ht]
      exact ht2
  · unfold _celt_lpc
    simp only [if_neg (not_not.mpr h0), Option.map_some']
    show some ((lpc_init _lpc ac p).error, (lpc_init _lpc ac p).lpc) = _
    have : (lpc_init _lpc ac p).error = 0 := h0
    rw [this]
  · intro k hk0 hk1
    rw [hfill k, if_pos ⟨hk0, hk1⟩]
  · intro k hk
    rw [hfill k, if_neg hk]
  · intro rr
    unfold frac_div
    rw [if_pos (show (lpc_init _lpc ac p).error = 0 from h0)]
  · intro hp1
    have h1 : lpc_run _lpc ac p ((1 : Nat) : Int) = none := by
      have h := lpc_run_succ _lpc ac p 0 (le_refl _)
      rw [lpc_run_zero] at h
      rw [Nat.cast_one, ← zero_add (1 : Int), h]
      show lpc_step ac 0 (lpc_init _lpc ac p) = none
      unfold lpc_step frac_div
      simp only [lpc_init, Bool.false_eq_true, if_false, h0, if_true]
    have := lpc_run_none _lpc ac p 1 h1 p.toNat (by omega)
    have hP : ((p.toNat : Nat) : Int) = p := by omega
    rw [hP] at this
    exact this

/-- C22 on the autocorrelation `2, 1, 0` with `p = 2`: the second iteration divides by
`error = 3/2`, which is positive. -/
theorem lpc_divisor_positive_witness :
    ∃ t : LpcSt ℚ, lpc_run (fun _ => 9) testAc 2 1 = some t ∧
      (t.brk = false →
        0 < t.error ∧ ((1 : Int) = 0 → t.error = testAc 0) ∧
        ((1 : Int) ≤ 1 → 1 / 100000 * testAc 0 ≤ t.error) ∧
        (∀ rr : ℚ, frac_div rr t.error = some (rr / t.error)) ∧
        ∃ t2 : LpcSt ℚ, lpc_step testAc 1 t = some t2 ∧
          lpc_run (fun _ => 9) testAc 2 (1 + 1) = some t2) :=
  ((lpc_divisor_positive (fun _ => 9) testAc 2 (by decide)).1 (by decide!)).2 1
    (by decide) (by decide)

end LpcDivisor

/-! ## The state after a corrupted trailer -/

section Corrupted

variable [LinearOrderedField α] [FloorRing α]

/-- The part of `celt_decode` before the trailer is the decoding of the symbols followed by
the synthesis from the decoded values. -/
theorem celt_decode_frame_eq (E : Ext α) (st : CELTDecoder α E) (data : Sig Nat) (len : Int)
    (pcm : Sig Int) (stack : Nat → Sig α) :
    celt_decode_frame E st data len pcm stack
      = ((celt_decode_output E st pcm stack (celt_decode_symbols E st data len stack).1).1,
         (celt_decode_output E st pcm stack (celt_decode_symbols E st data len stack).1).2,
         (celt_decode_symbols E st data len stack).2) := rfl

/-- What `celt_decode` returns for a non-null `data` on a mode that `check_mode` accepts, once
the trailer loop has ended with `b` (`true`: no mismatch): the state and `pcm` are those
computed before the trailer, whatever `b` is. -/
theorem celt_decode_result (E : Ext α) (fuel : Nat) (st : CELTDecoder α E)
    (data : Sig Nat) (len : Int) (pcm : Sig Int) (stack : Nat → Sig α) (b : Bool)
    (hmode : E.check_mode st.mode = true)
    (hb : dec_trailer E len fuel (celt_decode_frame E st data len pcm stack).2.2 0 = some b) :
    ∃ r : DecodeResult α E, celt_decode E fuel st (some data) len pcm stack = some r ∧
      r.st = (celt_decode_frame E st data len pcm stack).1 ∧
      r.pcm = (celt_decode_frame E st data len pcm stack).2.1 ∧
      r.ret = (if b then .ok 0 else .error .CELT_CORRUPTED_DATA) := by
  cases b with
  | true =>
    refine ⟨{ ret := .ok 0, st := (celt_decode_frame E st data len pcm stack).1,
              pcm := (celt_decode_frame E st data len pcm stack).2.1, warnings := [] },
      ?_, rfl, rfl, rfl⟩
    unfold celt_decode
    simp [hmode, hb]
  | false =>
    refine ⟨{ ret := .error .CELT_CORRUPTED_DATA,
              st := (celt_decode_frame E st data len pcm stack).1,
              pcm := (celt_decode_frame E st data len pcm stack).2.1,
              warnings := [.decodeError] }, ?_, rfl, rfl, rfl⟩
    unfold celt_decode
    simp [hmode, hb]

/-- C21 as amended. For a mode that `check_mode` accepts (and a range decoder whose
two-valued symbols advance `ec_dec_tell`, so that the calls return): the trailer is checked
after the state and `pcm` have been updated, so two inputs whose decoded values agree up to
the end of the residual leave the same `pcm` and the same decoder state (`oldBandE`,
`last_pitch_index`, `out_mem`, `mdct_overlap`, `preemph_memD`), whether `celt_decode` returns
`0` or `CELT_CORRUPTED_DATA`; the state left is the one synthesised from the decoded values,
not a copy of the state before the call. -/
theorem corrupted_data_not_atomic (E : Ext α) (fuel1 fuel2 : Nat) (st : CELTDecoder α E)
    (data1 data2 : Sig Nat) (len1 len2 : Int) (pcm : Sig Int) (stack : Nat → Sig α)
    (hmode : E.check_mode st.mode = true)
    (hprog : ∀ d, E.ec_dec_tell d 0 < E.ec_dec_tell (E.ec_dec_uint d 2).2 0)
    (hfuel1 : (len1 * 8
      - E.ec_dec_tell (celt_decode_frame E st data1 len1 pcm stack).2.2 0).toNat ≤ fuel1)
    (hfuel2 : (len2 * 8
      - E.ec_dec_tell (celt_decode_frame E st data2 len2 pcm stack).2.2 0).toNat ≤ fuel2)
    (hsym : (celt_decode_symbols E st data1 len1 stack).1
      = (celt_decode_symbols E st data2 len2 stack).1) :
    ∃ r1 r2 : DecodeResult α E,
      celt_decode E fuel1 st (some data1) len1 pcm stack = some r1 ∧
      celt_decode E fuel2 st (some data2) len2 pcm stack = some r2 ∧
      (r1.ret = .ok 0 ∨ r1.ret = .error .CELT_CORRUPTED_DATA) ∧
      (r2.ret = .ok 0 ∨ r2.ret = .error .CELT_CORRUPTED_DATA) ∧
      r1.pcm = r2.pcm ∧ r1.st = r2.st ∧
      r1.st = (celt_decode_output E st pcm stack
        (celt_decode_symbols E st data1 len1 stack).1).1 ∧
      r1.pcm = (celt_decode_output E st pcm stack
        (celt_decode_symbols E st data1 len1 stack).1).2 ∧
      r1.st.oldBandE = (celt_decode_symbols E st data1 len1 stack).1.oldBandE ∧
      r1.st.last_pitch_index = (celt_decode_symbols E st data1 len1 stack).1.last_pitch_index := by
  obtain ⟨b1, hb1, _⟩ := dec_trailer_spec E len1 hprog fuel1
    (celt_decode_frame E st data1 len1 pcm stack).2.2 0 hfuel1
  obtain ⟨b2, hb2, _⟩ := dec_trailer_spec E len2 hprog fuel2
    (celt_decode_frame E st data2 len2 pcm stack).2.2 0 hfuel2
  simp only [Nat.zero_mod, Nat.cast_zero] at hb1 hb2
  obtain ⟨r1, h1, s1, p1, t1⟩ := celt_decode_result E fuel1 st data1 len1 pcm stack b1 hmode hb1
  obtain ⟨r2, h2, s2, p2, t2⟩ := celt_decode_result E fuel2 st data2 len2 pcm stack b2 hmode hb2
  rw [celt_decode_frame_eq] at s1 p1 s2 p2
  refine ⟨r1, r2, h1, h2, ?_, ?_, ?_, ?_, s1, p1, ?_, ?_⟩
  · rw [t1]
    cases b1
    · right; rfl
    · left; rfl
  · rw [t2]
    cases b2
    · right; rfl
    · left; rfl
  · rw [p1, p2, hsym]
  · rw [s1, s2, hsym]
  · rw [s1]
    rfl
  · rw [s1]
    rfl

/-- The first fifteen bits of `testCorruptSilence`: pitch marker `0` and `X[0] = 0`. -/
theorem testCorruptSilence_bits :
    testFromBits (List.map (fun t : Nat => testCorruptSilence ((t : Int) / 8) / 2 ^ (t % 8) % 2)
      (List.range 16)) 0 7 = 0 ∧
    testFromBits (List.map (fun t : Nat => testCorruptSilence ((t : Int) / 8) / 2 ^ (t % 8) % 2)
      (List.range 16)) 7 8 = 0 := by
  decide!

/-- The all-zero decoder `testSilentDecoder` is left as it was by the frame
`testCorruptSilence`. -/
theorem testSilentDecoder_frame_fixed :
    (celt_decode_frame testExt testSilentDecoder testCorruptSilence 2 (fun _ => 0)
      (fun _ _ => 0)).1 = testSilentDecoder := by
  obtain ⟨b7, b8⟩ := testCorruptSilence_bits
  have h1 : (celt_decode_frame testExt testSilentDecoder testCorruptSilence 2 (fun _ => 0)
      (fun _ _ => 0)).1.out_mem = fun _ => 0 := by
    funext k
    simp [celt_decode_frame, testSilentDecoder, testDecoder, testMode, compute_inv_mdcts,
      compute_mdcts, mdct_block, mdct_window, inv_mdct_block, interleave, deinterleave,
      deemphasis, cfor_nil, cfor_one, cfor_two, testExt, CELT_MOVE, MAX_PERIOD, offs, wr,
      decoder_window, b7, b8]
  have h2 : (celt_decode_frame testExt testSilentDecoder testCorruptSilence 2 (fun _ => 0)
      (fun _ _ => 0)).1.mdct_overlap = fun _ => 0 := by
    funext k
    simp [celt_decode_frame, testSilentDecoder, testDecoder, testMode, compute_inv_mdcts,
      compute_mdcts, mdct_block, mdct_window, inv_mdct_block, interleave, deinterleave,
      deemphasis, cfor_nil, cfor_one, cfor_two, testExt, CELT_MOVE, MAX_PERIOD, offs, wr,
      decoder_window, b7, b8]
  have h3 : (celt_decode_frame testExt testSilentDecoder testCorruptSilence 2 (fun _ => 0)
      (fun _ _ => 0)).1.preemph_memD = fun _ => 0 := by
    funext k
    simp [celt_decode_frame, testSilentDecoder, testDecoder, testMode, compute_inv_mdcts,
      compute_mdcts, mdct_block, mdct_window, inv_mdct_block, interleave, deinterleave,
      deemphasis, cfor_nil, cfor_one, cfor_two, testExt, CELT_MOVE, MAX_PERIOD, offs, wr,
      decoder_window, b7, b8]
  have h4 : (celt_decode_frame testExt testSilentDecoder testCorruptSilence 2 (fun _ => 0)
      (fun _ _ => 0)).1.oldBandE = fun _ => 0 := by
    funext k
    simp [celt_decode_frame, testSilentDecoder, testDecoder, testMode, compute_inv_mdcts,
      compute_mdcts, mdct_block, mdct_window, inv_mdct_block, interleave, deinterleave,
      deemphasis, cfor_nil, cfor_one, cfor_two, testExt, CELT_MOVE, MAX_PERIOD, offs, wr,
      decoder_window, b7, b8]
  have h5 : (celt_decode_frame testExt testSilentDecoder testCorruptSilence 2 (fun _ => 0)
      (fun _ _ => 0)).1.last_pitch_index = 0 := by
    simp [celt_decode_frame, testSilentDecoder, testDecoder, testMode, compute_inv_mdcts,
      compute_mdcts, mdct_block, mdct_window, inv_mdct_block, interleave, deinterleave,
      deemphasis, cfor_nil, cfor_one, cfor_two, testExt, CELT_MOVE, MAX_PERIOD, offs, wr,
      decoder_window, b7, b8]
  calc (celt_decode_frame testExt testSilentDecoder testCorruptSilence 2 (fun _ => 0)
      (fun _ _ => 0)).1
      = { testSilentDecoder with
          oldBandE := (celt_decode_frame testExt testSilentDecoder testCorruptSilence 2 (fun _ => 0)
      (fun _ _ => 0)).1.oldBandE,
          last_pitch_index := (celt_decode_frame testExt testSilentDecoder testCorruptSilence 2 (fun _ => 0)
      (fun _ _ => 0)).1.last_pitch_index,
          out_mem := (celt_decode_frame testExt testSilentDecoder testCorruptSilence 2 (fun _ => 0)
      (fun _ _ => 0)).1.out_mem,
          mdct_overlap := (celt_decode_frame testExt testSilentDecoder testCorruptSilence 2 (fun _ => 0)
      (fun _ _ => 0)).1.mdct_overlap,
          preemph_memD := (celt_decode_frame testExt testSilentDecoder testCorruptSilence 2 (fun _ => 0)
      (fun _ _ => 0)).1.preemph_memD } := rfl
    _ = testSilentDecoder := by rw [h1, h2, h3, h4, h5]; rfl

/-- C21 fails in its last sentence: on `testExt` the decoder that `celt_decoder_create`
returns for `testMode`, the all-zero `testSilentDecoder`, given the two-byte frame
`testCorruptSilence` (pitch marker `0`, `X[0] = 0`, trailer symbol `1`), returns
`CELT_CORRUPTED_DATA` and is left exactly as it was before the call. -/
theorem corrupted_data_not_atomic_counterexample :
    celt_decoder_create testExt testMode = some testSilentDecoder ∧
    ∃ r : DecodeResult ℚ testExt,
      celt_decode testExt 8 testSilentDecoder (some testCorruptSilence) 2 (fun _ => 0)
        (fun _ _ => 0) = some r ∧
      r.ret = .error .CELT_CORRUPTED_DATA ∧ r.st = testSilentDecoder := by
  refine ⟨by unfold celt_decoder_create; rw [if_pos (by decide)]; rfl, ?_⟩
  have hb : dec_trailer testExt 2 8 (celt_decode_frame testExt testSilentDecoder
      testCorruptSilence 2 (fun _ => 0) (fun _ _ => 0)).2.2 0 = some false := by
    decide!
  obtain ⟨r, hr, hs, _, ht⟩ := celt_decode_result testExt 8 testSilentDecoder
    testCorruptSilence 2 (fun _ => 0) (fun _ _ => 0) false (by decide) hb
  exact ⟨r, hr, ht, hs.trans testSilentDecoder_frame_fixed⟩

/-- The first fifteen bits of `testFrame` and of `testCorruptFrame`: pitch marker `0` and
`X[0] = 64`. -/
theorem testCorruptFrame_bits :
    testFromBits (List.map (fun t : Nat => testFrame ((t : Int) / 8) / 2 ^ (t % 8) % 2)
      (List.range 16)) 0 7 = 0 ∧
    testFromBits (List.map (fun t : Nat => testFrame ((t : Int) / 8) / 2 ^ (t % 8) % 2)
      (List.range 16)) 7 8 = 64 ∧
    testFromBits (List.map (fun t : Nat => testCorruptFrame ((t : Int) / 8) / 2 ^ (t % 8) % 2)
      (List.range 16)) 0 7 = 0 ∧
    testFromBits (List.map (fun t : Nat => testCorruptFrame ((t : Int) / 8) / 2 ^ (t % 8) % 2)
      (List.range 16)) 7 8 = 64 := by
  decide!

/-- The frames `testFrame` and `testCorruptFrame` decode to the same values up to the end of
the residual. -/
theorem testCorruptFrame_symbols :
    (celt_decode_symbols testExt testDecoder testFrame 2 (fun _ _ => 0)).1
      = (celt_decode_symbols testExt testDecoder testCorruptFrame 2 (fun _ _ => 0)).1 := by
  obtain ⟨f7, f8, c7, c8⟩ := testCorruptFrame_bits
  simp [celt_decode_symbols, testExt, f7, f8, c7, c8]

/-- C21 as amended, on `testExt`: `testFrame` is decoded with return value `0` and
`testCorruptFrame`, which differs from it in the trailer bit, with `CELT_CORRUPTED_DATA`; both
leave the same `pcm` and the same state, whose history is not that of `testDecoder`. -/
theorem corrupted_data_not_atomic_witness :
    (∃ r1 r2 : DecodeResult ℚ testExt,
      celt_decode testExt 8 testDecoder (some testFrame) 2 (fun _ => 0) (fun _ _ => 0)
        = some r1 ∧
      celt_decode testExt 8 testDecoder (some testCorruptFrame) 2 (fun _ => 0) (fun _ _ => 0)
        = some r2 ∧
      r1.pcm = r2.pcm ∧ r1.st = r2.st) ∧
    ((celt_decode testExt 8 testDecoder (some testFrame) 2 (fun _ => 0) (fun _ _ => 0)).map
        (fun r => (r.ret.toOption, r.st.out_mem 1023, r.pcm 0)),
      (celt_decode testExt 8 testDecoder (some testCorruptFrame) 2 (fun _ => 0)
        (fun _ _ => 0)).map (fun r => (r.ret.toOption, r.st.out_mem 1023, r.pcm 0)),
      testDecoder.out_mem 1023)
      = (some (some 0, 0, 80), some (none, 0, 80), 100) := by
  obtain ⟨r1, r2, h1, h2, _, _, hp, hs, _⟩ := corrupted_data_not_atomic testExt 8 8 testDecoder
    testFrame testCorruptFrame 2 2 (fun _ => 0) (fun _ _ => 0) (by decide)
    testExt_dec_progress (by decide!) (by decide!) testCorruptFrame_symbols
  exact ⟨⟨r1, r2, h1, h2, hp, hs⟩, by decide!⟩

end Corrupted

/-! ## The samples written by the de-emphasis loops -/

section Flatten

variable {σ : Type}

/-- A loop over `j < N` whose body is taken at `a + j` is the loop from `a` to `a + N`. -/
theorem cfor_shift (a N : Int) (g : Int → σ → σ) (s : σ) :
    cfor 0 N (fun j s => g (a + j) s) s = cfor a (a + N) g s := by
  unfold cfor
  have e1 : (a + N - a).toNat = (N - 0).toNat := by
    congr 1
    omega
  rw [e1]
  congr 1
  funext k
  rw [zero_add]

/-- A loop run up to `mid` and then from `mid` is the whole loop. -/
theorem cfor_append (lo mid hi : Int) (g : Int → σ → σ) (s : σ) (h1 : lo ≤ mid)
    (h2 : mid ≤ hi) : cfor mid hi g (cfor lo mid g s) = cfor lo hi g s :=
  cfor_induction (fun h t => t = cfor lo h g s) mid hi g (cfor lo mid g s) h2 rfl
    (fun j t hj0 _ ht => by
      beta_reduce at ht ⊢
      rw [cfor_last lo (j + 1) g s (by omega), ht]
      have e : j + 1 - 1 = j := by omega
      rw [e])

/-- Two nested loops over `i < B` and `j < N` whose body is taken at `i·N + j` are one loop
over `B·N`. -/
theorem cfor_flatten (B N : Int) (g : Int → σ → σ) (s : σ) (hB : 0 ≤ B) (hN : 0 ≤ N) :
    cfor 0 B (fun i s => cfor 0 N (fun j s => g (i * N + j) s) s) s = cfor 0 (B * N) g s :=
  cfor_induction (fun i t => t = cfor 0 (i * N) g s) 0 B
    (fun i s => cfor 0 N (fun j s => g (i * N + j) s) s) s hB
    (by
      beta_reduce
      rw [zero_mul, cfor_nil])
    (fun i t hi0 _ ht => by
      beta_reduce at ht ⊢
      have h0 : 0 ≤ i * N := mul_nonneg hi0 hN
      rw [cfor_shift, ht, cfor_append 0 (i * N) (i * N + N) g s h0 (by omega)]
      have e : (i + 1) * N = i * N + N := by ring
      rw [e])

end Flatten

section Deemphasis

variable [LinearOrderedField α] [FloorRing α]

/-- The de-emphasis loops of one channel, as one loop over its `M = B·N` samples: the sample
`n` is stored, rounded and clamped, at cell `C·n + c` of `pcm`, and the memory of the channel
ends at the last sample. -/
theorem deemphasis_channel (out_mem : Sig α) (preemph : α) (preemph_memD : Sig α)
    (N B C c M : Int) (s : Sig α × Sig Int) (hC : 1 ≤ C) (hM : 0 ≤ M)
    (hs : s.1 c = preemph_memD c) :
    (∀ n, 0 ≤ n → n < M →
      (cfor 0 M (fun n (s : Sig α × Sig Int) =>
        let tmp := out_mem (C * (MAX_PERIOD - B * N + n) + c) + preemph * s.1 c
        (wr s.1 c tmp, wr s.2 (C * n + c) (clamp_round tmp))) s).2 (C * n + c)
      = clamp_round (deemphasised out_mem preemph preemph_memD N B C c n.toNat)) ∧
    (∀ k, (∀ n, 0 ≤ n → n < M → k ≠ C * n + c) →
      (cfor 0 M (fun n (s : Sig α × Sig Int) =>
        let tmp := out_mem (C * (MAX_PERIOD - B * N + n) + c) + preemph * s.1 c
        (wr s.1 c tmp, wr s.2 (C * n + c) (clamp_round tmp))) s).2 k = s.2 k) ∧
    ((cfor 0 M (fun n (s : Sig α × Sig Int) =>
        let tmp := out_mem (C * (MAX_PERIOD - B * N + n) + c) + preemph * s.1 c
        (wr s.1 c tmp, wr s.2 (C * n + c) (clamp_round tmp))) s).1 c
      = if M = 0 then preemph_memD c
        else deemphasised out_mem preemph preemph_memD N B C c (M - 1).toNat) ∧
    (∀ c2, c2 ≠ c →
      (cfor 0 M (fun n (s : Sig α × Sig Int) =>
        let tmp := out_mem (C * (MAX_PERIOD - B * N + n) + c) + preemph * s.1 c
        (wr s.1 c tmp, wr s.2 (C * n + c) (clamp_round tmp))) s).1 c2 = s.1 c2) := by
  have hC0 : C ≠ 0 := by omega
  refine cfor_induction
    (fun m (t : Sig α × Sig Int) =>
      (∀ n, 0 ≤ n → n < m → t.2 (C * n + c)
        = clamp_round (deemphasised out_mem preemph preemph_memD N B C c n.toNat)) ∧
      (∀ k, (∀ n, 0 ≤ n → n < m → k ≠ C * n + c) → t.2 k = s.2 k) ∧
      (t.1 c = if m = 0 then preemph_memD c
        else deemphasised out_mem preemph preemph_memD N B C c (m - 1).toNat) ∧
      (∀ c2, c2 ≠ c → t.1 c2 = s.1 c2))
    0 M _ s hM ?_ ?_
  · exact ⟨fun n h0 h1 => by omega, fun _ _ => rfl, by rw [if_pos rfl]; exact hs,
      fun _ _ => rfl⟩
  · intro m t hm0 hm1 ⟨q1, q2, q3, q4⟩
    have htmp : out_mem (C * (MAX_PERIOD - B * N + m) + c) + preemph * t.1 c
        = deemphasised out_mem preemph preemph_memD N B C c m.toNat := by
      rw [q3]
      by_cases h0 : m = 0
      · rw [if_pos h0, h0]
        rfl
      · rw [if_neg h0]
        have e : m.toNat = (m - 1).toNat + 1 := by omega
        rw [e]
        show _ = out_mem (C * (MAX_PERIOD - B * N + (((m - 1).toNat + 1 : Nat) : Int)) + c)
          + preemph * deemphasised out_mem preemph preemph_memD N B C c (m - 1).toNat
        have e2 : (((m - 1).toNat + 1 : Nat) : Int) = m := by omega
        rw [e2]
    simp only
    rw [htmp]
    refine ⟨fun n h0 h1 => ?_, fun k hk => ?_, ?_, fun c2 hc2 => ?_⟩
    · by_cases hn : n = m
      · rw [hn, wr_same]
      · have hne : C * n + c ≠ C * m + c := by
          intro h
          have h2 : C * n = C * m := by omega
          exact hn (mul_left_cancel₀ hC0 h2)
        rw [wr_other _ _ _ _ hne]
        exact q1 n h0 (by omega)
    · rw [wr_other _ _ _ _ (hk m hm0 (by omega))]
      exact q2 k (fun n h0 h1 => hk n h0 (by omega))
    · rw [wr_same, if_neg (by omega)]
      have e : m + 1 - 1 = m := by omega
      rw [e]
    · rw [wr_other _ _ _ _ hc2]
      exact q4 c2 hc2

/-- The de-emphasis loop nest is, for each channel, one loop over the `B·N` samples of the
channel. -/
theorem deemphasis_flat (out_mem : Sig α) (preemph : α) (preemph_memD : Sig α)
    (pcm : Sig Int) (N B C : Int) (hB : 0 ≤ B) (hN : 0 ≤ N) :
    deemphasis out_mem preemph preemph_memD pcm N B C
      = cfor 0 C (fun c s => cfor 0 (B * N) (fun n (s : Sig α × Sig Int) =>
          let tmp := out_mem (C * (MAX_PERIOD - B * N + n) + c) + preemph * s.1 c
          (wr s.1 c tmp, wr s.2 (C * n + c) (clamp_round tmp))) s) (preemph_memD, pcm) := by
  unfold deemphasis
  apply cfor_congr
  intro c s _ _
  rw [← cfor_flatten B N _ s hB hN]
  apply cfor_congr
  intro i t _ _
  apply cfor_congr
  intro j u _ _
  have e1 : C * (MAX_PERIOD + (i - B) * N) + C * j + c
      = C * (MAX_PERIOD - B * N + (i * N + j)) + c := by ring
  have e2 : C * i * N + C * j + c = C * (i * N + j) + c := by ring
  simp only [e1, e2]

/-- The de-emphasis loops, for `C ≥ 1`, `B ≥ 0`, `N ≥ 0`: cell `C·n + c` of `pcm`
(`0 ≤ c < C`, `0 ≤ n < B·N`) holds the rounded, clamped de-emphasised sample `y[n]` of
channel `c`, the other cells of `pcm` are untouched, and the memory of each channel ends at
its last sample. -/
theorem deemphasis_spec (out_mem : Sig α) (preemph : α) (preemph_memD : Sig α)
    (pcm : Sig Int) (N B C : Int) (hC : 1 ≤ C) (hB : 0 ≤ B) (hN : 0 ≤ N) :
    (∀ c n, 0 ≤ c → c < C → 0 ≤ n → n < B * N →
      (deemphasis out_mem preemph preemph_memD pcm N B C).2 (C * n + c)
        = clamp_round (deemphasised out_mem preemph preemph_memD N B C c n.toNat)) ∧
    (∀ k, (∀ c n, 0 ≤ c → c < C → 0 ≤ n → n < B * N → k ≠ C * n + c) →
      (deemphasis out_mem preemph preemph_memD pcm N B C).2 k = pcm k) ∧
    (∀ c, 0 ≤ c → c < C →
      (deemphasis out_mem preemph preemph_memD pcm N B C).1 c
        = if B * N = 0 then preemph_memD c
          else deemphasised out_mem preemph preemph_memD N B C c (B * N - 1).toNat) ∧
    (∀ c, ¬ (0 ≤ c ∧ c < C) →
      (deemphasis out_mem preemph preemph_memD pcm N B C).1 c = preemph_memD c) := by
  have hM : 0 ≤ B * N := mul_nonneg hB hN
  rw [deemphasis_flat out_mem preemph preemph_memD pcm N B C hB hN]
  have key := cfor_induction
    (fun m (t : Sig α × Sig Int) =>
      (∀ c n, 0 ≤ c → c < m → 0 ≤ n → n < B * N → t.2 (C * n + c)
        = clamp_round (deemphasised out_mem preemph preemph_memD N B C c n.toNat)) ∧
      (∀ k, (∀ c n, 0 ≤ c → c < m → 0 ≤ n → n < B * N → k ≠ C * n + c) → t.2 k = pcm k) ∧
      (∀ c, 0 ≤ c → c < m → t.1 c = if B * N = 0 then preemph_memD c
        else deemphasised out_mem preemph preemph_memD N B C c (B * N - 1).toNat) ∧
      (∀ c, ¬ (0 ≤ c ∧ c < m) → t.1 c = preemph_memD c))
    0 C (fun c s => cfor 0 (B * N) (fun n (s : Sig α × Sig Int) =>
          let tmp := out_mem (C * (MAX_PERIOD - B * N + n) + c) + preemph * s.1 c
          (wr s.1 c tmp, wr s.2 (C * n + c) (clamp_round tmp))) s) (preemph_memD, pcm)
    (by omega)
    ⟨fun c n h0 h1 => by omega, fun _ _ => rfl, fun c h0 h1 => by omega, fun _ _ => rfl⟩
    (fun m t hm0 hm1 ⟨q1, q2, q3, q4⟩ => by
      obtain ⟨d1, d2, d3, d4⟩ := deemphasis_channel out_mem preemph preemph_memD N B C m
        (B * N) t hC hM (q4 m (by omega))
      refine ⟨fun c n hc0 hc1 hn0 hn1 => ?_, fun k hk => ?_, fun c hc0 hc1 => ?_,
        fun c hc => ?_⟩
      · by_cases hcm : c = m
        · rw [hcm]
          exact d1 n hn0 hn1
        · rw [d2 (C * n + c) (fun n2 _ _ h => hcm
            (euclid_unique C n n2 c m hc0 (by omega) hm0 hm1 h).2)]
          exact q1 c n hc0 (by omega) hn0 hn1
      · rw [d2 k (fun n h0 h1 => hk m n hm0 (by omega) h0 h1)]
        exact q2 k (fun c n hc0 hc1 hn0 hn1 => hk c n hc0 (by omega) hn0 hn1)
      · by_cases hcm : c = m
        · rw [hcm]
          exact d3
        · rw [d4 c hcm]
          exact q3 c hc0 (by omega)
      · rw [d4 c (by omega)]
        exact q4 c (by omega))
  obtain ⟨k1, k2, k3, k4⟩ := key
  exact ⟨fun c n hc0 hc1 hn0 hn1 => k1 c n hc0 hc1 hn0 hn1, k2, k3, k4⟩

/-- C3. For `C ≥ 1`, `B ≥ 0`, `N ≥ 0`: the de-emphasis loops that `celt_encode`,
`celt_decode` and `celt_decode_lost` run on their new history store, at cell
`C·i·N + C·j + c` of `pcm`, the value `floor(clamp(y, -32767, 32767) + 1/2)` of the
de-emphasised sample `y = y[i·N + j]` of channel `c`, where
`y[n] = out_mem[C·(MAX_PERIOD - B·N + n) + c] + preemph·y[n-1]` and `y[-1]` is the
de-emphasis memory; the stored value lies in `[-32767, 32767]` and is never `-32768`; the
other cells of `pcm` are untouched; and for every value `t` the clamps and the conversion
of the loops give `floor(clamp(t) + 1/2)`. -/
theorem output_clamp_round (E : Ext α) (out_mem : Sig α) (preemph : α) (preemph_memD : Sig α)
    (pcm : Sig Int) (N B C : Int) (hC : 1 ≤ C) (hB : 0 ≤ B) (hN : 0 ≤ N) :
    (∀ c i j, 0 ≤ c → c < C → 0 ≤ i → i < B → 0 ≤ j → j < N →
      (deemphasis out_mem preemph preemph_memD pcm N B C).2 (C * i * N + C * j + c)
        = ⌊max (-32767) (min (deemphasised out_mem preemph preemph_memD N B C c
            (i * N + j).toNat) 32767) + 1 / 2⌋ ∧
      -32767 ≤ (deemphasis out_mem preemph preemph_memD pcm N B C).2 (C * i * N + C * j + c) ∧
      (deemphasis out_mem preemph preemph_memD pcm N B C).2 (C * i * N + C * j + c) ≤ 32767 ∧
      (deemphasis out_mem preemph preemph_memD pcm N B C).2 (C * i * N + C * j + c)
        ≠ -32768) ∧
    (∀ (c : Int) (n : Nat), deemphasised out_mem preemph preemph_memD N B C c n
      = out_mem (C * (MAX_PERIOD - B * N + (n : Int)) + c)
        + preemph * (if n = 0 then preemph_memD c
            else deemphasised out_mem preemph preemph_memD N B C c (n - 1))) ∧
    (∀ k, (∀ c i j, 0 ≤ c → c < C → 0 ≤ i → i < B → 0 ≤ j → j < N →
        k ≠ C * i * N + C * j + c) →
      (deemphasis out_mem preemph preemph_memD pcm N B C).2 k = pcm k) ∧
    (∀ t : α, clamp_round t = ⌊max (-32767) (min t 32767) + 1 / 2⌋ ∧
      -32767 ≤ clamp_round t ∧ clamp_round t ≤ 32767 ∧ clamp_round t ≠ -32768) ∧
    (∀ (st : CELTDecoder α E) (p : Sig Int) (stack : Nat → Sig α),
      (celt_decode_lost E st p stack).2
        = (deemphasis (celt_decode_lost E st p stack).1.out_mem st.preemph st.preemph_memD p
            st.block_size st.nb_blocks st.mode.nbChannels).2) ∧
    (∀ (st : CELTDecoder α E) (data : Sig Nat) (len : Int) (p : Sig Int)
        (stack : Nat → Sig α),
      (celt_decode_frame E st data len p stack).2.1
        = (deemphasis (celt_decode_frame E st data len p stack).1.out_mem st.preemph
            st.preemph_memD p st.block_size st.nb_blocks st.mode.nbChannels).2) ∧
    (∀ (st : CELTEncoder α E) (p : Sig Int) (nbCompressedBytes : Int) (stack : Nat → Sig α)
        (a : Analysis α E) (gp : Sig α × Sig α × (E.Enc × E.Buf)),
      (celt_encode_synthesis E st p nbCompressedBytes stack a gp).2.1
        = (deemphasis (celt_encode_synthesis E st p nbCompressedBytes stack a gp).1.out_mem
            st.preemph st.preemph_memD p st.block_size st.nb_blocks st.mode.nbChannels).2) := by
  obtain ⟨s1, s2, _, _⟩ := deemphasis_spec out_mem preemph preemph_memD pcm N B C hC hB hN
  have hidx : ∀ i j : Int, 0 ≤ i → i < B → 0 ≤ j → j < N →
      0 ≤ i * N + j ∧ i * N + j < B * N := by
    intro i j hi0 hi1 hj0 hj1
    have h1 : 0 ≤ i * N := mul_nonneg hi0 hN
    have h2 : (i + 1) * N ≤ B * N := mul_le_mul_of_nonneg_right (by omega) hN
    have h3 : (i + 1) * N = i * N + N := by ring
    omega
  refine ⟨?_, ?_, ?_, ?_, fun _ _ _ => rfl, fun _ _ _ _ _ => rfl, fun _ _ _ _ _ _ => rfl⟩
  · intro c i j hc0 hc1 hi0 hi1 hj0 hj1
    obtain ⟨h1, h2⟩ := hidx i j hi0 hi1 hj0 hj1
    have e : C * i * N + C * j + c = C * (i * N + j) + c := by ring
    rw [e, s1 c (i * N + j) hc0 hc1 h1 h2]
    obtain ⟨c1, c2, c3⟩ := clamp_round_spec
      (deemphasised out_mem preemph preemph_memD N B C c (i * N + j).toNat)
    exact ⟨c1, c2, c3, by omega⟩
  · intro c n
    cases n with
    | zero =>
      rw [if_pos rfl]
      rfl
    | succ n =>
      rw [if_neg (by omega)]
      rfl
  · intro k hk
    apply s2 k
    intro c n hc0 hc1 hn0 hn1 h
    have hN0 : N ≠ 0 := by
      intro h0
      rw [h0, mul_zero] at hn1
      omega
    have hNpos : 0 < N := by omega
    have hq0 : 0 ≤ n / N := Int.ediv_nonneg hn0 hN
    have hq1 : n / N < B := by
      rw [Int.ediv_lt_iff_lt_mul hNpos]
      exact hn1
    have hr0 : 0 ≤ n % N := Int.emod_nonneg n hN0
    have hr1 : n % N < N := Int.emod_lt_of_pos n hNpos
    have hd : n / N * N + n % N = n := by
      rw [mul_comm]
      exact Int.ediv_add_emod n N
    apply hk c (n / N) (n % N) hc0 hc1 hq0 hq1 hr0 hr1
    rw [h, ← hd]
    have e : C * (n / N * N + n % N) + c = C * (n / N) * N + C * (n % N) + c := by ring
    rw [e, hd]
  · intro t
    obtain ⟨h1, h2, h3⟩ := clamp_round_spec t
    exact ⟨h1, h2, h3, by omega⟩

/-- C3 on two samples of one channel (`N = 2`, `B = C = 1`), history `..., 50, 40000`,
`preemph = 8/10` and memory `100`: the second cell holds the clamped
`y[1] = 40000 + 0.8·(50 + 0.8·100)`. -/
theorem output_clamp_round_witness :
    (deemphasis (fun k => if k = 1022 then (50 : ℚ) else if k = 1023 then 40000 else 0)
        (8 / 10) (fun _ => 100) (fun _ => 0) 2 1 1).2 (1 * 0 * 2 + 1 * 1 + 0)
      = ⌊max (-32767) (min (deemphasised
          (fun k => if k = 1022 then (50 : ℚ) else if k = 1023 then 40000 else 0)
          (8 / 10) (fun _ => 100) 2 1 1 0 ((0 : Int) * 2 + 1).toNat) 32767) + 1 / 2⌋ ∧
    -32767 ≤ (deemphasis (fun k => if k = 1022 then (50 : ℚ) else if k = 1023 then 40000 else 0)
        (8 / 10) (fun _ => 100) (fun _ => 0) 2 1 1).2 (1 * 0 * 2 + 1 * 1 + 0) ∧
    (deemphasis (fun k => if k = 1022 then (50 : ℚ) else if k = 1023 then 40000 else 0)
        (8 / 10) (fun _ => 100) (fun _ => 0) 2 1 1).2 (1 * 0 * 2 + 1 * 1 + 0) ≤ 32767 ∧
    (deemphasis (fun k => if k = 1022 then (50 : ℚ) else if k = 1023 then 40000 else 0)
        (8 / 10) (fun _ => 100) (fun _ => 0) 2 1 1).2 (1 * 0 * 2 + 1 * 1 + 0) ≠ -32768 :=
  (output_clamp_round testExt
    (fun k => if k = 1022 then (50 : ℚ) else if k = 1023 then 40000 else 0)
    (8 / 10) (fun _ => 100) (fun _ => 0) 2 1 1 (by decide) (by decide) (by decide)).1 0 0 1
    (by decide) (by decide) (by decide) (by decide) (by decide) (by decide)

end Deemphasis
/-! ## Two consecutive loss calls -/

section Concealment

variable [LinearOrderedField α] [FloorRing α]

omit [FloorRing α] in
/-- The de-emphasised samples `y[0..m]` of a channel read only its memory and its last
samples in the history. -/
theorem deemphasised_congr (out_mem out_mem2 : Sig α) (preemph : α)
    (preemph_memD preemph_memD2 : Sig α) (N B C c : Int) (m : Nat)
    (hmem : preemph_memD2 c = preemph_memD c)
    (hout : ∀ n : Nat, n ≤ m →
      out_mem2 (C * (MAX_PERIOD - B * N + (n : Int)) + c)
        = out_mem (C * (MAX_PERIOD - B * N + (n : Int)) + c)) :
    deemphasised out_mem2 preemph preemph_memD2 N B C c m
      = deemphasised out_mem preemph preemph_memD N B C c m := by
  induction m with
  | zero =>
    show out_mem2 (C * (MAX_PERIOD - B * N + 0) + c) + preemph * preemph_memD2 c
      = out_mem (C * (MAX_PERIOD - B * N + 0) + c) + preemph * preemph_memD c
    have h := hout 0 (le_refl _)
    rw [Nat.cast_zero] at h
    rw [h, hmem]
  | succ m ih =>
    show out_mem2 (C * (MAX_PERIOD - B * N + ((m + 1 : Nat) : Int)) + c)
        + preemph * deemphasised out_mem2 preemph preemph_memD2 N B C c m
      = out_mem (C * (MAX_PERIOD - B * N + ((m + 1 : Nat) : Int)) + c)
        + preemph * deemphasised out_mem preemph preemph_memD N B C c m
    rw [hout (m + 1) (le_refl _), ih (fun n hn => hout n (by omega))]

/-- C6 as amended. Two consecutive loss calls on a state with a valid mode both return `0`
and read the history at the same `last_pitch_index`; the second call is `celt_decode_lost`
on the state and `pcm` that the first call left. For `C ≥ 1`, `B ≥ 0`, `N ≥ 0` each call
stores at `pcm[C·i·N + C·j + c]` the rounded, clamped de-emphasised sample `y[i·N + j]` of
its own new history, the first starting from the de-emphasis memory of the state and the
second from the last sample `y[B·N - 1]` of the first. So the second frame equals the first,
sample for sample, when the last `B·N` samples per channel of the two new histories agree
and the first call leaves the de-emphasis memory as it found it, in particular when the
first call leaves the decoder state as it found it. -/
theorem stationary_concealment_amended (E : Ext α) (fuel : Nat) (st : CELTDecoder α E)
    (len len' : Int) (pcm : Sig Int) (stack : Nat → Sig α)
    (hmode : E.check_mode st.mode = true) :
    ∃ r1 r2 : DecodeResult α E,
      celt_decode E fuel st none len pcm stack = some r1 ∧
      celt_decode E fuel r1.st none len' r1.pcm stack = some r2 ∧
      r1.ret = .ok 0 ∧ r2.ret = .ok 0 ∧
      r1.st.last_pitch_index = st.last_pitch_index ∧
      r2.st.last_pitch_index = st.last_pitch_index ∧
      (r1.st, r1.pcm) = celt_decode_lost E st pcm stack ∧
      (r2.st, r2.pcm) = celt_decode_lost E r1.st r1.pcm stack ∧
      (1 ≤ st.mode.nbChannels → 0 ≤ st.nb_blocks → 0 ≤ st.block_size →
        (∀ c i j, 0 ≤ c → c < st.mode.nbChannels → 0 ≤ i → i < st.nb_blocks → 0 ≤ j →
          j < st.block_size →
          r1.pcm (st.mode.nbChannels * i * st.block_size + st.mode.nbChannels * j + c)
            = ⌊max (-32767) (min (deemphasised r1.st.out_mem st.preemph st.preemph_memD
                st.block_size st.nb_blocks st.mode.nbChannels c
                (i * st.block_size + j).toNat) 32767) + 1 / 2⌋ ∧
          r2.pcm (st.mode.nbChannels * i * st.block_size + st.mode.nbChannels * j + c)
            = ⌊max (-32767) (min (deemphasised r2.st.out_mem st.preemph r1.st.preemph_memD
                st.block_size st.nb_blocks st.mode.nbChannels c
                (i * st.block_size + j).toNat) 32767) + 1 / 2⌋) ∧
        (∀ c, 0 ≤ c → c < st.mode.nbChannels →
          r1.st.preemph_memD c
            = if st.nb_blocks * st.block_size = 0 then st.preemph_memD c
              else deemphasised r1.st.out_mem st.preemph st.preemph_memD st.block_size
                st.nb_blocks st.mode.nbChannels c
                (st.nb_blocks * st.block_size - 1).toNat) ∧
        ((∀ c n, 0 ≤ c → c < st.mode.nbChannels → 0 ≤ n →
            n < st.nb_blocks * st.block_size →
            r2.st.out_mem (st.mode.nbChannels
                * (MAX_PERIOD - st.nb_blocks * st.block_size + n) + c)
              = r1.st.out_mem (st.mode.nbChannels
                * (MAX_PERIOD - st.nb_blocks * st.block_size + n) + c)) →
          (∀ c, 0 ≤ c → c < st.mode.nbChannels →
            r1.st.preemph_memD c = st.preemph_memD c) →
          r2.pcm = r1.pcm)) ∧
      (r1.st = st → r2.pcm = r1.pcm) := by
  have hmode1 : E.check_mode (celt_decode_lost E st pcm stack).1.mode = true := hmode
  refine ⟨{ ret := .ok 0, st := (celt_decode_lost E st pcm stack).1,
            pcm := (celt_decode_lost E st pcm stack).2, warnings := [] },
    { ret := .ok 0,
      st := (celt_decode_lost E (celt_decode_lost E st pcm stack).1
        (celt_decode_lost E st pcm stack).2 stack).1,
      pcm := (celt_decode_lost E (celt_decode_lost E st pcm stack).1
        (celt_decode_lost E st pcm stack).2 stack).2, warnings := [] },
    ?_, ?_, rfl, rfl, rfl, rfl, rfl, rfl, ?_, ?_⟩
  · unfold celt_decode
    simp [hmode]
  · unfold celt_decode
    simp [hmode1]
  · intro hC hB hN
    simp only
    generalize hs1 : celt_decode_lost E st pcm stack = l1
    generalize hs2 : celt_decode_lost E l1.1 l1.2 stack = l2
    have hp1 : l1.2 = (deemphasis l1.1.out_mem st.preemph st.preemph_memD pcm
        st.block_size st.nb_blocks st.mode.nbChannels).2 := by
      rw [← hs1]
      rfl
    have hm1 : l1.1.preemph_memD = (deemphasis l1.1.out_mem st.preemph st.preemph_memD pcm
        st.block_size st.nb_blocks st.mode.nbChannels).1 := by
      rw [← hs1]
      rfl
    have hp2 : l2.2 = (deemphasis l2.1.out_mem st.preemph l1.1.preemph_memD l1.2
        st.block_size st.nb_blocks st.mode.nbChannels).2 := by
      rw [← hs2, ← hs1]
      rfl
    obtain ⟨a1, a2, a3, _⟩ := deemphasis_spec l1.1.out_mem st.preemph st.preemph_memD pcm
      st.block_size st.nb_blocks st.mode.nbChannels hC hB hN
    obtain ⟨b1, b2, _, _⟩ := deemphasis_spec l2.1.out_mem st.preemph l1.1.preemph_memD l1.2
      st.block_size st.nb_blocks st.mode.nbChannels hC hB hN
    rw [← hp1] at a1 a2
    rw [← hm1] at a3
    rw [← hp2] at b1 b2
    have hidx : ∀ i j : Int, 0 ≤ i → i < st.nb_blocks → 0 ≤ j → j < st.block_size →
        0 ≤ i * st.block_size + j ∧ i * st.block_size + j < st.nb_blocks * st.block_size := by
      intro i j hi0 hi1 hj0 hj1
      have h1 : 0 ≤ i * st.block_size := mul_nonneg hi0 hN
      have h2 : (i + 1) * st.block_size ≤ st.nb_blocks * st.block_size :=
        mul_le_mul_of_nonneg_right (by omega) hN
      have h3 : (i + 1) * st.block_size = i * st.block_size + st.block_size := by ring
      omega
    refine ⟨?_, a3, ?_⟩
    · intro c i j hc0 hc1 hi0 hi1 hj0 hj1
      obtain ⟨h1, h2⟩ := hidx i j hi0 hi1 hj0 hj1
      have e : st.mode.nbChannels * i * st.block_size + st.mode.nbChannels * j + c
          = st.mode.nbChannels * (i * st.block_size + j) + c := by ring
      rw [e, a1 c _ hc0 hc1 h1 h2, b1 c _ hc0 hc1 h1 h2]
      exact ⟨(clamp_round_spec _).1, (clamp_round_spec _).1⟩
    · intro hout hmem
      funext k
      by_cases hk : ∃ c n, 0 ≤ c ∧ c < st.mode.nbChannels ∧ 0 ≤ n ∧
          n < st.nb_blocks * st.block_size ∧ k = st.mode.nbChannels * n + c
      · obtain ⟨c, n, hc0, hc1, hn0, hn1, hkn⟩ := hk
        rw [hkn, a1 c n hc0 hc1 hn0 hn1, b1 c n hc0 hc1 hn0 hn1]
        congr 1
        apply deemphasised_congr
        · exact hmem c hc0 hc1
        · intro m hm
          exact hout c m hc0 hc1 (by omega) (by omega)
      · rw [b2 k (fun c n hc0 hc1 hn0 hn1 h => hk ⟨c, n, hc0, hc1, hn0, hn1, h⟩)]
  · intro hfix
    have hfix2 : (celt_decode_lost E st pcm stack).1 = st := hfix
    show (celt_decode_lost E (celt_decode_lost E st pcm stack).1
        (celt_decode_lost E st pcm stack).2 stack).2 = (celt_decode_lost E st pcm stack).2
    rw [hfix2]
    unfold celt_decode_lost
    simp only
    funext k
    obtain ⟨_, h⟩ := deemphasis_two_buffers
      (compute_inv_mdcts E st.mdct_lookup st.window
        (compute_mdcts E st.mdct_lookup st.window
          (offs st.out_mem (st.last_pitch_index * st.mode.nbChannels)) (stack 0)
          st.block_size st.nb_blocks st.mode.nbChannels (stack 1) (stack 2)).2
        (CELT_MOVE st.out_mem (st.mode.nbChannels * st.nb_blocks * st.block_size)
          (st.mode.nbChannels * (MAX_PERIOD - st.nb_blocks * st.block_size)))
        st.mdct_overlap st.block_size st.overlap st.nb_blocks st.mode.nbChannels
        (stack 3) (stack 4)).1 st.preemph st.preemph_memD pcm
      (deemphasis
        (compute_inv_mdcts E st.mdct_lookup st.window
          (compute_mdcts E st.mdct_lookup st.window
            (offs st.out_mem (st.last_pitch_index * st.mode.nbChannels)) (stack 0)
            st.block_size st.nb_blocks st.mode.nbChannels (stack 1) (stack 2)).2
          (CELT_MOVE st.out_mem (st.mode.nbChannels * st.nb_blocks * st.block_size)
            (st.mode.nbChannels * (MAX_PERIOD - st.nb_blocks * st.block_size)))
          st.mdct_overlap st.block_size st.overlap st.nb_blocks st.mode.nbChannels
          (stack 3) (stack 4)).1 st.preemph st.preemph_memD pcm
        st.block_size st.nb_blocks st.mode.nbChannels).2
      st.block_size st.nb_blocks st.mode.nbChannels
    rcases h k with h | ⟨h, h'⟩
    · exact h.symm
    · exact h'

/-- C6 as amended, on `testDecoder`, whose history and de-emphasis memory are not zero: both
loss calls return `0`; the first writes `pcm[0] = 80` and leaves the memory `80`, and the
second, starting from that memory, writes `pcm[0] = 64`. -/
theorem stationary_concealment_amended_witness :
    (∃ r1 r2 : DecodeResult ℚ testExt,
      celt_decode testExt 0 testDecoder none 0 (fun _ => 0) (fun _ _ => 0) = some r1 ∧
      celt_decode testExt 0 r1.st none 5 r1.pcm (fun _ _ => 0) = some r2 ∧
      r1.ret = .ok 0 ∧ r2.ret = .ok 0 ∧
      r1.st.last_pitch_index = testDecoder.last_pitch_index ∧
      r2.st.last_pitch_index = testDecoder.last_pitch_index ∧
      (r1.st, r1.pcm) = celt_decode_lost testExt testDecoder (fun _ => 0) (fun _ _ => 0) ∧
      (r2.st, r2.pcm) = celt_decode_lost testExt r1.st r1.pcm (fun _ _ => 0)) ∧
    (celt_decode testExt 0 testDecoder none 0 (fun _ => 0) (fun _ _ => 0)).bind (fun r1 =>
      (celt_decode testExt 0 r1.st none 5 r1.pcm (fun _ _ => 0)).map (fun r2 =>
        (r1.pcm 0, r1.st.preemph_memD 0, r2.pcm 0)))
      = some (80, 80, 64) := by
  obtain ⟨r1, r2, h1, h2, h3, h4, h5, h6, h7, h8, _⟩ := stationary_concealment_amended testExt
    0 testDecoder 0 5 (fun _ => 0) (fun _ _ => 0) (by decide)
  exact ⟨⟨r1, r2, h1, h2, h3, h4, h5, h6, h7, h8⟩, by decide!⟩

end Concealment

end Celt
